import Mathlib

/-!
# go-json-gen: a dynamic JSON element tree (`src/edit.go`)

A shallow embedding of `JSONElement` with its operations `NewJSONElement`,
`SetValue`, `AddChild` and `ToJSON`, together with the part of Go's
`encoding/json` that `ToJSON` calls (`json.MarshalIndent`, `json.Unmarshal`).

Conventions of the embedding:

* Go byte slices and strings are sequences of Unicode scalar values
  (`List Char`, `String`), that is, well-formed UTF-8 text. Strings holding
  ill-formed byte sequences are outside the embedding.
* A Go map is an association list without repeated keys; the order of the
  list is the order in which the `range` loops of one call visit the entries.
  Go does not fix that order: another call may visit the same maps in other
  orders, so it runs on a heap related to the first by `sameTree`.
* `encoding/json` is embedded from its documented behaviour (sorted keys,
  HTML-safe escaping with the short escapes of Go 1.22, numbers decoded into
  `interface{}` as float64). Of the decoder, the part that reads what the
  encoder writes for the values of `GoValue` is embedded: JSON arrays
  and numbers with a fraction or an exponent are outside the embedding, and
  so is the decoder's bound of 10000 levels on the nesting of a text.
* Pointers to `JSONElement` are addresses into a heap (`List JSONElement`).
* A Go call that does not return (blocked on a lock, nil dereference, recursion
  without end) is `none`.
* Concurrent calls are interleavings of the statements of the calls, each
  statement one step; a call that waits for a lock has no step. All accesses to
  the maps happen under the lock of their element, so this is what the Go
  memory model gives for these programs.
-/

namespace GoJsonGen

/-! ## Go values held in `map[string]interface{}` -/

/-- The text of a Go byte slice. -/
abbrev Bytes := List Char

/-- Dynamic Go values (`interface{}`) that a node's `data` map may hold.
`int i` is a Go integer: a value of a built-in integer type when
`-2 ^ 63 ≤ i < 2 ^ 64`, and a `*big.Int`, which `encoding/json` encodes
through its `MarshalJSON` as its decimal digits, for any `i`. `float64 f` is
the float64 whose value is the
integer `f` (the decoder produces these for integer literals). `map m` is a
`map[string]interface{}`. `unsupported typ` is a value of a Go type that
`encoding/json` cannot encode (a channel, a function, a complex number),
with the name of its type. -/
inductive GoValue where
  | nil
  | bool (b : Bool)
  | int (i : Int)
  | float64 (f : Int)
  | string (s : String)
  | map (m : List (String × GoValue))
  | unsupported (typ : String)

/-- Errors of `encoding/json`: `*json.UnsupportedTypeError` (with the name of
the Go type), `*json.SyntaxError` and `*json.UnmarshalTypeError` (with the
JSON kind that did not fit). -/
inductive JSONError where
  | unsupportedType (typ : String)
  | syntaxError
  | unmarshalType (value : String)
deriving DecidableEq, Repr

/-- A Go map with string keys. -/
abbrev GoMap (α : Type) := List (String × α)

/-- Map read `m[key]` (with the comma-ok form: `none` when absent). -/
def mapGet {α : Type} : GoMap α → String → Option α
  | [], _ => none
  | (k, v) :: rest, key => if k = key then some v else mapGet rest key

/-- Map write `m[key] = value`: replaces the entry of `key` when there is
one, adds an entry otherwise. -/
def mapSet {α : Type} : GoMap α → String → α → GoMap α
  | [], key, value => [(key, value)]
  | (k, v) :: rest, key, value =>
    if k = key then (k, value) :: rest else (k, v) :: mapSet rest key value

/-- The keys of a map, in iteration order. -/
def mapKeys {α : Type} (m : GoMap α) : List String := m.map Prod.fst

/-! ## Numbers: decimal text and float64 rounding -/

/-- The character of a decimal digit. -/
def digitChar (d : Nat) : Char := Char.ofNat (48 + d)

/-- Decimal digits of a natural number, most significant first. -/
def formatNatAux : Nat → Nat → Bytes
  | 0, _ => []
  | fuel + 1, n =>
    if n < 10 then [digitChar n]
    else formatNatAux fuel (n / 10) ++ [digitChar (n % 10)]

/-- Decimal text of a natural number (`strconv.AppendUint`). -/
def formatNat (n : Nat) : Bytes := formatNatAux (n + 1) n

/-- Decimal text of an integer (`strconv.AppendInt`, base 10). -/
def formatInt (i : Int) : Bytes :=
  if i < 0 then '-' :: formatNat i.natAbs else formatNat i.natAbs

/-- How many low bits a natural number has beyond the 53 bits of a float64
significand. -/
def excessBits : Nat → Nat → Nat
  | 0, _ => 0
  | fuel + 1, n => if n < 2 ^ 53 then 0 else excessBits fuel (n / 2) + 1

/-- The float64 nearest to a natural number, ties to the even significand
(the conversion `float64(n)` and the result of `strconv.ParseFloat` on the
decimal text of `n`), as the integer it equals. -/
def roundFloat64Nat (n : Nat) : Nat :=
  let sh := excessBits n n
  let q := n / 2 ^ sh
  let r := n % 2 ^ sh
  let half := 2 ^ (sh - 1)
  (if half < r ∨ (r = half ∧ q % 2 = 1 ∧ 0 < sh) then q + 1 else q) * 2 ^ sh

/-- The float64 nearest to an integer. -/
def roundFloat64 (i : Int) : Int :=
  if i < 0 then -((roundFloat64Nat i.natAbs : Nat) : Int) else (roundFloat64Nat i.natAbs : Nat)

/-- Values of this size and beyond do not fit a float64 (`math.MaxFloat64` is
just below `2 ^ 1024`, written here as a product of four equal powers). -/
def float64Limit : Nat := 2 ^ 256 * 2 ^ 256 * 2 ^ 256 * 2 ^ 256

/-- The search of `strconv.FormatFloat(f, fmt, -1, 64)` for the shortest
decimal that reads back as the float64 `F`: the candidate with the most
trailing zeros among the multiples of a power of ten next to `F`, the nearer
one when both neighbours read back as `F`, the even one on a tie. -/
def shortestAux (F : Nat) : Nat → Nat
  | 0 => F
  | k + 1 =>
    let p := 10 ^ (k + 1)
    let lo := F / p * p
    let hi := lo + p
    let okdown := roundFloat64Nat lo = F
    let okup := roundFloat64Nat hi = F
    if okdown ∧ okup then
      (if F - lo < hi - F then lo
       else if hi - F < F - lo then hi
       else if (F / p) % 2 = 0 then lo else hi)
    else if okdown then lo
    else if okup then hi
    else shortestAux F k

/-- The shortest decimal integer that reads back as the float64 `F`. -/
def shortestDecimal (F : Nat) : Nat := shortestAux F (formatNat F).length

/-- Drops the zeros at the end of a digit string. -/
def stripZeros (ds : Bytes) : Bytes :=
  (ds.reverse.dropWhile (fun c => c = '0')).reverse

/-- Exponent form of `strconv.FormatFloat` for an integer value: first digit, the further digits after a point, then the exponent with
its sign and at least two digits. -/
def formatExp (c : Nat) : Bytes :=
  let ds := formatNat c
  let e := formatNat (ds.length - 1)
  let e2 := if e.length < 2 then '0' :: e else e
  match stripZeros ds with
  | [] => '0' :: 'e' :: '+' :: e2
  | [d] => d :: 'e' :: '+' :: e2
  | d :: more => d :: '.' :: more ++ 'e' :: '+' :: e2

/-- The encoder's text of a float64 with integer value `f` (`floatEncoder`):
plain notation with the shortest digits below `10 ^ 21`, exponent form from
there on. -/
def formatFloat64 (f : Int) : Bytes :=
  let body :=
    if f.natAbs < 10 ^ 21 then formatNat (shortestDecimal f.natAbs)
    else formatExp (shortestDecimal f.natAbs)
  if f < 0 then '-' :: body else body

/-! ## `json.MarshalIndent` -/

/-- Lower-case hexadecimal digit. -/
def hexDigit (n : Nat) : Char :=
  if n < 10 then Char.ofNat (48 + n) else Char.ofNat (87 + n)

/-- The encoder's text for one character of a string (`appendString` with
HTML escaping, as `Marshal` uses it): the quote and the backslash get a
backslash, control characters get their short escape or a `\u00XX` escape,
`<`, `>`, `&` and the separators U+2028, U+2029 get a `\uXXXX` escape, and
every other character stands for itself. -/
def escapeChar (c : Char) : Bytes :=
  if c = '"' ∨ c = '\\' then ['\\', c]
  else if c.toNat = 8 then ['\\', 'b']
  else if c.toNat = 12 then ['\\', 'f']
  else if c = '\n' then ['\\', 'n']
  else if c = '\r' then ['\\', 'r']
  else if c = '\t' then ['\\', 't']
  else if c.toNat < 32 ∨ c = '<' ∨ c = '>' ∨ c = '&' then
    ['\\', 'u', '0', '0', hexDigit (c.toNat / 16), hexDigit (c.toNat % 16)]
  else if c.toNat = 8232 ∨ c.toNat = 8233 then
    ['\\', 'u', '2', '0', '2', hexDigit (c.toNat % 16)]
  else [c]

/-- The escaped characters of a string followed by the closing quote. -/
def appendString : List Char → Bytes
  | [] => ['"']
  | c :: cs => escapeChar c ++ appendString cs

/-- A string as a JSON string literal. -/
def quote (s : String) : Bytes := '"' :: appendString s.data

/-- Order of two texts by code points, the order of their UTF-8 bytes. -/
def bytesLE : List Char → List Char → Bool
  | [], _ => true
  | _ :: _, [] => false
  | a :: as, b :: bs =>
    if a.toNat < b.toNat then true
    else if b.toNat < a.toNat then false
    else bytesLE as bs

/-- Order of map keys used by the encoder. -/
def keyLE (a b : String) : Bool := bytesLE a.data b.data

/-- Inserts an entry into a list of entries sorted by key. -/
def insertEntry {α : Type} (e : String × α) : GoMap α → GoMap α
  | [] => [e]
  | x :: rest => if keyLE e.1 x.1 then e :: x :: rest else x :: insertEntry e rest

/-- The entries of a map sorted by key (the encoder writes maps in key
order). -/
def sortEntries {α : Type} : GoMap α → GoMap α
  | [] => []
  | e :: rest => insertEntry e (sortEntries rest)

/-- The text of `depth` copies of `indent`. -/
def indentation (indent : Bytes) : Nat → Bytes
  | 0 => []
  | depth + 1 => indent ++ indentation indent depth

/-- The line break that `json.Indent` writes before an element at nesting
depth `depth`: a newline, the line start `pfx`, then `depth` copies of
`indent`. -/
def newline (pfx indent : Bytes) (depth : Nat) : Bytes :=
  '\n' :: (pfx ++ indentation indent depth)

/-- The first error among encoded entries, in list order, or all the texts. -/
def collectEntries : GoMap (Except JSONError Bytes) → Except JSONError (GoMap Bytes)
  | [] => .ok []
  | (_, .error e) :: _ => .error e
  | (k, .ok t) :: rest =>
    match collectEntries rest with
    | .error e => .error e
    | .ok ts => .ok ((k, t) :: ts)

/-- The members of a non-empty object at depth `depth` and its closing
brace: `"key": value` separated by a comma and a line break. -/
def members (pfx indent : Bytes) (depth : Nat) : GoMap Bytes → Bytes
  | [] => newline pfx indent depth ++ ['}']
  | [(k, t)] => quote k ++ ':' :: ' ' :: t ++ (newline pfx indent depth ++ ['}'])
  | (k, t) :: e :: rest =>
    quote k ++ ':' :: ' ' :: t ++
      ',' :: newline pfx indent (depth + 1) ++ members pfx indent depth (e :: rest)

/-- The text of an object whose sorted members are already encoded. -/
def encodeObject (pfx indent : Bytes) (depth : Nat) : GoMap Bytes → Bytes
  | [] => ['{', '}']
  | e :: rest => '{' :: newline pfx indent (depth + 1) ++ members pfx indent depth (e :: rest)

/-- The indented encoding of a value at nesting depth `depth`. A map is
written in key order; the first value in that order that cannot be encoded
gives the error. -/
def encodeValue (pfx indent : Bytes) : Nat → GoValue → Except JSONError Bytes
  | _, .nil => .ok ['n', 'u', 'l', 'l']
  | _, .bool true => .ok ['t', 'r', 'u', 'e']
  | _, .bool false => .ok ['f', 'a', 'l', 's', 'e']
  | _, .int i => .ok (formatInt i)
  | _, .float64 f => .ok (formatFloat64 f)
  | _, .string s => .ok (quote s)
  | _, .unsupported typ => .error (.unsupportedType typ)
  | depth, .map m =>
    match collectEntries (sortEntries (encodeEntries depth m)) with
    | .error e => .error e
    | .ok ts => .ok (encodeObject pfx indent depth ts)
where
  /-- The encodings of the values of a map, one level deeper. -/
  encodeEntries : Nat → List (String × GoValue) → GoMap (Except JSONError Bytes)
    | _, [] => []
    | depth, (k, v) :: rest => (k, encodeValue pfx indent (depth + 1) v) :: encodeEntries depth rest

/-- Go's `json.MarshalIndent(v, pfx, indent)`: the bytes and a nil error, or
nil bytes and the error. -/
def MarshalIndent (v : GoValue) (pfx indent : Bytes) : Option Bytes × Option JSONError :=
  match encodeValue pfx indent 0 v with
  | .ok b => (some b, none)
  | .error e => (none, some e)

/-! ## `json.Unmarshal`

The decoder reads the JSON texts made of objects, strings, integer literals,
`true`, `false` and `null`, which are the texts `ToJSON` produces. Arrays and
numbers with a fraction or an exponent are outside the embedding and are
reported as a syntax error. -/

/-- JSON white space. -/
def isSpace (c : Char) : Bool := c = ' ' ∨ c = '\t' ∨ c = '\r' ∨ c = '\n'

/-- Skips white space. -/
def skipSpace : Bytes → Bytes
  | [] => []
  | c :: rest => if isSpace c then skipSpace rest else c :: rest

/-- Removes the literal `lit` from the front of the text. -/
def stripLit : Bytes → Bytes → Option Bytes
  | [], s => some s
  | _ :: _, [] => none
  | a :: as, b :: bs => if a = b then stripLit as bs else none

/-- Whether the character is a decimal digit. -/
def isDigit (c : Char) : Bool := 48 ≤ c.toNat ∧ c.toNat ≤ 57

/-- Reads the digits at the front of the text: their value on top of `acc`
and the rest of the text. -/
def readDigits : Nat → Bytes → Nat × Bytes
  | acc, [] => (acc, [])
  | acc, c :: rest =>
    if isDigit c then readDigits (10 * acc + (c.toNat - 48)) rest else (acc, c :: rest)

/-- Reads the digits of a JSON integer literal without its sign: a single
`0`, or digits that do not start with `0`; a fraction or an exponent after
them is refused. -/
def readNat : Bytes → Option (Nat × Bytes)
  | [] => none
  | c :: rest =>
    if isDigit c then
      let r := if c = '0' then (0, rest) else readDigits (c.toNat - 48) rest
      match r.2 with
      | [] => some r
      | d :: _ => if isDigit d ∨ d = '.' ∨ d = 'e' ∨ d = 'E' then none else some r
    else none

/-- The value the decoder stores for an integer literal: the nearest float64
(`strconv.ParseFloat`), an error when it does not fit a float64. -/
def decodeNumber (negative : Bool) (n : Nat) : Except JSONError GoValue :=
  if roundFloat64Nat n < float64Limit then
    .ok (.float64 (if negative then -((roundFloat64Nat n : Nat) : Int) else (roundFloat64Nat n : Nat)))
  else .error (.unmarshalType "number")

/-- Value of a hexadecimal digit. -/
def hexVal (c : Char) : Option Nat :=
  if 48 ≤ c.toNat ∧ c.toNat ≤ 57 then some (c.toNat - 48)
  else if 97 ≤ c.toNat ∧ c.toNat ≤ 102 then some (c.toNat - 87)
  else if 65 ≤ c.toNat ∧ c.toNat ≤ 70 then some (c.toNat - 55)
  else none

/-- Value of four hexadecimal digits. -/
def hex4 (a b c d : Char) : Option Nat :=
  match hexVal a, hexVal b, hexVal c, hexVal d with
  | some x, some y, some z, some w => some (((x * 16 + y) * 16 + z) * 16 + w)
  | _, _, _, _ => none

/-- The code unit of a `\uXXXX` escape at the front of the text (`getu4`). -/
def getu4 : Bytes → Option Nat
  | b :: u :: x :: y :: z :: w :: _ => if b = '\\' ∧ u = 'u' then hex4 x y z w else none
  | _ => none

/-- The character a one-letter escape stands for. -/
def simpleEscape (e : Char) : Option Char :=
  if e = '"' then some '"'
  else if e = '\\' then some '\\'
  else if e = '/' then some '/'
  else if e = 'b' then some (Char.ofNat 8)
  else if e = 'f' then some (Char.ofNat 12)
  else if e = 'n' then some '\n'
  else if e = 'r' then some '\r'
  else if e = 't' then some '\t'
  else none

/-- The Unicode replacement character U+FFFD. -/
def replacementChar : Char := Char.ofNat 65533

/-- Adds a character in front of the string of a read result. -/
def consChar (c : Char) : Option (List Char × Bytes) → Option (List Char × Bytes)
  | none => none
  | some (s, rest) => some (c :: s, rest)

/-- Reads a string literal after its opening quote up to the closing quote
(`unquote`), in at most `fuel` steps: escapes are resolved, a surrogate pair
of `\u` escapes gives one character, a lone surrogate gives U+FFFD, and a raw
control character is an error. -/
def unquoteAux : Nat → Bytes → Option (List Char × Bytes)
  | 0, _ => none
  | _ + 1, [] => none
  | fuel + 1, c :: rest =>
    if c = '"' then some ([], rest)
    else if c = '\\' then
      match rest with
      | [] => none
      | e :: rest2 =>
        if e = 'u' then
          match rest2 with
          | x :: y :: z :: w :: rest3 =>
            match hex4 x y z w with
            | none => none
            | some rr =>
              if 55296 ≤ rr ∧ rr < 57344 then
                match getu4 rest3 with
                | some rr1 =>
                  if rr < 56320 ∧ 56320 ≤ rr1 ∧ rr1 < 57344 then
                    consChar (Char.ofNat ((rr - 55296) * 1024 + (rr1 - 56320) + 65536))
                      (unquoteAux fuel (rest3.drop 6))
                  else consChar replacementChar (unquoteAux fuel rest3)
                | none => consChar replacementChar (unquoteAux fuel rest3)
              else consChar (Char.ofNat rr) (unquoteAux fuel rest3)
          | _ => none
        else
          match simpleEscape e with
          | none => none
          | some ch => consChar ch (unquoteAux fuel rest2)
    else if c.toNat < 32 then none
    else consChar c (unquoteAux fuel rest)

/-- Reads a string literal after its opening quote; a step reads at least one
character, so the length of the text bounds the steps. -/
def unquote (s : Bytes) : Option (List Char × Bytes) := unquoteAux (s.length + 1) s

/-- Reads a string literal: the opening quote, then `unquote`. -/
def readString : Bytes → Option (String × Bytes)
  | [] => none
  | c :: rest =>
    if c = '"' then
      match unquote rest with
      | none => none
      | some (s, rest2) => some (String.mk s, rest2)
    else none

/-- Reads the members of an object after the opening brace and white space
were read, given the reader `value` for member values: the closing brace, or
`"key": value` followed by a comma and further members or by the closing
brace. A repeated key keeps its last value. -/
def readMembers (value : Bytes → Except JSONError (GoValue × Bytes)) :
    Nat → Bool → GoMap GoValue → Bytes → Except JSONError (GoMap GoValue × Bytes)
  | 0, _, _, _ => .error .syntaxError
  | fuel + 1, first, acc, s =>
    match s with
    | [] => .error .syntaxError
    | c :: rest =>
      if c = '}' ∧ first then .ok (acc, rest)
      else
        match readString (c :: rest) with
        | none => .error .syntaxError
        | some (key, s1) =>
          match skipSpace s1 with
          | [] => .error .syntaxError
          | colon :: s2 =>
            if colon = ':' then
              match value (skipSpace s2) with
              | .error e => .error e
              | .ok (v, s3) =>
                match skipSpace s3 with
                | [] => .error .syntaxError
                | sep :: s4 =>
                  if sep = ',' then readMembers value fuel false (mapSet acc key v) (skipSpace s4)
                  else if sep = '}' then .ok (mapSet acc key v, s4)
                  else .error .syntaxError
            else .error .syntaxError

/-- Reads one JSON value at the front of the text (after white space was
skipped) and returns it as the decoder stores it in an `interface{}`: an
object as `map[string]interface{}`, a number as float64. -/
def readValue : Nat → Bytes → Except JSONError (GoValue × Bytes)
  | 0, _ => .error .syntaxError
  | fuel + 1, s =>
    match s with
    | [] => .error .syntaxError
    | c :: rest =>
      if c = '{' then
        match readMembers (readValue fuel) (rest.length + 1) true [] (skipSpace rest) with
        | .error e => .error e
        | .ok (m, s1) => .ok (.map m, s1)
      else if c = '"' then
        match readString (c :: rest) with
        | none => .error .syntaxError
        | some (str, s1) => .ok (.string str, s1)
      else if c = '-' then
        match readNat rest with
        | none => .error .syntaxError
        | some (n, s1) =>
          match decodeNumber true n with
          | .error e => .error e
          | .ok v => .ok (v, s1)
      else if isDigit c then
        match readNat (c :: rest) with
        | none => .error .syntaxError
        | some (n, s1) =>
          match decodeNumber false n with
          | .error e => .error e
          | .ok v => .ok (v, s1)
      else
        match stripLit ['t', 'r', 'u', 'e'] (c :: rest) with
        | some s1 => .ok (.bool true, s1)
        | none =>
          match stripLit ['f', 'a', 'l', 's', 'e'] (c :: rest) with
          | some s1 => .ok (.bool false, s1)
          | none =>
            match stripLit ['n', 'u', 'l', 'l'] (c :: rest) with
            | some s1 => .ok (.nil, s1)
            | none => .error .syntaxError

/-- Go's `json.Unmarshal(data, &childData)` for `childData` of type
`map[string]interface{}`: the value left in `childData` and the error. An
object fills the map, `null` leaves the nil map (shown as `GoValue.nil`, which
the encoder writes as `null` like a nil map), and any other JSON value is an
`UnmarshalTypeError`. On an error the map stays nil. -/
def Unmarshal (data : Bytes) : GoValue × Option JSONError :=
  match readValue (data.length + 1) (skipSpace data) with
  | .error e => (.nil, some e)
  | .ok (v, rest) =>
    match skipSpace rest with
    | _ :: _ => (.nil, some .syntaxError)
    | [] =>
      match v with
      | .map m => (.map m, none)
      | .nil => (.nil, none)
      | .string _ => (.nil, some (.unmarshalType "string"))
      | .bool _ => (.nil, some (.unmarshalType "bool"))
      | _ => (.nil, some (.unmarshalType "number"))

/-! ## `JSONElement` and its operations (`src/edit.go`) -/

/-- State of a `sync.RWMutex`: the number of read locks held and whether the
write lock is held. -/
structure RWMutex where
  readers : Nat
  writer : Bool
deriving DecidableEq, Repr

/-- The struct `JSONElement`: its lock `mu`, the map `data` and the map
`children` of pointers to child elements. -/
structure JSONElement where
  mu : RWMutex
  data : GoMap GoValue
  children : GoMap Nat

/-- The heap of allocated `JSONElement` structs; a `*JSONElement` is an
address (index) into it. -/
abbrev Heap := List JSONElement

/-- `mu.RLock()` on the element at `je`: blocks while the write lock is
held. -/
def RLock (h : Heap) (je : Nat) : Option Heap :=
  match h[je]? with
  | none => none
  | some n =>
    if n.mu.writer then none
    else some (h.set je { n with mu := { n.mu with readers := n.mu.readers + 1 } })

/-- `mu.RUnlock()` on the element at `je`: a fatal error when no read lock is
held. -/
def RUnlock (h : Heap) (je : Nat) : Option Heap :=
  match h[je]? with
  | none => none
  | some n =>
    if n.mu.readers = 0 then none
    else some (h.set je { n with mu := { n.mu with readers := n.mu.readers - 1 } })

/-- `mu.Lock()` on the element at `je`: blocks while any lock is held. -/
def Lock (h : Heap) (je : Nat) : Option Heap :=
  match h[je]? with
  | none => none
  | some n =>
    if n.mu.writer ∨ n.mu.readers ≠ 0 then none
    else some (h.set je { n with mu := { n.mu with writer := true } })

/-- `mu.Unlock()` on the element at `je`: a fatal error when the write lock
is not held. -/
def Unlock (h : Heap) (je : Nat) : Option Heap :=
  match h[je]? with
  | none => none
  | some n =>
    if n.mu.writer then some (h.set je { n with mu := { n.mu with writer := false } })
    else none

/-- `NewJSONElement()`: allocates an element with an unlocked mutex, an empty
`data` map and an empty `children` map, and returns its address. -/
def NewJSONElement (h : Heap) : Heap × Nat :=
  (h ++ [{ mu := { readers := 0, writer := false }, data := [], children := [] }], h.length)

/-- `je.SetValue(key, value)`: under the write lock of `je`,
`je.data[key] = value`. -/
def SetValue (h : Heap) (je : Nat) (key : String) (value : GoValue) : Option Heap :=
  match Lock h je with
  | none => none
  | some h1 =>
    match h1[je]? with
    | none => none
    | some n => Unlock (h1.set je { n with data := mapSet n.data key value }) je

/-- `je.AddChild(key)`: under the write lock of `je`, allocates a new element,
stores its address in `je.children[key]` and returns it. -/
def AddChild (h : Heap) (je : Nat) (key : String) : Option (Heap × Nat) :=
  match Lock h je with
  | none => none
  | some h1 =>
    let (h2, child) := NewJSONElement h1
    match h2[je]? with
    | none => none
    | some n =>
      match Unlock (h2.set je { n with children := mapSet n.children key child }) je with
      | none => none
      | some h3 => some (h3, child)

/-- What a Go function of type `([]byte, error)` returns. -/
abbrev Result := Option Bytes × Option JSONError

/-- How the loop over the children ends: with a `return` of the function, or
by running to its end with the merged map. -/
inductive LoopResult where
  | returned (r : Result)
  | done (fullData : GoMap GoValue)

/-- The first loop of `ToJSON`: `for k, v := range je.data { fullData[k] = v }`. -/
def copyData : GoMap GoValue → GoMap GoValue → GoMap GoValue
  | [], fullData => fullData
  | (k, v) :: rest, fullData => copyData rest (mapSet fullData k v)

/-- The second loop of `ToJSON`, over `je.children`, given the function
`toJSON` for the recursive call: a child's error or a decoding error returns
`nil, err` at once, otherwise the decoded object of the child is stored at the
child's key. -/
def mergeChildren (toJSON : Heap → Nat → Option (Result × Heap)) :
    GoMap Nat → Heap → GoMap GoValue → Option (LoopResult × Heap)
  | [], h, fullData => some (.done fullData, h)
  | (k, child) :: rest, h, fullData =>
    match toJSON h child with
    | none => none
    | some ((_, some err), h1) => some (.returned (none, some err), h1)
    | some ((childJSON, none), h1) =>
      match Unmarshal (childJSON.getD []) with
      | (_, some err) => some (.returned (none, some err), h1)
      | (childData, none) => mergeChildren toJSON rest h1 (mapSet fullData k childData)

/-- `je.ToJSON()` with a bound `fuel` on the nesting of calls: takes the read
lock of `je`, copies `je.data`, merges the children, encodes the merged map
with `json.MarshalIndent(fullData, "", "  ")`, and releases the read lock on
return (`defer`). The result is the returned pair and the heap after the
call. -/
def ToJSONFuel : Nat → Heap → Nat → Option (Result × Heap)
  | 0, _, _ => none
  | fuel + 1, h, je =>
    match RLock h je with
    | none => none
    | some h1 =>
      match h1[je]? with
      | none => none
      | some n =>
        match mergeChildren (ToJSONFuel fuel) n.children h1 (copyData n.data []) with
        | none => none
        | some (.returned r, h2) =>
          match RUnlock h2 je with
          | none => none
          | some h3 => some (r, h3)
        | some (.done fullData, h2) =>
          match RUnlock h2 je with
          | none => none
          | some h3 => some (MarshalIndent (.map fullData) [] [' ', ' '], h3)

/-- `je.ToJSON()`. An element made by `AddChild` is younger than its parent,
so the number of elements of the heap bounds the nesting of the calls. -/
def ToJSON (h : Heap) (je : Nat) : Option (Result × Heap) := ToJSONFuel h.length h je

/-- The demonstration `edit()` up to its call of `root.ToJSON()`: the heap it
builds, starting from an empty heap, with the addresses of `root`, `person`
and `address`. -/
def editBuild : Option (Heap × Nat × Nat × Nat) :=
  let (h0, root) := NewJSONElement []
  (SetValue h0 root "projectName" (.string "Dynamic JSON Builder")).bind fun h1 =>
  (SetValue h1 root "version" (.string "1.0.0")).bind fun h2 =>
  (AddChild h2 root "person").bind fun (h3, person) =>
  (SetValue h3 person "name" (.string "John Doe")).bind fun h4 =>
  (SetValue h4 person "age" (.int 30)).bind fun h5 =>
  (AddChild h5 person "address").bind fun (h6, address) =>
  (SetValue h6 address "street" (.string "123 Main St")).bind fun h7 =>
  (SetValue h7 address "city" (.string "Anytown")).bind fun h8 =>
  (SetValue h8 address "country" (.string "USA")).bind fun h9 =>
  some (h9, root, person, address)

/-- The demonstration `edit()`: what `root.ToJSON()` returns on the tree it
built. -/
def edit : Option Result :=
  editBuild.bind fun (h, root, _, _) => (ToJSON h root).map Prod.fst


/-! ## Vocabulary of the specification -/

/-- What `json.Unmarshal` yields for the encoding of a value: an integer
becomes the nearest float64, a map has its entries in key order with decoded
values, every other value is read back as it is. -/
def decoded : GoValue → GoValue
  | .nil => .nil
  | .bool b => .bool b
  | .int i => .float64 (roundFloat64 i)
  | .float64 f => .float64 f
  | .string s => .string s
  | .unsupported typ => .unsupported typ
  | .map m => .map (sortEntries (decodedEntries m))
where
  /-- The entries of a map with decoded values. -/
  decodedEntries : List (String × GoValue) → GoMap GoValue
    | [] => []
    | (k, v) :: rest => (k, decoded v) :: decodedEntries rest

/-- The values of the embedding that stand for Go values: an integer fits 64
bits (signed or unsigned), a float64 holds an integer that a float64 can hold
exactly and that the encoder writes in plain notation, and a map has no
repeated key. -/
def validValue : GoValue → Bool
  | .int i => decide (-(2 ^ 63) ≤ i ∧ i < 2 ^ 64)
  | .float64 f => decide (roundFloat64Nat f.natAbs = f.natAbs ∧ f.natAbs < 10 ^ 21)
  | .map m => decide (mapKeys m).Nodup && validEntries m
  | _ => true
where
  /-- Validity of every value of the entries. -/
  validEntries : List (String × GoValue) → Bool
    | [] => true
    | (_, v) :: rest => validValue v && validEntries rest

/-- Well-formedness of the element at address `p` of a heap of `len`
elements: no repeated key in its maps, every child pointer points to a
younger element of the heap, and every value of `data` is a valid value. -/
def wfNode (len p : Nat) (n : JSONElement) : Bool :=
  decide (mapKeys n.data).Nodup && decide (mapKeys n.children).Nodup &&
    n.children.all (fun kc => decide (p < kc.2 ∧ kc.2 < len)) &&
    n.data.all (fun kv => validValue kv.2)

/-- Well-formedness of the elements of a list placed at the addresses from
`p` on. -/
def wfNodes (len : Nat) : Nat → List JSONElement → Bool
  | _, [] => true
  | p, n :: rest => wfNode len p n && wfNodes len (p + 1) rest

/-- Whether no lock of the heap is held. -/
def idle (h : Heap) : Bool := h.all (fun n => decide (n.mu = { readers := 0, writer := false }))

/-- The heaps that `NewJSONElement`, `SetValue` and `AddChild` build, between
two calls: every element is well formed and no lock is held. -/
def WFHeap (h : Heap) : Prop := wfNodes h.length 0 h = true ∧ idle h = true

instance (h : Heap) : Decidable (WFHeap h) := by unfold WFHeap; infer_instance

/-- The second loop of `ToJSON` without the heap: `render` gives what the
recursive call returns for a child. -/
def mergeSpec (render : Nat → Option Result) : GoMap Nat → GoMap GoValue → Option LoopResult
  | [], fullData => some (.done fullData)
  | (k, child) :: rest, fullData =>
    match render child with
    | none => none
    | some (_, some err) => some (.returned (none, some err))
    | some (childJSON, none) =>
      match Unmarshal (childJSON.getD []) with
      | (_, some err) => some (.returned (none, some err))
      | (childData, none) => mergeSpec render rest (mapSet fullData k childData)

/-- What `ToJSON` returns, as a function of the maps of the elements alone
(the locks are not read). -/
def renderFuel : Nat → Heap → Nat → Option Result
  | 0, _, _ => none
  | fuel + 1, h, je =>
    match h[je]? with
    | none => none
    | some n =>
      match mergeSpec (renderFuel fuel h) n.children (copyData n.data []) with
      | none => none
      | some (.returned r) => some r
      | some (.done fullData) => some (MarshalIndent (.map fullData) [] [' ', ' '])

/-- A call of the API on a heap. -/
inductive Call where
  | newElement
  | setValue (je : Nat) (key : String) (value : GoValue)
  | addChild (je : Nat) (key : String)

/-- Runs a sequence of API calls, one after the other. -/
def runCalls : List Call → Heap → Option Heap
  | [], h => some h
  | .newElement :: rest, h => runCalls rest (NewJSONElement h).1
  | .setValue je key value :: rest, h =>
    match SetValue h je key value with
    | none => none
    | some h1 => runCalls rest h1
  | .addChild je key :: rest, h =>
    match AddChild h je key with
    | none => none
    | some (h1, _) => runCalls rest h1

/-- Applies a function to the values of the entries. -/
def mapValues {α β : Type} (f : α → β) (l : GoMap α) : GoMap β :=
  l.map (fun kv => (kv.1, f kv.2))

/-- Entries in key order. -/
def keysSorted {α : Type} (l : GoMap α) : Prop :=
  List.Pairwise (fun a b => keyLE a.1 b.1 = true) l

/-- The text after a number may not continue the number. -/
def endsNumber (rest : Bytes) : Prop :=
  match rest with
  | [] => True
  | d :: _ => ¬ (isDigit d = true ∨ d = '.' ∨ d = 'e' ∨ d = 'E')

/-- The decoded object that the loop of `ToJSON` stores for the child at
address `child`, given what the recursive call returns. -/
def childDataOf (render : Nat → Option Result) (child : Nat) : GoValue :=
  match render child with
  | some (childJSON, _) => (Unmarshal (childJSON.getD [])).1
  | none => .nil

/-- A child whose `ToJSON` returns without error and whose bytes decode
without error. -/
def childOk (render : Nat → Option Result) (child : Nat) : Prop :=
  ∃ childJSON, render child = some (childJSON, none) ∧ (Unmarshal (childJSON.getD [])).2 = none

/-- The maps of an element, without its lock. -/
def contentOf (n : JSONElement) : GoMap GoValue × GoMap Nat := (n.data, n.children)

/-- Whether no write lock of the heap is held. -/
def noWriter (h : Heap) : Prop := ∀ n ∈ h, n.mu.writer = false

/-- A result of `ToJSON` is either nil bytes with an error, or the bytes that
`json.MarshalIndent` gives for a valid map with a nil error. -/
def goodResult (r : Result) : Prop :=
  (∃ e, r = (none, some e)) ∨
    (∃ fd b, r = (some b, none) ∧ validValue (.map fd) = true ∧
      MarshalIndent (.map fd) [] [' ', ' '] = (some b, none))

/-- The facts of well-formedness of one element, as propositions. -/
structure NodeFacts (len p : Nat) (n : JSONElement) : Prop where
  dataKeys : (mapKeys n.data).Nodup
  childKeys : (mapKeys n.children).Nodup
  childPtr : ∀ kc ∈ n.children, p < kc.2 ∧ kc.2 < len
  values : ∀ kv ∈ n.data, validValue kv.2 = true

/-- Well-formedness of the elements of a heap, whatever the locks. -/
def wfShape (h : Heap) : Prop := ∀ p n, h[p]? = some n → NodeFacts h.length p n

/-- The element that `NewJSONElement` allocates. -/
def freshElement : JSONElement :=
  { mu := { readers := 0, writer := false }, data := [], children := [] }

/-- The merged map `fullData` of an element whose children all render and
decode without error. -/
def fullDataOf (render : Nat → Option Result) (n : JSONElement) : GoMap GoValue :=
  copyData (mapValues (childDataOf render) n.children) (copyData n.data [])

/-- Whether every value set by the calls is a valid value. -/
def validCalls : List Call → Bool
  | [] => true
  | .setValue _ _ value :: rest => validValue value && validCalls rest
  | _ :: rest => validCalls rest

/-- Two elements with the same lock and the same maps, whose entries may be
listed in different orders. -/
def sameElement (a b : JSONElement) : Prop :=
  a.mu = b.mu ∧ List.Perm a.data b.data ∧ List.Perm a.children b.children

/-- The same heap as another execution of the loops may see it: every map
holds the same entries, and the order in which `range` visits them (the order
of the lists) may differ, since Go does not fix the iteration order of a
map. -/
def sameTree (h h' : Heap) : Prop := List.Forall₂ sameElement h h'

/-- Two results agree when they are equal as soon as one of them carries no
error: both are errors, or they are the same bytes. -/
def sameOutcome (r r' : Result) : Prop := (r.2 = none ∨ r'.2 = none) → r = r'

/-- Strictly increasing keys. -/
def keyLT {α : Type} (a b : String × α) : Prop := keyLE a.1 b.1 = true ∧ a.1 ≠ b.1

/-- Reachability along child pointers: `Reach h p q` when `q` is the element
`p` or a descendant of `p` in the heap `h`. -/
inductive Reach (h : Heap) : Nat → Nat → Prop where
  | refl (p : Nat) : Reach h p p
  | step (p : Nat) (node : JSONElement) (kc : String × Nat) (q : Nat) :
      h[p]? = some node → kc ∈ node.children → Reach h kc.2 q → Reach h p q

/-- From the address `lo` on the heap is a forest: an element at such an
address is the child of at most one element, under at most one key. -/
def forestAbove (lo : Nat) (h : Heap) : Prop :=
  ∀ (p p' : Nat) (node node' : JSONElement) (kc kc' : String × Nat), h[p]? = some node →
    h[p']? = some node' → kc ∈ node.children → kc' ∈ node'.children → kc.2 = kc'.2 →
    lo ≤ kc.2 → p = p' ∧ kc = kc'

/-- No element of the heap has the element at `c` as a child. -/
def noParent (c : Nat) (h : Heap) : Prop :=
  ∀ (p : Nat) (node : JSONElement) (kc : String × Nat), h[p]? = some node →
    kc ∈ node.children → kc.2 ≠ c

/-! ## The claims of the specification, as stated -/

/-- An unlocked element with the given maps. -/
def element (data : GoMap GoValue) (children : GoMap Nat) : JSONElement :=
  { mu := { readers := 0, writer := false }, data := data, children := children }

/-- A heap of one element that holds the integer `2 ^ 53 + 1`. -/
def bigIntHeap : Heap := [element [("n", .int 9007199254740993)] []]

/-- The heap that `bigIntCalls` builds. -/
def bigIntTree : Heap :=
  [element [] [("c", 1)], element [("n", .int 9007199254740993)] []]

/-- A root with two children that both hold a value `encoding/json` cannot
encode, of two different types. -/
def twoErrorsHeap : Heap :=
  [element [] [("a", 1), ("b", 2)], element [("x", .unsupported "chan int")] [],
    element [("y", .unsupported "func()")] []]

/-- The heap that the demonstration `edit()` builds. -/
def editHeap : Heap :=
  [element [("projectName", .string "Dynamic JSON Builder"), ("version", .string "1.0.0")]
      [("person", 1)],
    element [("name", .string "John Doe"), ("age", .int 30)] [("address", 2)],
    element [("street", .string "123 Main St"), ("city", .string "Anytown"),
      ("country", .string "USA")] []]

/-- The bytes that `ToJSON` returns for the child `person` of the
demonstration. -/
def personBytes : Bytes :=
  "\x7b\n  \"address\": \x7b\n    \"city\": \"Anytown\",\n    \"country\": \"USA\",\n    \"street\": \"123 Main St\"\n  \x7d,\n  \"age\": 30,\n  \"name\": \"John Doe\"\n\x7d".toList

/-- The bytes that `ToJSON` returns for the root of the demonstration. -/
def editBytes : Bytes :=
  "\x7b\n  \"person\": \x7b\n    \"address\": \x7b\n      \"city\": \"Anytown\",\n      \"country\": \"USA\",\n      \"street\": \"123 Main St\"\n    \x7d,\n    \"age\": 30,\n    \"name\": \"John Doe\"\n  \x7d,\n  \"projectName\": \"Dynamic JSON Builder\",\n  \"version\": \"1.0.0\"\n\x7d".toList

/-- The object decoded from the bytes of `address`. -/
def addressObject : GoMap GoValue :=
  [("city", .string "Anytown"), ("country", .string "USA"), ("street", .string "123 Main St")]

/-- The object decoded from the bytes of `person`. -/
def personObject : GoMap GoValue :=
  [("address", .map addressObject), ("age", .float64 30), ("name", .string "John Doe")]

/-- The object decoded from the bytes of the root. -/
def editObject : GoMap GoValue :=
  [("person", .map personObject), ("projectName", .string "Dynamic JSON Builder"),
    ("version", .string "1.0.0")]

/-- Whether every call is a `SetValue` or an `AddChild` on an element at an
address from `lo` on, other than the address `skip`. After `AddChild` returned
the address `lo`, these are the calls on that child and its descendants, as
long as no other element is created. -/
def callsWithin (lo : Nat) (skip : Option Nat) : List Call → Bool
  | [] => true
  | .setValue je _ _ :: rest => decide (lo ≤ je ∧ some je ≠ skip) && callsWithin lo skip rest
  | .addChild je _ :: rest => decide (lo ≤ je ∧ some je ≠ skip) && callsWithin lo skip rest
  | .newElement :: _ => false

/-- The tree of `twoErrorsHeap` when the loop over the children of the root
visits `b` before `a`. -/
def twoErrorsReordered : Heap :=
  [element [] [("b", 2), ("a", 1)], element [("x", .unsupported "chan int")] [],
    element [("y", .unsupported "func()")] []]

/-- A root whose first child at `k` (address 1, with a child of its own at
address 2) was overwritten by a second child at `k` (address 3). -/
def orphanHeap : Heap :=
  [element [] [("k", 3)], element [("x", .int 5), ("z", .string "late")] [("y", 2)],
    element [] [], element [("w", .bool true)] []]

/-! ## Further claims of the specification, as stated -/

/-- The claim on the re-parse step, for the element at `c`: whenever
`ToJSON(c)` returns bytes without error, decoding them into a string-keyed
map succeeds. -/
def reparseClaim (h : Heap) (c : Nat) : Prop :=
  ∀ bytes g, ToJSON h c = some ((some bytes, none), g) → ∃ d, Unmarshal bytes = (.map d, none)

/-- A root whose child `c` holds at `x` the integer `2 ^ 1024`, a `*big.Int`
beyond the range of float64. -/
def bigNumberHeap : Heap :=
  [element [] [("c", 1)], element [("x", .int (Int.ofNat float64Limit))] []]

/-- A run of `n` spaces. -/
def spaces (n : Nat) : Bytes := List.replicate n ' '

/-- The lines of the members of a non-empty object whose members are at
nesting depth `d`, as the specification describes them: every member starts a
line of its own with exactly `2 * d` spaces, then its key, a colon, a space
and its value; a comma ends every member but the last. -/
def layoutMembers (d : Nat) : GoMap Bytes → Bytes
  | [] => []
  | [(k, t)] => '\n' :: (spaces (2 * d) ++ quote k ++ ':' :: ' ' :: t)
  | (k, t) :: e :: rest =>
    '\n' :: (spaces (2 * d) ++ quote k ++ ':' :: ' ' :: t) ++ ',' :: layoutMembers d (e :: rest)

/-- The text of an object whose members, at nesting depth `d`, are already
laid out: the two braces for an empty object, otherwise the opening brace, the
lines of the members, and the closing brace on a line of its own with
`2 * (d - 1)` spaces. -/
def layoutObject (d : Nat) : GoMap Bytes → Bytes
  | [] => ['{', '}']
  | e :: rest => '{' :: layoutMembers d (e :: rest) ++ '\n' :: (spaces (2 * (d - 1)) ++ ['}'])

/-- The text of a value that is not a map, which no indentation changes. -/
def scalarText (v : GoValue) : Except JSONError Bytes := encodeValue [] [] 0 v

/-- The layout of a value whose members, when it is a map, are at nesting
depth `d` (the keys of the root at depth 1): the members in key order, every
nested map one level deeper. -/
def layout : Nat → GoValue → Except JSONError Bytes
  | d, .map m =>
    match collectEntries (sortEntries (layoutEntries d m)) with
    | .error e => .error e
    | .ok ts => .ok (layoutObject d ts)
  | _, .nil => scalarText .nil
  | _, .bool b => scalarText (.bool b)
  | _, .int i => scalarText (.int i)
  | _, .float64 f => scalarText (.float64 f)
  | _, .string s => scalarText (.string s)
  | _, .unsupported typ => scalarText (.unsupported typ)
where
  /-- The layouts of the values of a map, one level deeper. -/
  layoutEntries : Nat → List (String × GoValue) → GoMap (Except JSONError Bytes)
    | _, [] => []
    | d, (k, v) :: rest => (k, layout (d + 1) v) :: layoutEntries d rest

/-- The recursive call of `ToJSON` on a child when the bytes it returns are
rewritten by `f` (another indentation of the same JSON text). -/
def reindented (f : Bytes → Bytes) (toJSON : Heap → Nat → Option (Result × Heap)) :
    Heap → Nat → Option (Result × Heap) :=
  fun g c => (toJSON g c).map (fun rg => ((rg.1.1.map f, rg.1.2), rg.2))

/-! ## The lock operations of `ToJSON` -/

/-- An operation of `ToJSON` on the lock of the element at `je`: `mu.RLock()`
or `mu.RUnlock()`. -/
inductive LockEvent where
  | rlock (je : Nat)
  | runlock (je : Nat)
deriving DecidableEq, Repr

/-- The element whose lock the operation is on. -/
def elementOf : LockEvent → Nat
  | .rlock je => je
  | .runlock je => je

/-- The loop of `mergeChildren` together with the lock operations of the
recursive calls it makes, in the order in which they happen. -/
def mergeChildrenLog (toJSON : Heap → Nat → Option ((Result × Heap) × List LockEvent)) :
    GoMap Nat → Heap → GoMap GoValue → Option ((LoopResult × Heap) × List LockEvent)
  | [], h, fullData => some ((.done fullData, h), [])
  | (k, child) :: rest, h, fullData =>
    match toJSON h child with
    | none => none
    | some (((_, some err), h1), ev) => some ((.returned (none, some err), h1), ev)
    | some (((childJSON, none), h1), ev) =>
      match Unmarshal (childJSON.getD []) with
      | (_, some err) => some ((.returned (none, some err), h1), ev)
      | (childData, none) =>
        match mergeChildrenLog toJSON rest h1 (mapSet fullData k childData) with
        | none => none
        | some (r, ev2) => some (r, ev ++ ev2)

/-- The function `ToJSONFuel` together with the lock operations of the call,
in the order in which they happen: `RLock` of `je` first, the operations of
the recursive calls, and the deferred `RUnlock` of `je` last. -/
def ToJSONLog : Nat → Heap → Nat → Option ((Result × Heap) × List LockEvent)
  | 0, _, _ => none
  | fuel + 1, h, je =>
    match RLock h je with
    | none => none
    | some h1 =>
      match h1[je]? with
      | none => none
      | some n =>
        match mergeChildrenLog (ToJSONLog fuel) n.children h1 (copyData n.data []) with
        | none => none
        | some ((.returned r, h2), ev) =>
          match RUnlock h2 je with
          | none => none
          | some h3 => some ((r, h3), .rlock je :: ev ++ [.runlock je])
        | some ((.done fullData, h2), ev) =>
          match RUnlock h2 je with
          | none => none
          | some h3 =>
            some ((MarshalIndent (.map fullData) [] [' ', ' '], h3),
              .rlock je :: ev ++ [.runlock je])

/-- The lock operations of the loop over the children, given what the
recursive call returns (`render`) and its lock operations (`trace`) for
every child: the loop stops after the first child that fails. -/
def traceChildren (render : Nat → Option Result) (trace : Nat → List LockEvent) :
    GoMap Nat → List LockEvent
  | [] => []
  | (_, child) :: rest =>
    match render child with
    | some (childJSON, none) =>
      match Unmarshal (childJSON.getD []) with
      | (_, none) => trace child ++ traceChildren render trace rest
      | (_, some _) => trace child
    | _ => trace child

/-- The lock operations of `ToJSON` as a function of the maps of the
elements. -/
def traceFuel : Nat → Heap → Nat → List LockEvent
  | 0, _, _ => []
  | fuel + 1, h, je =>
    match h[je]? with
    | none => []
    | some n =>
      .rlock je :: traceChildren (renderFuel fuel h) (traceFuel fuel h) n.children ++
        [.runlock je]

/-- Whether, in a sequence of lock operations, every operation on the lock
of another element happens while no read lock of the element `n` is held;
`held` counts the read locks of `n` held so far. -/
def noLockAcross (n : Nat) : Nat → List LockEvent → Bool
  | _, [] => true
  | held, .rlock je :: rest =>
    if je = n then noLockAcross n (held + 1) rest
    else decide (held = 0) && noLockAcross n held rest
  | held, .runlock je :: rest =>
    if je = n then noLockAcross n (held - 1) rest
    else decide (held = 0) && noLockAcross n held rest

/-- The claim on the lock discipline of `ToJSON`, for the element at `n`: the
lock of `n` is not held while a recursive call works on another element. -/
def lockClaim (h : Heap) (n : Nat) : Prop :=
  ∀ r g log, ToJSONLog h.length h n = some ((r, g), log) → noLockAcross n 0 log = true

/-! ## Concurrent calls of `SetValue` -/

/-- One statement of a call `je.SetValue(key, value)` that has executed `pc`
of its statements: `mu.Lock()` at 0, which cannot move while any lock of `je`
is held; `data[key] = value` at 1, under the lock; the deferred `mu.Unlock()`
at 2; at 3 the call has returned and has no further step. The result is the
heap after the statement and the new count. -/
def stepCall (h : Heap) (je : Nat) (key : String) (value : GoValue) :
    Nat → Option (Heap × Nat)
  | 0 => (Lock h je).map (fun h1 => (h1, 1))
  | 1 =>
    match h[je]? with
    | none => none
    | some n => some (h.set je { n with data := mapSet n.data key value }, 2)
  | 2 => (Unlock h je).map (fun h1 => (h1, 3))
  | _ => none

/-- An interleaving of the concurrent calls `je.SetValue(k, v)`, one for each
entry of `calls`: the schedule names, step by step, the call that executes its
next statement; `pcs` holds the count of every call. A schedule that names a
call which cannot move is not an execution (`none`). -/
def runSchedule (je : Nat) (calls : List (String × GoValue)) :
    List Nat → Heap → List Nat → Option (Heap × List Nat)
  | [], h, pcs => some (h, pcs)
  | i :: rest, h, pcs =>
    match calls[i]?, pcs[i]? with
    | some kv, some pc =>
      match stepCall h je kv.1 kv.2 pc with
      | none => none
      | some (h1, pc1) => runSchedule je calls rest h1 (pcs.set i pc1)
    | _, _ => none

/-- What holds of the heap `g` and the counts `pcs` in every state of an
interleaving that starts on the heap `h`, for the element `n` with the maps of
`node`: the lock of `n` is held by the one call `holder` between its `Lock`
and its `Unlock`, or by none, and the map `D` of `n` holds the value of every
call that has done its write. -/
def SchedInv (h : Heap) (n : Nat) (node : JSONElement) (calls : List (String × GoValue))
    (g : Heap) (pcs : List Nat) : Prop :=
  ∃ (D : GoMap GoValue) (holder : Option Nat),
    pcs.length = calls.length ∧ (∀ i, holder = some i → i < pcs.length) ∧
    g = h.set n
      { mu := { readers := 0, writer := holder.isSome }, data := D, children := node.children } ∧
    (∀ (i pc : Nat), pcs[i]? = some pc → ((pc = 1 ∨ pc = 2) ↔ holder = some i)) ∧
    (∀ (i pc : Nat) (kv : String × GoValue), pcs[i]? = some pc → calls[i]? = some kv → 2 ≤ pc →
      mapGet D kv.1 = some kv.2) ∧
    (∀ k : String, (∀ (i pc : Nat) (kv : String × GoValue), pcs[i]? = some pc →
      calls[i]? = some kv → 2 ≤ pc → kv.1 ≠ k) → mapGet D k = mapGet node.data k) ∧
    (mapKeys D).Nodup ∧ (∀ kv ∈ D, validValue kv.2 = true)

/-! ## Lemmas on maps -/

theorem mapGet_mapSet {α : Type} (m : GoMap α) (k k' : String) (v : α) :
    mapGet (mapSet m k v) k' = if k = k' then some v else mapGet m k' := by
  induction m with
  | nil => simp [mapSet, mapGet]
  | cons e rest ih =>
    obtain ⟨a, b⟩ := e
    by_cases h : a = k
    · subst h
      by_cases h2 : a = k' <;> simp [mapSet, mapGet, h2]
    · by_cases h2 : a = k'
      · subst h2
        have : ¬ k = a := fun e => h e.symm
        simp [mapSet, mapGet, h, this]
      · simp [mapSet, mapGet, h, h2, ih]

theorem mapGet_eq_none_iff {α : Type} (m : GoMap α) (k : String) :
    mapGet m k = none ↔ k ∉ mapKeys m := by
  induction m with
  | nil => simp [mapGet, mapKeys]
  | cons e rest ih =>
    obtain ⟨a, b⟩ := e
    by_cases h : a = k
    · simp [mapGet, mapKeys, h]
    · have h' : ¬ k = a := fun e => h e.symm
      simp only [mapKeys] at ih
      simp [mapGet, mapKeys, h, h', ih]

theorem mem_of_mapGet {α : Type} (m : GoMap α) (k : String) (v : α)
    (h : mapGet m k = some v) : (k, v) ∈ m := by
  induction m with
  | nil => simp [mapGet] at h
  | cons e rest ih =>
    obtain ⟨a, b⟩ := e
    by_cases h1 : a = k
    · simp [mapGet, h1] at h
      simp [h1, h]
    · simp [mapGet, h1] at h
      exact List.mem_cons_of_mem _ (ih h)

theorem mapGet_of_mem {α : Type} (m : GoMap α) (k : String) (v : α)
    (hn : (mapKeys m).Nodup) (h : (k, v) ∈ m) : mapGet m k = some v := by
  induction m with
  | nil => simp at h
  | cons e rest ih =>
    obtain ⟨a, b⟩ := e
    simp only [mapKeys, List.map_cons, List.nodup_cons] at hn
    rcases List.mem_cons.mp h with h1 | h1
    · simp only [Prod.mk.injEq] at h1
      simp [mapGet, h1.1, h1.2]
    · have hk : k ∈ rest.map Prod.fst := List.mem_map.mpr ⟨(k, v), h1, rfl⟩
      have hne : ¬ a = k := fun e => hn.1 (e ▸ hk)
      simp only [mapGet, hne, if_false]
      exact ih hn.2 h1

theorem mapKeys_mapSet {α : Type} (m : GoMap α) (k : String) (v : α) :
    mapKeys (mapSet m k v) = if k ∈ mapKeys m then mapKeys m else mapKeys m ++ [k] := by
  induction m with
  | nil => simp [mapSet, mapKeys]
  | cons e rest ih =>
    obtain ⟨a, b⟩ := e
    simp only [mapKeys] at ih
    by_cases h : a = k
    · simp [mapSet, mapKeys, h]
    · have h' : ¬ k = a := fun e => h e.symm
      by_cases hm : k ∈ rest.map Prod.fst
      · simp only [mapSet, h, if_false, mapKeys, List.map_cons, ih, hm, if_true, List.mem_cons, or_true]
      · simp only [mapSet, h, if_false, mapKeys, List.map_cons, ih, hm, List.mem_cons, h', or_self,
          List.cons_append]

theorem nodup_mapSet {α : Type} (m : GoMap α) (k : String) (v : α)
    (hn : (mapKeys m).Nodup) : (mapKeys (mapSet m k v)).Nodup := by
  rw [mapKeys_mapSet]
  split
  · exact hn
  · rename_i h
    exact List.Nodup.append hn (List.nodup_singleton k) (by simpa using h)

theorem mapSet_of_not_mem {α : Type} (m : GoMap α) (k : String) (v : α)
    (h : k ∉ mapKeys m) : mapSet m k v = m ++ [(k, v)] := by
  induction m with
  | nil => simp [mapSet]
  | cons e rest ih =>
    obtain ⟨a, b⟩ := e
    simp only [mapKeys, List.map_cons, List.mem_cons, not_or] at h
    have h' : ¬ a = k := fun e => h.1 e.symm
    simp only [mapSet, h', if_false, List.cons_append]
    rw [ih h.2]

theorem mapSet_mapSet {α : Type} (m : GoMap α) (k : String) (v1 v2 : α) :
    mapSet (mapSet m k v1) k v2 = mapSet m k v2 := by
  induction m with
  | nil => simp [mapSet]
  | cons e rest ih =>
    obtain ⟨a, b⟩ := e
    by_cases h : a = k
    · simp [mapSet, h]
    · simp [mapSet, h, ih]

theorem mem_mapSet {α : Type} (m : GoMap α) (k : String) (v : α) (e : String × α)
    (h : e ∈ mapSet m k v) : e = (k, v) ∨ e ∈ m := by
  induction m with
  | nil => simp [mapSet] at h; exact Or.inl h
  | cons x rest ih =>
    obtain ⟨a, b⟩ := x
    by_cases h1 : a = k
    · simp only [mapSet, h1, if_true, List.mem_cons] at h
      rcases h with h | h
      · exact Or.inl h
      · exact Or.inr (List.mem_cons_of_mem _ h)
    · simp only [mapSet, h1, if_false, List.mem_cons] at h
      rcases h with h | h
      · exact Or.inr (h ▸ List.mem_cons_self _ _)
      · rcases ih h with h2 | h2
        · exact Or.inl h2
        · exact Or.inr (List.mem_cons_of_mem _ h2)

theorem nodup_copyData (d fd : GoMap GoValue) (hn : (mapKeys fd).Nodup) :
    (mapKeys (copyData d fd)).Nodup := by
  induction d generalizing fd with
  | nil => simpa [copyData] using hn
  | cons e rest ih =>
    obtain ⟨a, b⟩ := e
    simp only [copyData]
    exact ih _ (nodup_mapSet _ _ _ hn)

theorem mapGet_copyData (d fd : GoMap GoValue) (k : String) (hn : (mapKeys d).Nodup) :
    mapGet (copyData d fd) k =
      match mapGet d k with
      | some v => some v
      | none => mapGet fd k := by
  induction d generalizing fd with
  | nil => simp [copyData, mapGet]
  | cons e rest ih =>
    obtain ⟨a, b⟩ := e
    simp only [mapKeys, List.map_cons, List.nodup_cons] at hn
    simp only [copyData]
    rw [ih _ hn.2]
    by_cases h : a = k
    · subst h
      have hnone : mapGet rest a = none := (mapGet_eq_none_iff rest a).mpr hn.1
      simp [mapGet, hnone, mapGet_mapSet]
    · simp only [mapGet, h, if_false, mapGet_mapSet]

theorem mem_copyData (d fd : GoMap GoValue) (e : String × GoValue)
    (h : e ∈ copyData d fd) : e ∈ d ∨ e ∈ fd := by
  induction d generalizing fd with
  | nil => exact Or.inr (by simpa [copyData] using h)
  | cons x rest ih =>
    obtain ⟨a, b⟩ := x
    simp only [copyData] at h
    rcases ih _ h with h1 | h1
    · exact Or.inl (List.mem_cons_of_mem _ h1)
    · rcases mem_mapSet _ _ _ _ h1 with h2 | h2
      · exact Or.inl (h2 ▸ List.mem_cons_self _ _)
      · exact Or.inr h2

/-! ### Sorting by key -/

theorem insertEntry_perm {α : Type} (e : String × α) (l : GoMap α) :
    List.Perm (insertEntry e l) (e :: l) := by
  induction l with
  | nil => simp [insertEntry]
  | cons x rest ih =>
    simp only [insertEntry]
    split
    · exact List.Perm.refl _
    · exact (List.Perm.cons x ih).trans (List.Perm.swap e x rest)

theorem sortEntries_perm {α : Type} (l : GoMap α) : List.Perm (sortEntries l) l := by
  induction l with
  | nil => simp [sortEntries]
  | cons x rest ih =>
    simp only [sortEntries]
    exact (insertEntry_perm x _).trans (List.Perm.cons x ih)

theorem mapKeys_perm {α : Type} {l1 l2 : GoMap α} (h : List.Perm l1 l2) :
    List.Perm (mapKeys l1) (mapKeys l2) := List.Perm.map _ h

theorem nodup_sortEntries {α : Type} (l : GoMap α) (hn : (mapKeys l).Nodup) :
    (mapKeys (sortEntries l)).Nodup :=
  (List.Perm.nodup_iff (mapKeys_perm (sortEntries_perm l))).mpr hn

theorem mapGet_perm {α : Type} {l1 l2 : GoMap α} (h : List.Perm l1 l2)
    (hn : (mapKeys l1).Nodup) (k : String) : mapGet l1 k = mapGet l2 k := by
  have hn2 : (mapKeys l2).Nodup := (List.Perm.nodup_iff (mapKeys_perm h)).mp hn
  cases h1 : mapGet l1 k with
  | none =>
    have : k ∉ mapKeys l2 := fun hk =>
      (mapGet_eq_none_iff l1 k).mp h1 ((List.Perm.mem_iff (mapKeys_perm h)).mpr hk)
    exact ((mapGet_eq_none_iff l2 k).mpr this).symm
  | some v =>
    exact (mapGet_of_mem l2 k v hn2 ((List.Perm.mem_iff h).mp (mem_of_mapGet l1 k v h1))).symm

theorem mapGet_sortEntries {α : Type} (l : GoMap α) (hn : (mapKeys l).Nodup) (k : String) :
    mapGet (sortEntries l) k = mapGet l k :=
  mapGet_perm (sortEntries_perm l) (nodup_sortEntries l hn) k

theorem mapKeys_mapValues {α β : Type} (f : α → β) (l : GoMap α) :
    mapKeys (mapValues f l) = mapKeys l := by
  simp [mapKeys, mapValues, Function.comp_def]

theorem mapGet_mapValues {α β : Type} (f : α → β) (l : GoMap α) (k : String) :
    mapGet (mapValues f l) k = (mapGet l k).map f := by
  induction l with
  | nil => simp [mapValues, mapGet]
  | cons e rest ih =>
    obtain ⟨a, b⟩ := e
    simp only [mapValues, List.map_cons] at ih ⊢
    by_cases h : a = k <;> simp [mapGet, h, ih]

theorem insertEntry_mapValues {α β : Type} (f : α → β) (e : String × α) (l : GoMap α) :
    insertEntry (e.1, f e.2) (mapValues f l) = mapValues f (insertEntry e l) := by
  induction l with
  | nil => simp [insertEntry, mapValues]
  | cons x rest ih =>
    simp only [mapValues, List.map_cons, insertEntry] at ih ⊢
    split
    · simp
    · simp [ih]

theorem sortEntries_mapValues {α β : Type} (f : α → β) (l : GoMap α) :
    sortEntries (mapValues f l) = mapValues f (sortEntries l) := by
  induction l with
  | nil => simp [sortEntries, mapValues]
  | cons x rest ih =>
    have : mapValues f (x :: rest) = (x.1, f x.2) :: mapValues f rest := by simp [mapValues]
    rw [this]
    simp only [sortEntries]
    rw [ih, insertEntry_mapValues]

theorem bytesLE_total (a b : List Char) : bytesLE a b = true ∨ bytesLE b a = true := by
  induction a generalizing b with
  | nil => simp [bytesLE]
  | cons x xs ih =>
    cases b with
    | nil => simp [bytesLE]
    | cons y ys =>
      simp only [bytesLE]
      by_cases h1 : x.toNat < y.toNat
      · simp [h1]
      · by_cases h2 : y.toNat < x.toNat
        · simp [h2]
        · simp only [h1, h2, if_false]
          exact ih ys

theorem bytesLE_trans (a b c : List Char) (h1 : bytesLE a b = true) (h2 : bytesLE b c = true) :
    bytesLE a c = true := by
  induction a generalizing b c with
  | nil => simp [bytesLE]
  | cons x xs ih =>
    cases b with
    | nil => simp [bytesLE] at h1
    | cons y ys =>
      cases c with
      | nil => simp [bytesLE] at h2
      | cons z zs =>
        simp only [bytesLE] at h1 h2 ⊢
        by_cases hxy : x.toNat < y.toNat
        · by_cases hyz : y.toNat < z.toNat
          · have : x.toNat < z.toNat := by omega
            simp [this]
          · by_cases hzy : z.toNat < y.toNat
            · simp [hyz, hzy] at h2
            · have : x.toNat < z.toNat := by omega
              simp [this]
        · by_cases hyx : y.toNat < x.toNat
          · simp [hxy, hyx] at h1
          · simp only [hxy, hyx, if_false] at h1
            by_cases hyz : y.toNat < z.toNat
            · have : x.toNat < z.toNat := by omega
              simp [this]
            · by_cases hzy : z.toNat < y.toNat
              · simp [hyz, hzy] at h2
              · simp only [hyz, hzy, if_false] at h2
                have e1 : ¬ x.toNat < z.toNat := by omega
                have e2 : ¬ z.toNat < x.toNat := by omega
                simp only [e1, e2, if_false]
                exact ih ys zs h1 h2

theorem keysSorted_insertEntry {α : Type} (e : String × α) (l : GoMap α)
    (h : keysSorted l) : keysSorted (insertEntry e l) := by
  induction l with
  | nil => simp [insertEntry, keysSorted]
  | cons x rest ih =>
    simp only [keysSorted, List.pairwise_cons] at h
    simp only [insertEntry]
    split
    · rename_i hle
      simp only [keysSorted, List.pairwise_cons, List.mem_cons]
      refine ⟨?_, h⟩
      intro y hy
      rcases hy with hy | hy
      · exact hy ▸ hle
      · exact bytesLE_trans _ _ _ hle (h.1 y hy)
    · rename_i hle
      have hxe : keyLE x.1 e.1 = true := by
        rcases bytesLE_total e.1.data x.1.data with h1 | h1
        · exact absurd h1 hle
        · exact h1
      simp only [keysSorted, List.pairwise_cons]
      refine ⟨?_, ih h.2⟩
      intro y hy
      rcases List.mem_cons.mp ((List.Perm.mem_iff (insertEntry_perm e rest)).mp hy) with h3 | h3
      · exact h3 ▸ hxe
      · exact h.1 y h3

theorem keysSorted_sortEntries {α : Type} (l : GoMap α) : keysSorted (sortEntries l) := by
  induction l with
  | nil => simp [sortEntries, keysSorted]
  | cons x rest ih => exact keysSorted_insertEntry x _ ih

theorem sortEntries_of_sorted {α : Type} (l : GoMap α) (h : keysSorted l) :
    sortEntries l = l := by
  induction l with
  | nil => simp [sortEntries]
  | cons x rest ih =>
    simp only [keysSorted, List.pairwise_cons] at h
    simp only [sortEntries]
    rw [ih h.2]
    cases rest with
    | nil => simp [insertEntry]
    | cons y ys =>
      have := h.1 y (List.mem_cons_self _ _)
      simp [insertEntry, this]

theorem keysSorted_mapValues {α β : Type} (f : α → β) (l : GoMap α) (h : keysSorted l) :
    keysSorted (mapValues f l) := by
  unfold keysSorted mapValues
  rw [List.pairwise_map]
  exact h

/-! ## Lemmas on numbers -/

theorem digitChar_toNat (d : Nat) (h : d < 10) : (digitChar d).toNat = 48 + d := by
  interval_cases d <;> rfl

theorem isDigit_digitChar (d : Nat) (h : d < 10) : isDigit (digitChar d) = true := by
  interval_cases d <;> rfl

theorem digitChar_ne_zero (d : Nat) (h : d < 10) (h0 : 0 < d) : digitChar d ≠ '0' := by
  interval_cases d <;> decide

theorem readDigits_formatNatAux (fuel n acc : Nat) (rest : Bytes) (h : n < fuel) :
    readDigits acc (formatNatAux fuel n ++ rest) =
      readDigits (acc * 10 ^ (formatNatAux fuel n).length + n) rest := by
  induction fuel generalizing n acc rest with
  | zero => omega
  | succ fuel ih =>
    unfold formatNatAux
    by_cases h10 : n < 10
    · simp only [h10, if_true, List.singleton_append, List.length_singleton, pow_one]
      simp only [readDigits, isDigit_digitChar n h10, if_true, digitChar_toNat n h10]
      congr 1
      omega
    · simp only [h10, if_false, List.append_assoc, List.singleton_append, List.length_append,
        List.length_singleton]
      have hlt : n / 10 < fuel := by omega
      rw [ih (n / 10) acc _ hlt]
      have hd : n % 10 < 10 := Nat.mod_lt _ (by decide)
      simp only [readDigits, isDigit_digitChar _ hd, if_true, digitChar_toNat _ hd]
      congr 1
      rw [pow_succ]
      have := Nat.div_add_mod n 10
      have e : 48 + n % 10 - 48 = n % 10 := by omega
      rw [e]
      calc 10 * (acc * 10 ^ (formatNatAux fuel (n / 10)).length + n / 10) + n % 10
          = acc * (10 ^ (formatNatAux fuel (n / 10)).length * 10) + (10 * (n / 10) + n % 10) := by ring
        _ = acc * (10 ^ (formatNatAux fuel (n / 10)).length * 10) + n := by rw [this]

theorem formatNatAux_head (fuel n : Nat) (h : n < fuel) :
    ∃ c tl, formatNatAux fuel n = c :: tl ∧ isDigit c = true ∧ (0 < n → c ≠ '0') := by
  induction fuel generalizing n with
  | zero => omega
  | succ fuel ih =>
    unfold formatNatAux
    by_cases h10 : n < 10
    · simp only [h10, if_true]
      exact ⟨digitChar n, [], rfl, isDigit_digitChar n h10, fun h0 => digitChar_ne_zero n h10 h0⟩
    · simp only [h10, if_false]
      obtain ⟨c, tl, e, hd, hz⟩ := ih (n / 10) (by omega)
      refine ⟨c, tl ++ [digitChar (n % 10)], by rw [e]; rfl, hd, fun _ => hz ?_⟩
      exact Nat.div_pos (by omega) (by decide)

theorem readDigits_stop (acc : Nat) (rest : Bytes) (h : endsNumber rest) :
    readDigits acc rest = (acc, rest) := by
  cases rest with
  | nil => rfl
  | cons d tl =>
    simp only [endsNumber, not_or] at h
    simp [readDigits, h.1]

theorem readNat_formatNat (n : Nat) (rest : Bytes) (h : endsNumber rest) :
    readNat (formatNat n ++ rest) = some (n, rest) := by
  have key := readDigits_formatNatAux (n + 1) n 0 rest (by omega)
  obtain ⟨c, tl, e, hd, hz⟩ := formatNatAux_head (n + 1) n (by omega)
  rw [readDigits_stop _ rest h, e] at key
  simp only [List.cons_append, readDigits, hd, if_true, Nat.mul_zero, Nat.zero_add,
    Nat.zero_mul] at key
  have key2 : readDigits (c.toNat - 48) (tl ++ rest) = (n, rest) := key
  have hends : ∀ r : Nat × Bytes, r.2 = rest →
      (match r.2 with
        | [] => some r
        | d :: _ => if isDigit d = true ∨ d = '.' ∨ d = 'e' ∨ d = 'E' then none else some r)
        = some r := by
    intro r hr
    rw [hr]
    cases rest with
    | nil => rfl
    | cons d tl2 =>
      simp only [endsNumber] at h
      simp only [h, if_false]
  unfold formatNat
  rw [e]
  simp only [List.cons_append, readNat, hd, if_true]
  by_cases hc : c = '0'
  · have hn : n = 0 := by
      by_contra hne
      exact hz (Nat.pos_of_ne_zero hne) hc
    subst hn
    have htl : tl = [] := by
      have : formatNatAux 1 0 = [digitChar 0] := by simp [formatNatAux]
      rw [this] at e
      simp only [List.cons.injEq] at e
      exact e.2.symm
    subst htl
    simp only [hc, if_true, List.nil_append]
    exact hends (0, rest) rfl
  · simp only [hc, if_false]
    rw [key2]
    exact hends (n, rest) rfl

theorem formatNat_ne_nil (n : Nat) : formatNat n ≠ [] := by
  obtain ⟨c, tl, e, _, _⟩ := formatNatAux_head (n + 1) n (by omega)
  simp [formatNat, e]

theorem formatNat_head_isDigit (n : Nat) :
    ∃ c tl, formatNat n = c :: tl ∧ isDigit c = true := by
  obtain ⟨c, tl, e, hd, _⟩ := formatNatAux_head (n + 1) n (by omega)
  exact ⟨c, tl, e, hd⟩

/-! ### Rounding to float64 -/

theorem excessBits_spec (fuel n : Nat) (h : n ≤ fuel) :
    n < 2 ^ 53 * 2 ^ excessBits fuel n ∧
      (0 < excessBits fuel n → 2 ^ 52 * 2 ^ excessBits fuel n ≤ n) := by
  induction fuel generalizing n with
  | zero =>
    have : n = 0 := by omega
    subst this
    simp [excessBits]
  | succ fuel ih =>
    unfold excessBits
    by_cases hlt : n < 2 ^ 53
    · rw [if_pos hlt]
      exact ⟨by simpa using hlt, fun h0 => absurd h0 (by omega)⟩
    · rw [if_neg hlt]
      have hle : n / 2 ≤ fuel := by omega
      obtain ⟨h1, h2⟩ := ih (n / 2) hle
      constructor
      · rw [pow_succ]
        have := Nat.div_add_mod n 2
        have hm : n % 2 < 2 := Nat.mod_lt _ (by decide)
        have h3 : n / 2 + 1 ≤ 2 ^ 53 * 2 ^ excessBits fuel (n / 2) := h1
        calc n = 2 * (n / 2) + n % 2 := this.symm
          _ < 2 * (n / 2 + 1) := by omega
          _ ≤ 2 * (2 ^ 53 * 2 ^ excessBits fuel (n / 2)) := Nat.mul_le_mul_left 2 h3
          _ = 2 ^ 53 * (2 ^ excessBits fuel (n / 2) * 2) := by ring
      · intro _
        rw [pow_succ]
        by_cases hs : 0 < excessBits fuel (n / 2)
        · have h4 := h2 hs
          have := Nat.div_add_mod n 2
          calc 2 ^ 52 * (2 ^ excessBits fuel (n / 2) * 2)
              = 2 * (2 ^ 52 * 2 ^ excessBits fuel (n / 2)) := by ring
            _ ≤ 2 * (n / 2) := Nat.mul_le_mul_left 2 h4
            _ ≤ n := by omega
        · have hz : excessBits fuel (n / 2) = 0 := by omega
          rw [hz]
          norm_num
          norm_num at hlt
          omega

theorem excessBits_unique (n s : Nat) (h1 : n < 2 ^ 53 * 2 ^ s)
    (h2 : 0 < s → 2 ^ 52 * 2 ^ s ≤ n) : excessBits n n = s := by
  obtain ⟨g1, g2⟩ := excessBits_spec n n (le_refl n)
  generalize excessBits n n = t at g1 g2
  rcases Nat.lt_trichotomy t s with hlt | heq | hgt
  · exfalso
    have hs : 0 < s := by omega
    have h3 := h2 hs
    have h4 : 2 ^ (t + 1) ≤ 2 ^ s := Nat.pow_le_pow_right (by decide) hlt
    rw [pow_succ] at h4
    have h5 : 2 ^ 53 * 2 ^ t ≤ 2 ^ 52 * 2 ^ s := by
      calc 2 ^ 53 * 2 ^ t = 2 ^ 52 * (2 ^ t * 2) := by ring
        _ ≤ 2 ^ 52 * 2 ^ s := Nat.mul_le_mul_left _ h4
    omega
  · exact heq
  · exfalso
    have ht : 0 < t := by omega
    have h3 := g2 ht
    have h4 : 2 ^ (s + 1) ≤ 2 ^ t := Nat.pow_le_pow_right (by decide) hgt
    rw [pow_succ] at h4
    have h5 : 2 ^ 53 * 2 ^ s ≤ 2 ^ 52 * 2 ^ t := by
      calc 2 ^ 53 * 2 ^ s = 2 ^ 52 * (2 ^ s * 2) := by ring
        _ ≤ 2 ^ 52 * 2 ^ t := Nat.mul_le_mul_left _ h4
    omega

theorem roundFloat64Nat_of_multiple (q s : Nat) (hq1 : 2 ^ 52 ≤ q) (hq2 : q < 2 ^ 53)
    (_hs : 0 < s) : roundFloat64Nat (q * 2 ^ s) = q * 2 ^ s := by
  have hpos : 0 < 2 ^ s := Nat.two_pow_pos _
  have he : excessBits (q * 2 ^ s) (q * 2 ^ s) = s := by
    apply excessBits_unique
    · exact Nat.mul_lt_mul_of_pos_right hq2 hpos
    · intro _
      exact Nat.mul_le_mul_right _ hq1
  unfold roundFloat64Nat
  simp only [he]
  have hdiv : q * 2 ^ s / 2 ^ s = q := Nat.mul_div_cancel _ hpos
  have hmod : q * 2 ^ s % 2 ^ s = 0 := Nat.mul_mod_left _ _
  have hhalf : 0 < 2 ^ (s - 1) := Nat.two_pow_pos _
  simp only [hdiv, hmod]
  have c1 : ¬ (2 ^ (s - 1) < 0) := by omega
  have c2 : ¬ (0 = 2 ^ (s - 1)) := by omega
  simp [c1, c2]

theorem roundFloat64Nat_small (n : Nat) (h : n < 2 ^ 53) : roundFloat64Nat n = n := by
  have he : excessBits n n = 0 := by
    apply excessBits_unique
    · simpa using h
    · intro h0; omega
  unfold roundFloat64Nat
  simp only [he, pow_zero, Nat.div_one, Nat.mod_one, Nat.mul_one]
  have c : ¬ (2 ^ (0 - 1) < 0 ∨ (0 = 2 ^ (0 - 1) ∧ n % 2 = 1 ∧ 0 < 0)) := by simp
  rw [if_neg c]

theorem roundFloat64Nat_shape (n : Nat) (h : 2 ^ 53 ≤ n) :
    ∃ q s, 2 ^ 52 ≤ q ∧ q ≤ 2 ^ 53 ∧ 0 < s ∧ roundFloat64Nat n = q * 2 ^ s ∧
      2 ^ 52 * 2 ^ s ≤ n ∧ n < 2 ^ 53 * 2 ^ s := by
  obtain ⟨g1, g2⟩ := excessBits_spec n n (le_refl n)
  have hs : 0 < excessBits n n := by
    by_contra hz
    have : excessBits n n = 0 := by omega
    rw [this] at g1
    simp at g1
    omega
  have g3 := g2 hs
  have hpos : 0 < 2 ^ excessBits n n := Nat.two_pow_pos _
  have hq1 : 2 ^ 52 ≤ n / 2 ^ excessBits n n := (Nat.le_div_iff_mul_le hpos).mpr g3
  have hq2 : n / 2 ^ excessBits n n < 2 ^ 53 := (Nat.div_lt_iff_lt_mul hpos).mpr g1
  unfold roundFloat64Nat
  simp only []
  split
  · exact ⟨n / 2 ^ excessBits n n + 1, excessBits n n, by omega, by omega, hs, rfl, g3, g1⟩
  · exact ⟨n / 2 ^ excessBits n n, excessBits n n, hq1, by omega, hs, rfl, g3, g1⟩

theorem roundFloat64Nat_idem (n : Nat) :
    roundFloat64Nat (roundFloat64Nat n) = roundFloat64Nat n := by
  by_cases h : n < 2 ^ 53
  · rw [roundFloat64Nat_small n h, roundFloat64Nat_small n h]
  · obtain ⟨q, s, hq1, hq2, hs, e, _, _⟩ := roundFloat64Nat_shape n (by omega)
    rw [e]
    by_cases hq : q < 2 ^ 53
    · exact roundFloat64Nat_of_multiple q s hq1 hq hs
    · have hq3 : q = 2 ^ 53 := by omega
      subst hq3
      have e2 : 2 ^ 53 * 2 ^ s = 2 ^ 52 * 2 ^ (s + 1) := by rw [pow_succ]; ring
      rw [e2]
      exact roundFloat64Nat_of_multiple (2 ^ 52) (s + 1) (le_refl _) (by norm_num) (by omega)

theorem roundFloat64Nat_le (n : Nat) : roundFloat64Nat n ≤ 2 * n := by
  by_cases h : n < 2 ^ 53
  · rw [roundFloat64Nat_small n h]; omega
  · obtain ⟨q, s, hq1, hq2, hs, e, h1, h2⟩ := roundFloat64Nat_shape n (by omega)
    rw [e]
    calc q * 2 ^ s ≤ 2 ^ 53 * 2 ^ s := Nat.mul_le_mul_right _ hq2
      _ = 2 * (2 ^ 52 * 2 ^ s) := by ring
      _ ≤ 2 * n := Nat.mul_le_mul_left 2 h1

theorem shortestAux_round (F k : Nat) (h : roundFloat64Nat F = F) :
    roundFloat64Nat (shortestAux F k) = F := by
  induction k with
  | zero => simpa [shortestAux] using h
  | succ k ih =>
    unfold shortestAux
    simp only []
    split
    · rename_i hb
      split
      · exact hb.1
      · split
        · exact hb.2
        · split
          · exact hb.1
          · exact hb.2
    · split
      · rename_i hd; exact hd
      · split
        · rename_i hu; exact hu
        · exact ih

theorem shortestDecimal_round (F : Nat) (h : roundFloat64Nat F = F) :
    roundFloat64Nat (shortestDecimal F) = F := shortestAux_round F _ h

theorem float64Limit_large : 2 ^ 70 < float64Limit := by
  unfold float64Limit
  norm_num

/-! ## Lemmas on string literals -/

theorem hexVal_hexDigit (d : Nat) (h : d < 16) : hexVal (hexDigit d) = some d := by
  interval_cases d <;> rfl

theorem char_eq_of_toNat (c : Char) (n : Nat) (h : c.toNat = n) : c = Char.ofNat n := by
  rw [← h]
  exact (Char.ofNat_toNat c).symm

theorem unquoteAux_u4 (fuel : Nat) (x y z w : Char) (rest3 : Bytes) (rr : Nat)
    (hv : hex4 x y z w = some rr) (hns : ¬ (55296 ≤ rr ∧ rr < 57344)) :
    unquoteAux (fuel + 1) ('\\' :: 'u' :: x :: y :: z :: w :: rest3) =
      consChar (Char.ofNat rr) (unquoteAux fuel rest3) := by
  simp [unquoteAux, hv, hns]

theorem unquoteAux_escapeChar (c : Char) (fuel : Nat) (tail : Bytes) :
    unquoteAux (fuel + 1) (escapeChar c ++ tail) = consChar c (unquoteAux fuel tail) := by
  unfold escapeChar
  split
  · rename_i h
    rcases h with h | h <;> subst h <;> simp [unquoteAux, simpleEscape]
  · rename_i h1
    simp only [not_or] at h1
    split
    · rename_i h
      have := char_eq_of_toNat c 8 h
      subst this
      simp [unquoteAux, simpleEscape]
    · split
      · rename_i h
        have := char_eq_of_toNat c 12 h
        subst this
        simp [unquoteAux, simpleEscape]
      · split
        · rename_i h
          subst h
          simp [unquoteAux, simpleEscape]
        · split
          · rename_i h
            subst h
            simp [unquoteAux, simpleEscape]
          · split
            · rename_i h
              subst h
              simp [unquoteAux, simpleEscape]
            · split
              · rename_i h8 h12 hn hr ht h
                have hlt : c.toNat < 128 := by
                  rcases h with h | h | h | h
                  · omega
                  · subst h; decide
                  · subst h; decide
                  · subst h; decide
                have hx : hexVal (hexDigit (c.toNat / 16)) = some (c.toNat / 16) :=
                  hexVal_hexDigit _ (by omega)
                have hy : hexVal (hexDigit (c.toNat % 16)) = some (c.toNat % 16) :=
                  hexVal_hexDigit _ (Nat.mod_lt _ (by decide))
                have h0 : hexVal '0' = some 0 := rfl
                have hv : hex4 '0' '0' (hexDigit (c.toNat / 16)) (hexDigit (c.toNat % 16))
                    = some c.toNat := by
                  simp only [hex4, h0, hx, hy]
                  congr 1
                  have := Nat.div_add_mod c.toNat 16
                  omega
                have hns : ¬ (55296 ≤ c.toNat ∧ c.toNat < 57344) := by omega
                show unquoteAux (fuel + 1) ('\\' :: 'u' :: '0' :: '0' :: hexDigit (c.toNat / 16) ::
                  hexDigit (c.toNat % 16) :: tail) = _
                rw [unquoteAux_u4 fuel _ _ _ _ tail c.toNat hv hns, Char.ofNat_toNat]
              · split
                · rename_i h
                  have hy : hexVal (hexDigit (c.toNat % 16)) = some (c.toNat % 16) :=
                    hexVal_hexDigit _ (Nat.mod_lt _ (by decide))
                  have h0 : hexVal '0' = some 0 := rfl
                  have h2 : hexVal '2' = some 2 := rfl
                  have hv : hex4 '2' '0' '2' (hexDigit (c.toNat % 16)) = some c.toNat := by
                    simp only [hex4, h0, h2, hy]
                    congr 1
                    rcases h with h | h <;> rw [h]
                  have hns : ¬ (55296 ≤ c.toNat ∧ c.toNat < 57344) := by omega
                  show unquoteAux (fuel + 1) ('\\' :: 'u' :: '2' :: '0' :: '2' ::
                    hexDigit (c.toNat % 16) :: tail) = _
                  rw [unquoteAux_u4 fuel _ _ _ _ tail c.toNat hv hns, Char.ofNat_toNat]
                · rename_i h8 h12 hn hr ht h32 hsep
                  simp only [not_or, not_lt] at h32
                  have hge : ¬ c.toNat < 32 := by omega
                  simp only [List.cons_append, List.nil_append, unquoteAux]
                  simp [h1.1, h1.2, hge]

theorem appendString_length (cs : List Char) : cs.length + 1 ≤ (appendString cs).length := by
  induction cs with
  | nil => simp [appendString]
  | cons c cs ih =>
    have : 1 ≤ (escapeChar c).length := by
      unfold escapeChar
      repeat' split
      all_goals simp
    simp only [appendString, List.length_append, List.length_cons]
    omega

theorem unquoteAux_appendString (cs : List Char) (fuel : Nat) (rest : Bytes)
    (h : cs.length + 1 ≤ fuel) :
    unquoteAux fuel (appendString cs ++ rest) = some (cs, rest) := by
  induction cs generalizing fuel with
  | nil =>
    obtain ⟨f, rfl⟩ : ∃ f, fuel = f + 1 := ⟨fuel - 1, by simp at h; omega⟩
    simp [appendString, unquoteAux]
  | cons c cs ih =>
    obtain ⟨f, rfl⟩ : ∃ f, fuel = f + 1 := ⟨fuel - 1, by simp at h; omega⟩
    simp only [appendString, List.append_assoc]
    rw [unquoteAux_escapeChar, ih f (by simp at h; omega)]
    rfl

theorem readString_quote (s : String) (rest : Bytes) :
    readString (quote s ++ rest) = some (s, rest) := by
  have h := unquoteAux_appendString s.data ((appendString s.data ++ rest).length + 1) rest
    (by have := appendString_length s.data; simp only [List.length_append]; omega)
  simp only [quote, List.cons_append, readString, if_true, unquote, h]

theorem quote_head (s : String) : ∃ tl, quote s = '"' :: tl := ⟨_, rfl⟩

/-! ## Reading back what the encoder wrote -/

theorem skipSpace_of_head (c : Char) (tl : Bytes) (h : isSpace c = false) :
    skipSpace (c :: tl) = c :: tl := by
  simp [skipSpace, h]

theorem skipSpace_indentation (depth : Nat) (rest : Bytes) :
    skipSpace (indentation [' ', ' '] depth ++ rest) = skipSpace rest := by
  induction depth with
  | zero => rfl
  | succ d ih =>
    show skipSpace (' ' :: ' ' :: (indentation [' ', ' '] d ++ rest)) = _
    have hs : isSpace ' ' = true := rfl
    simp only [skipSpace, hs, if_true]
    exact ih

theorem skipSpace_newline (depth : Nat) (rest : Bytes) :
    skipSpace (newline [] [' ', ' '] depth ++ rest) = skipSpace rest := by
  show skipSpace ('\n' :: (indentation [' ', ' '] depth ++ rest)) = _
  have hs : isSpace '\n' = true := rfl
  simp only [skipSpace, hs, if_true]
  exact skipSpace_indentation depth rest

theorem isDigit_ne (c : Char) (h : isDigit c = true) :
    c ≠ '{' ∧ c ≠ '"' ∧ c ≠ '-' ∧ isSpace c = false := by
  refine ⟨?_, ?_, ?_, ?_⟩
  · rintro rfl; exact absurd h (by decide)
  · rintro rfl; exact absurd h (by decide)
  · rintro rfl; exact absurd h (by decide)
  · simp only [isDigit, decide_eq_true_eq] at h
    by_contra hs
    simp only [isSpace, Bool.not_eq_false, decide_eq_true_eq] at hs
    rcases hs with hs | hs | hs | hs <;> subst hs <;> revert h <;> decide

theorem readValue_nat (sign : Bool) (n fuel : Nat) (rest : Bytes) (hr : endsNumber rest)
    (hn : roundFloat64Nat n < float64Limit) :
    readValue (fuel + 1) ((if sign then '-' :: formatNat n else formatNat n) ++ rest) =
      .ok (.float64 (if sign then -((roundFloat64Nat n : Nat) : Int) else (roundFloat64Nat n : Nat)),
        rest) := by
  cases sign with
  | true =>
    simp only [if_true, List.cons_append, readValue]
    have h1 : ¬ ('-' = '{') := by decide
    have h2 : ¬ ('-' = '"') := by decide
    simp only [h1, h2, if_false, if_true, readNat_formatNat n rest hr, decodeNumber, hn]
  | false =>
    obtain ⟨c, tl, e, hd⟩ := formatNat_head_isDigit n
    obtain ⟨h1, h2, h3, _⟩ := isDigit_ne c hd
    have key := readNat_formatNat n rest hr
    rw [e] at key
    simp only [Bool.false_eq_true, if_false, e, List.cons_append, readValue, h1, h2, h3, hd,
      if_true]
    simp only [List.cons_append] at key
    simp only [key, decodeNumber, hn, if_true, Bool.false_eq_true, if_false]

theorem readValue_int (i : Int) (fuel : Nat) (rest : Bytes) (hr : endsNumber rest)
    (hv : validValue (.int i) = true) :
    readValue (fuel + 1) (formatInt i ++ rest) = .ok (.float64 (roundFloat64 i), rest) := by
  simp only [validValue, decide_eq_true_eq] at hv
  have hb : i.natAbs ≤ 2 ^ 64 := by omega
  have hn : roundFloat64Nat i.natAbs < float64Limit := by
    have h1 := roundFloat64Nat_le i.natAbs
    have h2 := float64Limit_large
    have h3 : 2 * i.natAbs ≤ 2 * 2 ^ 64 := Nat.mul_le_mul_left 2 hb
    have h4 : (2 : Nat) * 2 ^ 64 < 2 ^ 70 := by norm_num
    omega
  have key := readValue_nat (decide (i < 0)) i.natAbs fuel rest hr hn
  unfold formatInt roundFloat64
  by_cases hneg : i < 0
  · simp only [hneg, decide_True, if_true] at key ⊢
    exact key
  · simp only [hneg, decide_False, Bool.false_eq_true, if_false] at key ⊢
    exact key

theorem readValue_float64 (f : Int) (fuel : Nat) (rest : Bytes) (hr : endsNumber rest)
    (hv : validValue (.float64 f) = true) :
    readValue (fuel + 1) (formatFloat64 f ++ rest) = .ok (.float64 f, rest) := by
  simp only [validValue, decide_eq_true_eq] at hv
  have hround := shortestDecimal_round f.natAbs hv.1
  have hn : roundFloat64Nat (shortestDecimal f.natAbs) < float64Limit := by
    rw [hround]
    have h2 := float64Limit_large
    have h4 : (10 : Nat) ^ 21 < 2 ^ 70 := by norm_num
    omega
  have key := readValue_nat (decide (f < 0)) (shortestDecimal f.natAbs) fuel rest hr hn
  rw [hround] at key
  unfold formatFloat64
  simp only [hv.2, if_true]
  by_cases hneg : f < 0
  · simp only [hneg, decide_True, if_true] at key ⊢
    rw [key]
    congr 3
    omega
  · simp only [hneg, decide_False, Bool.false_eq_true, if_false] at key ⊢
    rw [key]
    congr 3
    omega

theorem readValue_string (s : String) (fuel : Nat) (rest : Bytes) :
    readValue (fuel + 1) (quote s ++ rest) = .ok (.string s, rest) := by
  have key := readString_quote s rest
  simp only [quote, List.cons_append] at key ⊢
  have h1 : ¬ ('"' = '{') := by decide
  simp only [readValue, h1, if_false, if_true, key]

theorem readValue_null (fuel : Nat) (rest : Bytes) :
    readValue (fuel + 1) (['n', 'u', 'l', 'l'] ++ rest) = .ok (.nil, rest) := by
  simp [readValue, isDigit, stripLit]

theorem readValue_true (fuel : Nat) (rest : Bytes) :
    readValue (fuel + 1) (['t', 'r', 'u', 'e'] ++ rest) = .ok (.bool true, rest) := by
  simp [readValue, isDigit, stripLit]

theorem readValue_false (fuel : Nat) (rest : Bytes) :
    readValue (fuel + 1) (['f', 'a', 'l', 's', 'e'] ++ rest) = .ok (.bool false, rest) := by
  simp [readValue, isDigit, stripLit]

theorem encodeEntries_eq (depth : Nat) (m : List (String × GoValue)) :
    encodeValue.encodeEntries [] [' ', ' '] depth m =
      mapValues (encodeValue [] [' ', ' '] (depth + 1)) m := by
  induction m with
  | nil => rfl
  | cons e rest ih =>
    obtain ⟨k, v⟩ := e
    simp only [encodeValue.encodeEntries, mapValues, List.map_cons] at ih ⊢
    rw [ih]

theorem decodedEntries_eq (m : List (String × GoValue)) :
    decoded.decodedEntries m = mapValues decoded m := by
  induction m with
  | nil => rfl
  | cons e rest ih =>
    obtain ⟨k, v⟩ := e
    simp only [decoded.decodedEntries, mapValues, List.map_cons] at ih ⊢
    rw [ih]

theorem validEntries_iff (m : List (String × GoValue)) :
    validValue.validEntries m = true ↔ ∀ kv ∈ m, validValue kv.2 = true := by
  induction m with
  | nil => simp [validValue.validEntries]
  | cons e rest ih =>
    obtain ⟨k, v⟩ := e
    simp [validValue.validEntries, ih]

theorem collectEntries_cons (k : String) (r : Except JSONError Bytes)
    (l : GoMap (Except JSONError Bytes)) (ts : GoMap Bytes)
    (h : collectEntries ((k, r) :: l) = .ok ts) :
    ∃ t ts', r = .ok t ∧ collectEntries l = .ok ts' ∧ ts = (k, t) :: ts' := by
  cases r with
  | error e => simp [collectEntries] at h
  | ok t =>
    cases hl : collectEntries l with
    | error e => simp [collectEntries, hl] at h
    | ok ts' =>
      simp only [collectEntries, hl, Except.ok.injEq] at h
      exact ⟨t, ts', rfl, rfl, h.symm⟩

theorem members_length_mem (depth : Nat) (ts : GoMap Bytes) (k : String) (t : Bytes)
    (h : (k, t) ∈ ts) : t.length < (members [] [' ', ' '] depth ts).length := by
  induction ts with
  | nil => simp at h
  | cons e rest ih =>
    obtain ⟨k1, t1⟩ := e
    cases rest with
    | nil =>
      simp only [List.mem_singleton, Prod.mk.injEq] at h
      obtain ⟨_, rfl⟩ := h
      simp only [members, newline, List.length_append, List.length_cons]
      omega
    | cons e2 more =>
      simp only [members, List.length_append, List.length_cons]
      rcases List.mem_cons.mp h with h1 | h1
      · simp only [Prod.mk.injEq] at h1
        obtain ⟨_, rfl⟩ := h1
        omega
      · have := ih h1
        omega

theorem readMembers_step (value : Bytes → Except JSONError (GoValue × Bytes)) (mf : Nat)
    (first : Bool) (acc : GoMap GoValue) (k : String) (c : Char) (tl tail : Bytes)
    (dv : GoValue) (hc : isSpace c = false)
    (hval : value (c :: tl ++ tail) = .ok (dv, tail)) :
    readMembers value (mf + 1) first acc (quote k ++ ':' :: ' ' :: (c :: tl) ++ tail) =
      match skipSpace tail with
      | [] => .error .syntaxError
      | sep :: s4 =>
        if sep = ',' then readMembers value mf false (mapSet acc k dv) (skipSpace s4)
        else if sep = '}' then .ok (mapSet acc k dv, s4)
        else .error .syntaxError := by
  have hq := readString_quote k (':' :: ' ' :: (c :: tl) ++ tail)
  have e1 : quote k ++ ':' :: ' ' :: (c :: tl) ++ tail =
      '"' :: (appendString k.data ++ (':' :: ' ' :: (c :: tl) ++ tail)) := by
    simp [quote]
  have e2 : quote k ++ (':' :: ' ' :: (c :: tl) ++ tail) =
      '"' :: (appendString k.data ++ (':' :: ' ' :: (c :: tl) ++ tail)) := by
    simp [quote]
  rw [e2] at hq
  rw [e1]
  have h1 : ¬ ('"' = '}' ∧ first = true) := by simp
  have hcolon : skipSpace (':' :: ' ' :: (c :: tl) ++ tail) = ':' :: ' ' :: (c :: tl) ++ tail :=
    skipSpace_of_head _ _ rfl
  have hsp : skipSpace (' ' :: (c :: tl) ++ tail) = c :: tl ++ tail := by
    have hs : isSpace ' ' = true := rfl
    show skipSpace (' ' :: (c :: (tl ++ tail))) = _
    simp only [skipSpace, hs, if_true, hc, Bool.false_eq_true, if_false]
    rfl
  simp only [readMembers, h1, if_false, hq, hcolon]
  simp only [List.cons_append, if_true] at hsp ⊢
  simp only [hsp]
  simp only [List.cons_append] at hval
  rw [hval]

theorem members_head (depth : Nat) (e : String × Bytes) (ts : GoMap Bytes) :
    ∃ tl, members [] [' ', ' '] depth (e :: ts) = '"' :: tl := by
  obtain ⟨k, t⟩ := e
  cases ts with
  | nil => exact ⟨_, rfl⟩
  | cons e2 more => exact ⟨_, rfl⟩

theorem endsNumber_cons (c : Char) (tl : Bytes) (h1 : isDigit c = false) (h2 : c ≠ '.')
    (h3 : c ≠ 'e') (h4 : c ≠ 'E') : endsNumber (c :: tl) := by
  simp [endsNumber, h1, h2, h3, h4]

theorem readMembers_members (value : Bytes → Except JSONError (GoValue × Bytes)) (depth : Nat) :
    ∀ (es : GoMap GoValue) (ts : GoMap Bytes) (acc : GoMap GoValue) (first : Bool) (mf : Nat)
      (rest : Bytes),
      es ≠ [] →
      collectEntries (mapValues (encodeValue [] [' ', ' '] (depth + 1)) es) = .ok ts →
      (∀ kv ∈ es, ∀ t r, encodeValue [] [' ', ' '] (depth + 1) kv.2 = .ok t → endsNumber r →
        (∃ c tl, t = c :: tl ∧ isSpace c = false) ∧ value (t ++ r) = .ok (decoded kv.2, r)) →
      es.length ≤ mf →
      readMembers value mf first acc (members [] [' ', ' '] depth ts ++ rest) =
        .ok (es.foldl (fun a kv => mapSet a kv.1 (decoded kv.2)) acc, rest) := by
  intro es
  induction es with
  | nil => intro _ _ _ _ _ h; exact absurd rfl h
  | cons e es' ih =>
    intro ts acc first mf rest _ hcol hval hlen
    obtain ⟨k, v⟩ := e
    have hcol' : collectEntries ((k, encodeValue [] [' ', ' '] (depth + 1) v) ::
        mapValues (encodeValue [] [' ', ' '] (depth + 1)) es') = .ok ts := hcol
    obtain ⟨t, ts', het, hcol2, rfl⟩ := collectEntries_cons _ _ _ _ hcol'
    obtain ⟨mf', rfl⟩ : ∃ m, mf = m + 1 := ⟨mf - 1, by simp at hlen; omega⟩
    cases es' with
    | nil =>
      have : ts' = [] := by
        simp only [mapValues, List.map_nil, collectEntries, Except.ok.injEq] at hcol2
        exact hcol2.symm
      subst this
      have hr : endsNumber (newline [] [' ', ' '] depth ++ ['}'] ++ rest) :=
        endsNumber_cons _ _ (by decide) (by decide) (by decide) (by decide)
      obtain ⟨⟨c, tl, rfl, hc⟩, hv⟩ := hval (k, v) (List.mem_cons_self _ _) t _ het hr
      have e1 : members [] [' ', ' '] depth [(k, c :: tl)] ++ rest =
          quote k ++ ':' :: ' ' :: (c :: tl) ++ (newline [] [' ', ' '] depth ++ ['}'] ++ rest) := by
        simp [members]
      rw [e1, readMembers_step value mf' first acc k c tl _ _ hc hv]
      have e2 : skipSpace (newline [] [' ', ' '] depth ++ ['}'] ++ rest) = '}' :: rest := by
        rw [List.append_assoc, skipSpace_newline]
        exact skipSpace_of_head _ _ rfl
      rw [e2]
      have n1 : ¬ ('}' = ',') := by decide
      simp only [n1, if_false, if_true, List.foldl_cons, List.foldl_nil]
    | cons e2 more =>
      obtain ⟨k2, v2⟩ := e2
      have hcol3 : collectEntries ((k2, encodeValue [] [' ', ' '] (depth + 1) v2) ::
          mapValues (encodeValue [] [' ', ' '] (depth + 1)) more) = .ok ts' := hcol2
      obtain ⟨t2, ts'', _, _, rfl⟩ := collectEntries_cons _ _ _ _ hcol3
      obtain ⟨mtl, hm⟩ := members_head depth (k2, t2) ts''
      have hr : endsNumber (',' :: (newline [] [' ', ' '] (depth + 1) ++
          members [] [' ', ' '] depth ((k2, t2) :: ts'') ++ rest)) :=
        endsNumber_cons _ _ (by decide) (by decide) (by decide) (by decide)
      obtain ⟨⟨c, tl, rfl, hc⟩, hv⟩ := hval (k, v) (List.mem_cons_self _ _) t _ het hr
      have e1 : members [] [' ', ' '] depth ((k, c :: tl) :: (k2, t2) :: ts'') ++ rest =
          quote k ++ ':' :: ' ' :: (c :: tl) ++ (',' :: (newline [] [' ', ' '] (depth + 1) ++
            members [] [' ', ' '] depth ((k2, t2) :: ts'') ++ rest)) := by
        simp [members]
      rw [e1, readMembers_step value mf' first acc k c tl _ _ hc hv]
      rw [skipSpace_of_head ',' _ rfl]
      simp only [if_true]
      rw [List.append_assoc, skipSpace_newline]
      have e3 : skipSpace (members [] [' ', ' '] depth ((k2, t2) :: ts'') ++ rest) =
          members [] [' ', ' '] depth ((k2, t2) :: ts'') ++ rest := by
        rw [hm]
        exact skipSpace_of_head _ _ rfl
      rw [e3]
      have := ih ((k2, t2) :: ts'') (mapSet acc k (decoded v)) false mf' rest (by simp) hcol2
        (fun kv hkv => hval kv (List.mem_cons_of_mem _ hkv)) (by simp at hlen ⊢; omega)
      rw [this]
      rfl

theorem GoValue.induct (P : GoValue → Prop) (hnil : P .nil) (hbool : ∀ b, P (.bool b))
    (hint : ∀ i, P (.int i)) (hfloat : ∀ f, P (.float64 f)) (hstring : ∀ s, P (.string s))
    (hunsupported : ∀ t, P (.unsupported t))
    (hmap : ∀ m : List (String × GoValue), (∀ kv ∈ m, P kv.2) → P (.map m)) :
    ∀ v, P v := by
  intro v
  refine GoValue.rec (motive_1 := P)
    (motive_2 := fun l => ∀ kv ∈ l, P kv.2) (motive_3 := fun p => P p.2)
    hnil hbool hint hfloat hstring ?_ hunsupported ?_ ?_ ?_ v
  · intro m h; exact hmap m h
  · intro kv h; simp at h
  · intro hd tl h1 h2 kv hkv
    rcases List.mem_cons.mp hkv with h | h
    · exact h ▸ h1
    · exact h2 kv h
  · intro k v h; exact h

theorem encodeValue_map (depth : Nat) (m : List (String × GoValue)) :
    encodeValue [] [' ', ' '] depth (.map m) =
      match collectEntries (mapValues (encodeValue [] [' ', ' '] (depth + 1)) (sortEntries m)) with
      | .error e => .error e
      | .ok ts => .ok (encodeObject [] [' ', ' '] depth ts) := by
  rw [← sortEntries_mapValues, ← encodeEntries_eq]
  rfl

theorem decoded_map (m : List (String × GoValue)) :
    decoded (.map m) = .map (mapValues decoded (sortEntries m)) := by
  rw [← sortEntries_mapValues, ← decodedEntries_eq]
  rfl

theorem encodeValue_head (v : GoValue) (depth : Nat) (b : Bytes) (hv : validValue v = true)
    (he : encodeValue [] [' ', ' '] depth v = .ok b) :
    ∃ c tl, b = c :: tl ∧ isSpace c = false := by
  cases v with
  | nil => simp only [encodeValue, Except.ok.injEq] at he; exact ⟨_, _, he.symm, rfl⟩
  | bool x =>
    cases x <;> simp only [encodeValue, Except.ok.injEq] at he <;> exact ⟨_, _, he.symm, rfl⟩
  | int i =>
    simp only [encodeValue, Except.ok.injEq] at he
    subst he
    unfold formatInt
    split
    · exact ⟨_, _, rfl, rfl⟩
    · obtain ⟨c, tl, e, hd⟩ := formatNat_head_isDigit i.natAbs
      exact ⟨c, tl, e, (isDigit_ne c hd).2.2.2⟩
  | float64 f =>
    simp only [encodeValue, Except.ok.injEq] at he
    subst he
    simp only [validValue, decide_eq_true_eq] at hv
    unfold formatFloat64
    simp only [hv.2, if_true]
    split
    · exact ⟨_, _, rfl, rfl⟩
    · obtain ⟨c, tl, e, hd⟩ := formatNat_head_isDigit (shortestDecimal f.natAbs)
      exact ⟨c, tl, e, (isDigit_ne c hd).2.2.2⟩
  | string s => simp only [encodeValue, Except.ok.injEq] at he; exact ⟨_, _, he.symm, rfl⟩
  | unsupported t => simp [encodeValue] at he
  | map m =>
    rw [encodeValue_map] at he
    split at he
    · simp at he
    · rename_i ts _
      simp only [Except.ok.injEq] at he
      subst he
      cases ts with
      | nil => exact ⟨_, _, rfl, rfl⟩
      | cons e rest => exact ⟨_, _, rfl, rfl⟩

theorem foldl_mapSet_fresh {α : Type} (f : α → GoValue) (l : GoMap α) (acc : GoMap GoValue)
    (h : (mapKeys acc ++ mapKeys l).Nodup) :
    l.foldl (fun a kv => mapSet a kv.1 (f kv.2)) acc = acc ++ mapValues f l := by
  induction l generalizing acc with
  | nil => simp [mapValues]
  | cons e rest ih =>
    obtain ⟨k, v⟩ := e
    simp only [List.foldl_cons]
    have hk : k ∉ mapKeys acc := by
      intro hk
      have := List.disjoint_of_nodup_append h
      exact this hk (by simp [mapKeys])
    rw [mapSet_of_not_mem acc k (f v) hk, ih]
    · simp [mapValues]
    · have e1 : mapKeys (acc ++ [(k, f v)]) ++ mapKeys rest = mapKeys acc ++ mapKeys ((k, v) :: rest) := by
        simp [mapKeys]
      rw [e1]
      exact h

theorem collectEntries_length (l : GoMap (Except JSONError Bytes)) (ts : GoMap Bytes)
    (h : collectEntries l = .ok ts) : ts.length = l.length := by
  induction l generalizing ts with
  | nil => simp only [collectEntries, Except.ok.injEq] at h; subst h; rfl
  | cons e rest ih =>
    obtain ⟨k, r⟩ := e
    obtain ⟨t, ts', _, h2, rfl⟩ := collectEntries_cons k r rest ts h
    simp [ih ts' h2]

theorem collectEntries_mem (enc : GoValue → Except JSONError Bytes) (es : GoMap GoValue)
    (ts : GoMap Bytes) (h : collectEntries (mapValues enc es) = .ok ts)
    (kv : String × GoValue) (hkv : kv ∈ es) (t : Bytes) (ht : enc kv.2 = .ok t) :
    (kv.1, t) ∈ ts := by
  induction es generalizing ts with
  | nil => simp at hkv
  | cons e rest ih =>
    obtain ⟨k, v⟩ := e
    have h' : collectEntries ((k, enc v) :: mapValues enc rest) = .ok ts := h
    obtain ⟨t1, ts', h1, h2, rfl⟩ := collectEntries_cons _ _ _ _ h'
    rcases List.mem_cons.mp hkv with h3 | h3
    · subst h3
      simp only at ht
      rw [ht] at h1
      simp only [Except.ok.injEq] at h1
      subst h1
      exact List.mem_cons_self _ _
    · exact List.mem_cons_of_mem _ (ih ts' h2 h3)

theorem members_length_ge (depth : Nat) (ts : GoMap Bytes) :
    ts.length ≤ (members [] [' ', ' '] depth ts).length := by
  induction ts with
  | nil => simp
  | cons e rest ih =>
    obtain ⟨k, t⟩ := e
    cases rest with
    | nil => simp only [members, List.length_append, List.length_cons, List.length_nil]; omega
    | cons e2 more =>
      simp only [members, List.length_append, List.length_cons] at ih ⊢
      omega

theorem readValue_encodeValue (fuel : Nat) :
    ∀ (v : GoValue) (depth : Nat) (b rest : Bytes), validValue v = true →
      encodeValue [] [' ', ' '] depth v = .ok b → b.length ≤ fuel → endsNumber rest →
      readValue fuel (b ++ rest) = .ok (decoded v, rest) := by
  induction fuel with
  | zero =>
    intro v depth b rest hv he hl _
    obtain ⟨c, tl, e, _⟩ := encodeValue_head v depth b hv he
    subst e
    simp at hl
  | succ fuel ih =>
    intro v depth b rest hv he hl hr
    cases v with
    | nil =>
      simp only [encodeValue, Except.ok.injEq] at he; subst he
      exact readValue_null fuel rest
    | bool x =>
      cases x <;> simp only [encodeValue, Except.ok.injEq] at he <;> subst he
      · exact readValue_false fuel rest
      · exact readValue_true fuel rest
    | int i =>
      simp only [encodeValue, Except.ok.injEq] at he; subst he
      exact readValue_int i fuel rest hr hv
    | float64 f =>
      simp only [encodeValue, Except.ok.injEq] at he; subst he
      exact readValue_float64 f fuel rest hr hv
    | string s =>
      simp only [encodeValue, Except.ok.injEq] at he; subst he
      exact readValue_string s fuel rest
    | unsupported t => simp [encodeValue] at he
    | map m =>
      rw [encodeValue_map] at he
      rw [decoded_map]
      simp only [validValue, Bool.and_eq_true, decide_eq_true_eq] at hv
      obtain ⟨hnd, hve⟩ := hv
      have hve' := (validEntries_iff m).mp hve
      have hnd' : (mapKeys (sortEntries m)).Nodup := nodup_sortEntries m hnd
      cases hcol : collectEntries
          (mapValues (encodeValue [] [' ', ' '] (depth + 1)) (sortEntries m)) with
      | error e => simp [hcol] at he
      | ok ts =>
        simp only [hcol, Except.ok.injEq] at he
        subst he
        have hlen := collectEntries_length _ _ hcol
        simp only [mapValues, List.length_map] at hlen
        cases hes : sortEntries m with
        | nil =>
          rw [hes] at hlen
          have : ts = [] := List.length_eq_zero.mp hlen
          subst this
          have n1 : isSpace '}' = false := rfl
          simp [encodeObject, readValue, readMembers, skipSpace, n1, mapValues]
        | cons e es' =>
          rw [hes] at hlen hcol hnd'
          obtain ⟨e1, ts', rfl⟩ : ∃ e1 ts', ts = e1 :: ts' := by
            cases ts with
            | nil => simp at hlen
            | cons a b => exact ⟨a, b, rfl⟩
          obtain ⟨mtl, hm⟩ := members_head depth e1 ts'
          have hmem : ∀ kv ∈ e :: es', kv ∈ m := by
            intro kv hkv
            rw [← hes] at hkv
            exact (List.Perm.mem_iff (sortEntries_perm m)).mp hkv
          have hb : (encodeObject [] [' ', ' '] depth (e1 :: ts')).length =
              (newline [] [' ', ' '] (depth + 1)).length +
                (members [] [' ', ' '] depth (e1 :: ts')).length + 1 := by
            simp only [encodeObject, List.length_cons, List.length_append]
            omega
          have key := readMembers_members (readValue fuel) depth (e :: es') (e1 :: ts') [] true
            ((newline [] [' ', ' '] (depth + 1) ++ members [] [' ', ' '] depth (e1 :: ts')
              ++ rest).length + 1) rest (by simp) hcol
            (by
              intro kv hkv t r ht hr2
              have hvkv := hve' kv (hmem kv hkv)
              refine ⟨encodeValue_head kv.2 (depth + 1) t hvkv ht, ?_⟩
              have h1 := collectEntries_mem _ _ _ hcol kv hkv t ht
              have h2 := members_length_mem depth _ _ _ h1
              exact ih kv.2 (depth + 1) t r hvkv ht (by omega) hr2)
            (by
              have := members_length_ge depth (e1 :: ts')
              simp only [List.length_append]
              omega)
          have e2 : encodeObject [] [' ', ' '] depth (e1 :: ts') ++ rest =
              '{' :: (newline [] [' ', ' '] (depth + 1) ++ members [] [' ', ' '] depth (e1 :: ts')
                ++ rest) := by
            simp [encodeObject]
          rw [e2]
          have e3 : skipSpace (newline [] [' ', ' '] (depth + 1) ++
              members [] [' ', ' '] depth (e1 :: ts') ++ rest) =
              members [] [' ', ' '] depth (e1 :: ts') ++ rest := by
            rw [List.append_assoc, skipSpace_newline, hm]
            exact skipSpace_of_head _ _ rfl
          simp only [readValue, if_true, e3, key]
          rw [foldl_mapSet_fresh decoded (e :: es') [] (by simpa [mapKeys] using hnd')]
          rfl

/-! ## Decoding after encoding -/

theorem Unmarshal_MarshalIndent (m : List (String × GoValue)) (b : Bytes)
    (hv : validValue (.map m) = true)
    (h : MarshalIndent (.map m) [] [' ', ' '] = (some b, none)) :
    Unmarshal b = (decoded (.map m), none) := by
  unfold MarshalIndent at h
  cases he : encodeValue [] [' ', ' '] 0 (.map m) with
  | error e => simp [he] at h
  | ok b' =>
    simp only [he, Prod.mk.injEq, Option.some.injEq, and_true] at h
    subst h
    obtain ⟨c, tl, e, hc⟩ := encodeValue_head _ _ _ hv he
    have key := readValue_encodeValue (b'.length + 1) (.map m) 0 b' [] hv he (by omega)
      (by simp [endsNumber])
    simp only [List.append_nil] at key
    have hs : skipSpace b' = b' := by rw [e]; exact skipSpace_of_head c tl hc
    unfold Unmarshal
    rw [hs, key, decoded_map]
    rfl

theorem collectEntries_error (enc : GoValue → Except JSONError Bytes) (es : GoMap GoValue)
    (e : JSONError) (h : collectEntries (mapValues enc es) = .error e) :
    ∃ kv ∈ es, enc kv.2 = .error e := by
  induction es with
  | nil => simp [mapValues, collectEntries] at h
  | cons x rest ih =>
    obtain ⟨k, v⟩ := x
    have h' : collectEntries ((k, enc v) :: mapValues enc rest) = .error e := h
    cases hv : enc v with
    | error e1 =>
      rw [hv] at h'
      simp only [collectEntries, Except.error.injEq] at h'
      exact ⟨(k, v), List.mem_cons_self _ _, by rw [← h']; exact hv⟩
    | ok t =>
      rw [hv] at h'
      cases hr : collectEntries (mapValues enc rest) with
      | error e2 =>
        simp only [collectEntries, hr, Except.error.injEq] at h'
        subst h'
        obtain ⟨kv, hkv, hk⟩ := ih hr
        exact ⟨kv, List.mem_cons_of_mem _ hkv, hk⟩
      | ok ts => simp [collectEntries, hr] at h'

theorem mapKeys_decoded (m : List (String × GoValue)) :
    mapKeys (mapValues decoded (sortEntries m)) = mapKeys (sortEntries m) :=
  mapKeys_mapValues decoded _

theorem natAbs_roundFloat64 (i : Int) : (roundFloat64 i).natAbs = roundFloat64Nat i.natAbs := by
  unfold roundFloat64
  split <;> simp

theorem validValue_decoded : ∀ v : GoValue, validValue v = true → validValue (decoded v) = true := by
  intro v
  induction v using GoValue.induct with
  | hnil => intro _; rfl
  | hbool b => intro _; rfl
  | hint i =>
    intro h
    simp only [validValue, decide_eq_true_eq] at h
    simp only [decoded, validValue, decide_eq_true_eq, natAbs_roundFloat64, roundFloat64Nat_idem,
      true_and]
    have h1 := roundFloat64Nat_le i.natAbs
    have hb : i.natAbs ≤ 2 ^ 64 := by omega
    have h3 : 2 * i.natAbs ≤ 2 * 2 ^ 64 := Nat.mul_le_mul_left 2 hb
    have h4 : (2 : Nat) * 2 ^ 64 < 10 ^ 21 := by norm_num
    omega
  | hfloat f => intro h; exact h
  | hstring s => intro _; rfl
  | hunsupported t => intro _; rfl
  | hmap m ih =>
    intro h
    simp only [validValue, Bool.and_eq_true, decide_eq_true_eq] at h
    rw [decoded_map]
    simp only [validValue, Bool.and_eq_true, decide_eq_true_eq]
    refine ⟨?_, ?_⟩
    · rw [mapKeys_decoded]
      exact nodup_sortEntries m h.1
    · rw [validEntries_iff]
      intro kv hkv
      simp only [mapValues, List.mem_map] at hkv
      obtain ⟨kv0, hkv0, rfl⟩ := hkv
      have hm := (List.Perm.mem_iff (sortEntries_perm m)).mp hkv0
      exact ih kv0 hm ((validEntries_iff m).mp h.2 kv0 hm)

theorem mapValues_congr {α β : Type} (f g : α → β) (l : GoMap α)
    (h : ∀ kv ∈ l, f kv.2 = g kv.2) : mapValues f l = mapValues g l := by
  unfold mapValues
  apply List.map_congr_left
  intro kv hkv
  rw [h kv hkv]

theorem mapValues_mapValues {α β γ : Type} (f : α → β) (g : β → γ) (l : GoMap α) :
    mapValues g (mapValues f l) = mapValues (fun x => g (f x)) l := by
  simp [mapValues, Function.comp_def]

theorem decoded_decoded : ∀ v : GoValue, decoded (decoded v) = decoded v := by
  intro v
  induction v using GoValue.induct with
  | hnil => rfl
  | hbool b => rfl
  | hint i => rfl
  | hfloat f => rfl
  | hstring s => rfl
  | hunsupported t => rfl
  | hmap m ih =>
    rw [decoded_map, decoded_map]
    rw [sortEntries_of_sorted _ (keysSorted_mapValues decoded _ (keysSorted_sortEntries m))]
    rw [mapValues_mapValues]
    congr 1
    apply mapValues_congr
    intro kv hkv
    exact ih kv ((List.Perm.mem_iff (sortEntries_perm m)).mp hkv)

theorem mapGet_decoded (m : List (String × GoValue)) (hn : (mapKeys m).Nodup) (k : String) :
    mapGet (mapValues decoded (sortEntries m)) k = (mapGet m k).map decoded := by
  rw [mapGet_mapValues, mapGet_sortEntries m hn]

/-! ## Lemmas on the loop over the children -/

theorem mergeSpec_congr (r1 r2 : Nat → Option Result) (children : GoMap Nat)
    (fd : GoMap GoValue) (h : ∀ kc ∈ children, r1 kc.2 = r2 kc.2) :
    mergeSpec r1 children fd = mergeSpec r2 children fd := by
  induction children generalizing fd with
  | nil => rfl
  | cons e rest ih =>
    obtain ⟨k, c⟩ := e
    have hc := h (k, c) (List.mem_cons_self _ _)
    simp only at hc
    simp only [mergeSpec, hc]
    cases r2 c with
    | none => rfl
    | some r =>
      obtain ⟨cj, err⟩ := r
      cases err with
      | some e => rfl
      | none =>
        simp only
        split
        · rfl
        · exact ih _ (fun kc hkc => h kc (List.mem_cons_of_mem _ hkc))

theorem mergeSpec_total (render : Nat → Option Result) (children : GoMap Nat)
    (fd : GoMap GoValue) (h : ∀ kc ∈ children, ∃ r, render kc.2 = some r) :
    ∃ lr, mergeSpec render children fd = some lr := by
  induction children generalizing fd with
  | nil => exact ⟨_, rfl⟩
  | cons e rest ih =>
    obtain ⟨k, c⟩ := e
    obtain ⟨r, hr⟩ := h (k, c) (List.mem_cons_self _ _)
    simp only at hr
    obtain ⟨cj, err⟩ := r
    simp only [mergeSpec, hr]
    cases err with
    | some e => exact ⟨_, rfl⟩
    | none =>
      simp only
      split
      · exact ⟨_, rfl⟩
      · exact ih _ (fun kc hkc => h kc (List.mem_cons_of_mem _ hkc))

theorem mergeSpec_done (render : Nat → Option Result) (children : GoMap Nat)
    (fd0 fd : GoMap GoValue) (h : mergeSpec render children fd0 = some (.done fd)) :
    fd = copyData (mapValues (childDataOf render) children) fd0 ∧
      ∀ kc ∈ children, childOk render kc.2 := by
  induction children generalizing fd0 with
  | nil =>
    simp only [mergeSpec, Option.some.injEq, LoopResult.done.injEq] at h
    subst h
    exact ⟨rfl, fun kc hkc => by simp at hkc⟩
  | cons e rest ih =>
    obtain ⟨k, c⟩ := e
    simp only [mergeSpec] at h
    cases hr : render c with
    | none => simp [hr] at h
    | some r =>
      obtain ⟨cj, err⟩ := r
      cases err with
      | some e => simp [hr] at h
      | none =>
        simp only [hr] at h
        cases hu : Unmarshal (cj.getD []) with
        | mk cd uerr =>
          cases uerr with
          | some e => simp [hu] at h
          | none =>
            simp only [hu] at h
            obtain ⟨h1, h2⟩ := ih _ h
            have hcd : childDataOf render c = cd := by simp [childDataOf, hr, hu]
            refine ⟨?_, ?_⟩
            · rw [h1]
              show _ = copyData ((k, childDataOf render c) :: mapValues (childDataOf render) rest) fd0
              rw [hcd]
              rfl
            · intro kc hkc
              rcases List.mem_cons.mp hkc with h3 | h3
              · subst h3
                exact ⟨cj, hr, by rw [hu]⟩
              · exact h2 kc h3

theorem mergeSpec_of_ok (render : Nat → Option Result) (children : GoMap Nat)
    (fd0 : GoMap GoValue) (h : ∀ kc ∈ children, childOk render kc.2) :
    mergeSpec render children fd0 =
      some (.done (copyData (mapValues (childDataOf render) children) fd0)) := by
  induction children generalizing fd0 with
  | nil => rfl
  | cons e rest ih =>
    obtain ⟨k, c⟩ := e
    obtain ⟨cj, hr, hu⟩ := h (k, c) (List.mem_cons_self _ _)
    simp only at hr hu
    have hcd : childDataOf render c = (Unmarshal (cj.getD [])).1 := by simp [childDataOf, hr]
    simp only [mergeSpec, hr]
    cases hu2 : Unmarshal (cj.getD []) with
    | mk cd uerr =>
      rw [hu2] at hu hcd
      simp only at hu hcd
      subst hu
      simp only
      rw [ih _ (fun kc hkc => h kc (List.mem_cons_of_mem _ hkc))]
      show _ = some (.done (copyData ((k, childDataOf render c) ::
        mapValues (childDataOf render) rest) fd0))
      rw [hcd]
      rfl

theorem mergeSpec_returned (render : Nat → Option Result) (children : GoMap Nat)
    (fd0 : GoMap GoValue) (r : Result) (h : mergeSpec render children fd0 = some (.returned r)) :
    ∃ pre k c post e, children = pre ++ (k, c) :: post ∧ (∀ kc ∈ pre, childOk render kc.2) ∧
      r = (none, some e) ∧
      ((∃ cj, render c = some (cj, some e)) ∨
        (∃ cj, render c = some (cj, none) ∧ (Unmarshal (cj.getD [])).2 = some e)) := by
  induction children generalizing fd0 with
  | nil => simp [mergeSpec] at h
  | cons x rest ih =>
    obtain ⟨k, c⟩ := x
    simp only [mergeSpec] at h
    cases hr : render c with
    | none => simp [hr] at h
    | some r1 =>
      obtain ⟨cj, err⟩ := r1
      cases err with
      | some e =>
        simp only [hr, Option.some.injEq, LoopResult.returned.injEq] at h
        exact ⟨[], k, c, rest, e, rfl, fun kc hkc => by simp at hkc, h.symm, Or.inl ⟨cj, hr⟩⟩
      | none =>
        simp only [hr] at h
        cases hu : Unmarshal (cj.getD []) with
        | mk cd uerr =>
          cases uerr with
          | some e =>
            simp only [hu, Option.some.injEq, LoopResult.returned.injEq] at h
            exact ⟨[], k, c, rest, e, rfl, fun kc hkc => by simp at hkc, h.symm,
              Or.inr ⟨cj, hr, by rw [hu]⟩⟩
          | none =>
            simp only [hu] at h
            obtain ⟨pre, k2, c2, post, e, h1, h2, h3, h4⟩ := ih _ h
            refine ⟨(k, c) :: pre, k2, c2, post, e, by rw [h1]; rfl, ?_, h3, h4⟩
            intro kc hkc
            rcases List.mem_cons.mp hkc with h5 | h5
            · subst h5
              exact ⟨cj, hr, by rw [hu]⟩
            · exact h2 kc h5

/-! ## Lemmas on the heap -/

theorem renderFuel_succ (fuel : Nat) (h : Heap) (p : Nat) :
    renderFuel (fuel + 1) h p =
      match h[p]? with
      | none => none
      | some n =>
        match mergeSpec (renderFuel fuel h) n.children (copyData n.data []) with
        | none => none
        | some (.returned r) => some r
        | some (.done fullData) => some (MarshalIndent (.map fullData) [] [' ', ' ']) := rfl

theorem renderFuel_congr (S : Nat → Prop) (h h' : Heap)
    (closed : ∀ q n, S q → h[q]? = some n → ∀ kc ∈ n.children, S kc.2)
    (agree : ∀ q, S q → (h[q]?).map contentOf = (h'[q]?).map contentOf) :
    ∀ (fuel p : Nat), S p → renderFuel fuel h p = renderFuel fuel h' p := by
  intro fuel
  induction fuel with
  | zero => intro p _; rfl
  | succ fuel ih =>
    intro p hp
    rw [renderFuel_succ, renderFuel_succ]
    have ha := agree p hp
    cases h1 : h[p]? with
    | none =>
      rw [h1] at ha
      cases h2 : h'[p]? with
      | none => rfl
      | some n' => rw [h2] at ha; simp at ha
    | some n =>
      rw [h1] at ha
      cases h2 : h'[p]? with
      | none => rw [h2] at ha; simp at ha
      | some n' =>
        rw [h2] at ha
        simp only [Option.map_some', Option.some.injEq, contentOf, Prod.mk.injEq] at ha
        simp only [← ha.1, ← ha.2]
        rw [mergeSpec_congr (renderFuel fuel h) (renderFuel fuel h') n.children _
          (fun kc hkc => ih kc.2 (closed p n hp h1 kc hkc))]

theorem renderFuel_content (h h' : Heap) (hc : h.map contentOf = h'.map contentOf)
    (fuel p : Nat) : renderFuel fuel h p = renderFuel fuel h' p := by
  refine renderFuel_congr (fun _ => True) h h' (fun _ _ _ _ _ _ => trivial) ?_ fuel p trivial
  intro q _
  have := congrArg (fun l => l[q]?) hc
  simpa [List.getElem?_map] using this

theorem mergeSpec_mono (r1 r2 : Nat → Option Result) (children : GoMap Nat)
    (fd : GoMap GoValue) (lr : LoopResult)
    (hm : ∀ kc ∈ children, ∀ x, r1 kc.2 = some x → r2 kc.2 = some x)
    (h : mergeSpec r1 children fd = some lr) : mergeSpec r2 children fd = some lr := by
  induction children generalizing fd with
  | nil => exact h
  | cons e rest ih =>
    obtain ⟨k, c⟩ := e
    simp only [mergeSpec] at h ⊢
    cases hr : r1 c with
    | none => simp [hr] at h
    | some r =>
      rw [hm (k, c) (List.mem_cons_self _ _) r hr]
      rw [hr] at h
      obtain ⟨cj, err⟩ := r
      cases err with
      | some e => exact h
      | none =>
        simp only at h ⊢
        cases hu : Unmarshal (cj.getD []) with
        | mk cd uerr =>
          rw [hu] at h
          cases uerr with
          | some e => exact h
          | none => exact ih _ (fun kc hkc => hm kc (List.mem_cons_of_mem _ hkc)) h

theorem renderFuel_mono_succ (h : Heap) :
    ∀ (fuel p : Nat) (r : Result), renderFuel fuel h p = some r →
      renderFuel (fuel + 1) h p = some r := by
  intro fuel
  induction fuel with
  | zero => intro p r hr; simp [renderFuel] at hr
  | succ fuel ih =>
    intro p r hr
    rw [renderFuel_succ] at hr ⊢
    cases hp : h[p]? with
    | none => simp [hp] at hr
    | some n =>
      simp only [hp] at hr ⊢
      cases hm : mergeSpec (renderFuel fuel h) n.children (copyData n.data []) with
      | none => simp [hm] at hr
      | some lr =>
        rw [mergeSpec_mono _ _ _ _ lr (fun kc _ x hx => ih kc.2 x hx) hm]
        rw [hm] at hr
        exact hr

theorem renderFuel_mono (h : Heap) (fuel fuel' p : Nat) (r : Result) (hle : fuel ≤ fuel')
    (hr : renderFuel fuel h p = some r) : renderFuel fuel' h p = some r := by
  induction fuel' with
  | zero =>
    have : fuel = 0 := by omega
    subst this
    exact hr
  | succ f ih =>
    by_cases he : fuel = f + 1
    · subst he; exact hr
    · exact renderFuel_mono_succ h f p r (ih (by omega))

/-! ## `ToJSON` and the maps of the elements -/

theorem set_of_get {α : Type} (h : List α) (p : Nat) (n : α) (hp : h[p]? = some n) :
    h.set p n = h := by
  apply List.ext_getElem?
  intro q
  rw [List.getElem?_set]
  split
  · rename_i e
    subst e
    have hlt : p < h.length := by
      by_contra hc
      rw [List.getElem?_eq_none (by omega)] at hp
      simp at hp
    simp [hlt, hp]
  · rfl

theorem lt_of_get {α : Type} (h : List α) (p : Nat) (n : α) (hp : h[p]? = some n) :
    p < h.length := by
  by_contra hc
  rw [List.getElem?_eq_none (by omega)] at hp
  simp at hp

theorem mergeChildren_bridge (toJSON : Heap → Nat → Option (Result × Heap))
    (render : Nat → Option Result) (h1 : Heap)
    (hb : ∀ c, toJSON h1 c = (render c).map (fun r => (r, h1))) :
    ∀ (children : GoMap Nat) (fd : GoMap GoValue),
      mergeChildren toJSON children h1 fd =
        (mergeSpec render children fd).map (fun lr => (lr, h1)) := by
  intro children
  induction children with
  | nil => intro fd; rfl
  | cons e rest ih =>
    intro fd
    obtain ⟨k, c⟩ := e
    simp only [mergeChildren, mergeSpec, hb c]
    cases render c with
    | none => rfl
    | some r =>
      obtain ⟨cj, err⟩ := r
      cases err with
      | some e => rfl
      | none =>
        simp only [Option.map_some']
        cases hu : Unmarshal (cj.getD []) with
        | mk cd uerr =>
          cases uerr with
          | some e => rfl
          | none => exact ih _

theorem noWriter_set (h : Heap) (p : Nat) (n : JSONElement) (hn : noWriter h)
    (hw : n.mu.writer = false) : noWriter (h.set p n) := by
  intro x hx
  rcases List.mem_or_eq_of_mem_set hx with h1 | h1
  · exact hn x h1
  · rw [h1]; exact hw

theorem ToJSONFuel_eq (fuel : Nat) :
    ∀ (h : Heap) (p : Nat), noWriter h →
      ToJSONFuel fuel h p = (renderFuel fuel h p).map (fun r => (r, h)) := by
  induction fuel with
  | zero => intro h p _; rfl
  | succ fuel ih =>
    intro h p hnw
    rw [renderFuel_succ]
    unfold ToJSONFuel
    cases hp : h[p]? with
    | none => simp [RLock, hp]
    | some n =>
      have hlt := lt_of_get h p n hp
      have hw : n.mu.writer = false := hnw n (List.mem_iff_getElem?.mpr ⟨p, hp⟩)
      have hrl : RLock h p = some (h.set p { n with mu := { n.mu with readers := n.mu.readers + 1 } }) := by
        simp [RLock, hp, hw]
      simp only [hrl, List.getElem?_set_self hlt]
      have hnw1 : noWriter (h.set p { n with mu := { n.mu with readers := n.mu.readers + 1 } }) :=
        noWriter_set h p _ hnw hw
      rw [mergeChildren_bridge (ToJSONFuel fuel) (renderFuel fuel
        (h.set p { n with mu := { n.mu with readers := n.mu.readers + 1 } })) _
        (fun c => ih _ c hnw1)]
      have hcontent : (h.set p { n with mu := { n.mu with readers := n.mu.readers + 1 } }).map contentOf
          = h.map contentOf := by
        rw [List.map_set]
        apply set_of_get
        rw [List.getElem?_map, hp]
        rfl
      have hfun : renderFuel fuel (h.set p { n with mu := { n.mu with readers := n.mu.readers + 1 } })
          = renderFuel fuel h := by
        funext c
        exact renderFuel_content _ _ hcontent fuel c
      rw [hfun]
      have hru : RUnlock (h.set p { n with mu := { n.mu with readers := n.mu.readers + 1 } }) p
          = some h := by
        simp only [RUnlock, List.getElem?_set_self hlt]
        simp only [Nat.add_one_ne_zero, if_false, Nat.add_sub_cancel, List.set_set]
        congr 1
        exact set_of_get h p n hp
      cases mergeSpec (renderFuel fuel h) n.children (copyData n.data []) with
      | none => rfl
      | some lr =>
        cases lr with
        | returned r => simp only [Option.map_some', hru]
        | done fd => simp only [Option.map_some', hru]

theorem wfNodes_get (len : Nat) :
    ∀ (l : List JSONElement) (s i : Nat) (n : JSONElement), wfNodes len s l = true →
      l[i]? = some n → wfNode len (s + i) n = true := by
  intro l
  induction l with
  | nil => intro s i n _ h; simp at h
  | cons x rest ih =>
    intro s i n hw h
    simp only [wfNodes, Bool.and_eq_true] at hw
    cases i with
    | zero =>
      simp only [List.getElem?_cons_zero, Option.some.injEq] at h
      subst h
      exact hw.1
    | succ j =>
      simp only [List.getElem?_cons_succ] at h
      have := ih (s + 1) j n hw.2 h
      have e : s + (j + 1) = s + 1 + j := by omega
      rw [e]
      exact this

theorem wfNode_facts (len p : Nat) (n : JSONElement) :
    wfNode len p n = true ↔ NodeFacts len p n := by
  constructor
  · intro h
    simp only [wfNode, Bool.and_eq_true, decide_eq_true_eq, List.all_eq_true] at h
    exact ⟨h.1.1.1, h.1.1.2, h.1.2, h.2⟩
  · intro h
    simp only [wfNode, Bool.and_eq_true, decide_eq_true_eq, List.all_eq_true]
    exact ⟨⟨⟨h.dataKeys, h.childKeys⟩, h.childPtr⟩, h.values⟩

theorem wfShape_of_wfNodes (h : Heap) (hw : wfNodes h.length 0 h = true) : wfShape h := by
  intro p n hp
  have := wfNodes_get h.length h 0 p n hw hp
  rw [Nat.zero_add] at this
  exact (wfNode_facts _ _ _).mp this

theorem WFHeap.shape {h : Heap} (hw : WFHeap h) : wfShape h := wfShape_of_wfNodes h hw.1

theorem WFHeap.noWriter {h : Heap} (hw : WFHeap h) : noWriter h := by
  intro n hn
  have := hw.2
  simp only [idle, List.all_eq_true, decide_eq_true_eq] at this
  rw [this n hn]

theorem ToJSON_eq (h : Heap) (p : Nat) (hw : WFHeap h) :
    ToJSON h p = (renderFuel h.length h p).map (fun r => (r, h)) :=
  ToJSONFuel_eq h.length h p hw.noWriter

theorem MarshalIndent_cases (v : GoValue) :
    (∃ b, MarshalIndent v [] [' ', ' '] = (some b, none)) ∨
      (∃ e, MarshalIndent v [] [' ', ' '] = (none, some e)) := by
  unfold MarshalIndent
  cases encodeValue [] [' ', ' '] 0 v with
  | ok b => exact Or.inl ⟨b, rfl⟩
  | error e => exact Or.inr ⟨e, rfl⟩

theorem childData_of_good (render : Nat → Option Result) (c : Nat)
    (hg : ∀ r, render c = some r → goodResult r) (hok : childOk render c) :
    ∃ fd b, render c = some (some b, none) ∧ validValue (.map fd) = true ∧
      MarshalIndent (.map fd) [] [' ', ' '] = (some b, none) ∧
      childDataOf render c = decoded (.map fd) := by
  obtain ⟨cj, hr, _⟩ := hok
  rcases hg _ hr with ⟨e, he⟩ | ⟨fd, b, he, hv, hm⟩
  · simp at he
  · simp only [Prod.mk.injEq, and_true] at he
    subst he
    refine ⟨fd, b, hr, hv, hm, ?_⟩
    simp [childDataOf, hr, Unmarshal_MarshalIndent fd b hv hm]

theorem fullData_valid (render : Nat → Option Result) (len p : Nat) (n : JSONElement)
    (hn : NodeFacts len p n)
    (hg : ∀ kc ∈ n.children, ∀ r, render kc.2 = some r → goodResult r)
    (hok : ∀ kc ∈ n.children, childOk render kc.2) :
    validValue (.map (copyData (mapValues (childDataOf render) n.children)
      (copyData n.data []))) = true := by
  simp only [validValue, Bool.and_eq_true, decide_eq_true_eq]
  refine ⟨nodup_copyData _ _ (nodup_copyData _ _ (by simp [mapKeys])), ?_⟩
  rw [validEntries_iff]
  intro kv hkv
  rcases mem_copyData _ _ _ hkv with h1 | h1
  · simp only [mapValues, List.mem_map] at h1
    obtain ⟨kc, hkc, rfl⟩ := h1
    obtain ⟨fd, b, _, hv, _, hcd⟩ := childData_of_good render kc.2 (hg kc hkc) (hok kc hkc)
    simp only [hcd]
    exact validValue_decoded _ hv
  · rcases mem_copyData _ _ _ h1 with h2 | h2
    · exact hn.values kv h2
    · simp at h2

theorem renderFuel_good (h : Heap) (hw : wfShape h) :
    ∀ (fuel p : Nat) (r : Result), renderFuel fuel h p = some r → goodResult r := by
  intro fuel
  induction fuel with
  | zero => intro p r hr; simp [renderFuel] at hr
  | succ fuel ih =>
    intro p r hr
    rw [renderFuel_succ] at hr
    cases hp : h[p]? with
    | none => simp [hp] at hr
    | some n =>
      simp only [hp] at hr
      have hn := hw p n hp
      cases hm : mergeSpec (renderFuel fuel h) n.children (copyData n.data []) with
      | none => simp [hm] at hr
      | some lr =>
        rw [hm] at hr
        cases lr with
        | returned r1 =>
          simp only [Option.some.injEq] at hr
          subst hr
          obtain ⟨_, _, _, _, e, _, _, h3, _⟩ := mergeSpec_returned _ _ _ _ hm
          exact Or.inl ⟨e, h3⟩
        | done fd =>
          simp only [Option.some.injEq] at hr
          obtain ⟨hfd, hok⟩ := mergeSpec_done _ _ _ _ hm
          rcases MarshalIndent_cases (.map fd) with ⟨b, hb⟩ | ⟨e, he⟩
          · right
            refine ⟨fd, b, by rw [← hr, hb], ?_, hb⟩
            rw [hfd]
            exact fullData_valid _ _ _ n hn (fun kc _ r hr => ih kc.2 r hr) hok
          · exact Or.inl ⟨e, by rw [← hr, he]⟩

theorem renderFuel_total (h : Heap) (hw : wfShape h) :
    ∀ (fuel p : Nat), p < h.length → h.length - p ≤ fuel → ∃ r, renderFuel fuel h p = some r := by
  intro fuel
  induction fuel with
  | zero => intro p hp hf; omega
  | succ fuel ih =>
    intro p hp hf
    rw [renderFuel_succ]
    have hget : h[p]? = some h[p] := List.getElem?_eq_getElem hp
    rw [hget]
    have hn := hw p _ hget
    obtain ⟨lr, hlr⟩ := mergeSpec_total (renderFuel fuel h) h[p].children (copyData h[p].data [])
      (fun kc hkc => by
        have := hn.childPtr kc hkc
        exact ih kc.2 this.2 (by omega))
    simp only [hlr]
    cases lr with
    | returned r => exact ⟨_, rfl⟩
    | done fd => exact ⟨_, rfl⟩

/-! ## The operations and well-formedness -/

theorem wfNodes_of_get (len : Nat) :
    ∀ (l : List JSONElement) (s : Nat),
      (∀ i n, l[i]? = some n → wfNode len (s + i) n = true) → wfNodes len s l = true := by
  intro l
  induction l with
  | nil => intro s _; rfl
  | cons x rest ih =>
    intro s h
    simp only [wfNodes, Bool.and_eq_true]
    refine ⟨by simpa using h 0 x (by simp), ih (s + 1) ?_⟩
    intro i n hi
    have := h (i + 1) n (by simpa using hi)
    have e : s + (i + 1) = s + 1 + i := by omega
    rw [← e]
    exact this

theorem WFHeap_iff (h : Heap) :
    WFHeap h ↔ wfShape h ∧ ∀ n ∈ h, n.mu = { readers := 0, writer := false } := by
  constructor
  · intro hw
    refine ⟨hw.shape, ?_⟩
    have := hw.2
    simpa only [idle, List.all_eq_true, decide_eq_true_eq] using this
  · intro ⟨hs, hi⟩
    refine ⟨?_, ?_⟩
    · apply wfNodes_of_get
      intro i n hn
      rw [Nat.zero_add]
      exact (wfNode_facts _ _ _).mpr (hs i n hn)
    · simpa only [idle, List.all_eq_true, decide_eq_true_eq] using hi

theorem NodeFacts.mono {len len' p : Nat} {n : JSONElement} (h : NodeFacts len p n)
    (hl : len ≤ len') : NodeFacts len' p n :=
  ⟨h.dataKeys, h.childKeys, fun kc hkc => ⟨(h.childPtr kc hkc).1, by
    have := (h.childPtr kc hkc).2
    omega⟩, h.values⟩

theorem Lock_idle (h : Heap) (je : Nat) (data : GoMap GoValue) (children : GoMap Nat)
    (hn : h[je]? = some { mu := { readers := 0, writer := false }, data := data, children := children }) :
    Lock h je = some (h.set je
      { mu := { readers := 0, writer := true }, data := data, children := children }) := by
  simp [Lock, hn]

theorem Unlock_locked (h : Heap) (je : Nat) (data : GoMap GoValue) (children : GoMap Nat)
    (hn : h[je]? = some { mu := { readers := 0, writer := true }, data := data, children := children }) :
    Unlock h je = some (h.set je
      { mu := { readers := 0, writer := false }, data := data, children := children }) := by
  simp [Unlock, hn]

theorem SetValue_idle (h : Heap) (je : Nat) (key : String) (value : GoValue) (n : JSONElement)
    (hn : h[je]? = some n) (hi : n.mu = { readers := 0, writer := false }) :
    SetValue h je key value = some (h.set je { n with data := mapSet n.data key value }) := by
  have hlt := lt_of_get h je n hn
  obtain ⟨mu, data, children⟩ := n
  simp only at hi
  subst hi
  unfold SetValue
  rw [Lock_idle h je data children hn]
  simp only [List.getElem?_set_self hlt, List.set_set]
  rw [Unlock_locked _ je (mapSet data key value) children
    (List.getElem?_set_self (by simpa using hlt)), List.set_set]

theorem SetValue_none (h : Heap) (je : Nat) (key : String) (value : GoValue)
    (hn : h[je]? = none) : SetValue h je key value = none := by
  simp [SetValue, Lock, hn]

theorem AddChild_idle (h : Heap) (je : Nat) (key : String) (n : JSONElement)
    (hn : h[je]? = some n) (hi : n.mu = { readers := 0, writer := false }) :
    AddChild h je key =
      some ((h ++ [freshElement]).set je { n with children := mapSet n.children key h.length },
        h.length) := by
  have hlt := lt_of_get h je n hn
  obtain ⟨mu, data, children⟩ := n
  simp only at hi
  subst hi
  unfold AddChild
  rw [Lock_idle h je data children hn]
  have hget : (h.set je { mu := { readers := 0, writer := true }, data := data, children := children } ++ [freshElement])[je]? =
      some { mu := { readers := 0, writer := true }, data := data, children := children } := by
    rw [List.getElem?_append_left (by simpa using hlt)]
    exact List.getElem?_set_self hlt
  have hnew : NewJSONElement (h.set je { mu := { readers := 0, writer := true }, data := data, children := children }) =
      (h.set je { mu := { readers := 0, writer := true }, data := data, children := children } ++ [freshElement], h.length) := by
    simp [NewJSONElement, freshElement]
  simp only [hnew, hget]
  rw [Unlock_locked _ je data (mapSet children key h.length)
    (List.getElem?_set_self (by simp; omega)), List.set_set]
  rw [List.set_append_left _ _ (by simpa using hlt), List.set_set,
    List.set_append_left _ _ hlt]

theorem AddChild_none (h : Heap) (je : Nat) (key : String) (hn : h[je]? = none) :
    AddChild h je key = none := by
  simp [AddChild, Lock, hn]

theorem wfShape_set (h : Heap) (je : Nat) (n' : JSONElement) (hs : wfShape h)
    (hn : NodeFacts h.length je n') : wfShape (h.set je n') := by
  intro p n hp
  rw [List.length_set]
  rw [List.getElem?_set] at hp
  split at hp
  · rename_i e
    subst e
    split at hp
    · simp only [Option.some.injEq] at hp
      subst hp
      exact hn
    · simp at hp
  · exact hs p n hp

theorem wfShape_append_fresh (h : Heap) (hs : wfShape h) : wfShape (h ++ [freshElement]) := by
  intro p n hp
  by_cases hlt : p < h.length
  · rw [List.getElem?_append_left hlt] at hp
    exact (hs p n hp).mono (by simp)
  · rw [List.getElem?_append_right (by omega)] at hp
    have : p - h.length = 0 := by
      by_contra hne
      rw [List.getElem?_eq_none (by simp; omega)] at hp
      simp at hp
    rw [this] at hp
    simp only [List.getElem?_cons_zero, Option.some.injEq] at hp
    subst hp
    exact ⟨by simp [freshElement, mapKeys], by simp [freshElement, mapKeys],
      by simp [freshElement], by simp [freshElement]⟩

theorem idle_set (h : Heap) (je : Nat) (n' : JSONElement)
    (hi : ∀ n ∈ h, n.mu = { readers := 0, writer := false })
    (hn : n'.mu = { readers := 0, writer := false }) :
    ∀ n ∈ h.set je n', n.mu = { readers := 0, writer := false } := by
  intro n hm
  rcases List.mem_or_eq_of_mem_set hm with h1 | h1
  · exact hi n h1
  · rw [h1]; exact hn

theorem WFHeap_new (h : Heap) (hw : WFHeap h) : WFHeap (NewJSONElement h).1 := by
  rw [WFHeap_iff] at hw ⊢
  refine ⟨wfShape_append_fresh h hw.1, ?_⟩
  intro n hn
  simp only [NewJSONElement, List.mem_append, List.mem_singleton] at hn
  rcases hn with h1 | h1
  · exact hw.2 n h1
  · rw [h1]

theorem NodeFacts_setData (len p : Nat) (n : JSONElement) (key : String) (value : GoValue)
    (hn : NodeFacts len p n) (hv : validValue value = true) :
    NodeFacts len p { n with data := mapSet n.data key value } :=
  ⟨nodup_mapSet _ _ _ hn.dataKeys, hn.childKeys, hn.childPtr, fun kv hkv => by
    rcases mem_mapSet _ _ _ _ hkv with h1 | h1
    · rw [h1]; exact hv
    · exact hn.values kv h1⟩

theorem NodeFacts_setChild (len p c : Nat) (n : JSONElement) (key : String)
    (hn : NodeFacts len p n) (hc : p < c ∧ c < len) :
    NodeFacts len p { n with children := mapSet n.children key c } :=
  ⟨hn.dataKeys, nodup_mapSet _ _ _ hn.childKeys, fun kc hkc => by
    rcases mem_mapSet _ _ _ _ hkc with h1 | h1
    · rw [h1]; exact hc
    · exact hn.childPtr kc h1, hn.values⟩

theorem WFHeap_setValue (h h' : Heap) (je : Nat) (key : String) (value : GoValue)
    (hw : WFHeap h) (hv : validValue value = true) (hs : SetValue h je key value = some h') :
    WFHeap h' ∧ ∃ n, h[je]? = some n ∧ h' = h.set je { n with data := mapSet n.data key value } := by
  cases hn : h[je]? with
  | none => rw [SetValue_none h je key value hn] at hs; simp at hs
  | some n =>
    have hw' := (WFHeap_iff h).mp hw
    have hi := hw'.2 n (List.mem_iff_getElem?.mpr ⟨je, hn⟩)
    rw [SetValue_idle h je key value n hn hi] at hs
    simp only [Option.some.injEq] at hs
    subst hs
    refine ⟨(WFHeap_iff _).mpr ⟨?_, ?_⟩, n, rfl, rfl⟩
    · exact wfShape_set h je _ hw'.1 (NodeFacts_setData _ _ _ _ _ (hw'.1 je n hn) hv)
    · exact idle_set h je _ hw'.2 hi

theorem WFHeap_addChild (h h' : Heap) (je c : Nat) (key : String)
    (hw : WFHeap h) (hs : AddChild h je key = some (h', c)) :
    WFHeap h' ∧ c = h.length ∧ ∃ n, h[je]? = some n ∧
      h' = (h ++ [freshElement]).set je { n with children := mapSet n.children key h.length } := by
  cases hn : h[je]? with
  | none => rw [AddChild_none h je key hn] at hs; simp at hs
  | some n =>
    have hw' := (WFHeap_iff h).mp hw
    have hi := hw'.2 n (List.mem_iff_getElem?.mpr ⟨je, hn⟩)
    have hlt := lt_of_get h je n hn
    rw [AddChild_idle h je key n hn hi] at hs
    simp only [Option.some.injEq, Prod.mk.injEq] at hs
    obtain ⟨h1, h2⟩ := hs
    subst h1 h2
    refine ⟨(WFHeap_iff _).mpr ⟨?_, ?_⟩, rfl, n, rfl, rfl⟩
    · apply wfShape_set _ je _ (wfShape_append_fresh h hw'.1)
      apply NodeFacts_setChild
      · exact (hw'.1 je n hn).mono (by simp)
      · simp; omega
    · refine idle_set (h ++ [freshElement]) je _ ?_ hi
      intro x hx
      simp only [List.mem_append, List.mem_singleton] at hx
      rcases hx with h1 | h1
      · exact hw'.2 x h1
      · rw [h1]; rfl

/-! ## What `ToJSON` returns on a well-formed heap -/

theorem renderFuel_fuel_indep (h : Heap) (hw : wfShape h) (f1 f2 p : Nat) (hp : p < h.length)
    (h1 : h.length - p ≤ f1) (h2 : h.length - p ≤ f2) :
    renderFuel f1 h p = renderFuel f2 h p := by
  obtain ⟨r, hr⟩ := renderFuel_total h hw (h.length - p) p hp (le_refl _)
  rw [renderFuel_mono h _ f1 p r h1 hr, renderFuel_mono h _ f2 p r h2 hr]

theorem ToJSON_total (h : Heap) (p : Nat) (hw : WFHeap h) (hp : p < h.length) :
    ∃ r, ToJSON h p = some (r, h) ∧ renderFuel h.length h p = some r ∧ goodResult r := by
  obtain ⟨r, hr⟩ := renderFuel_total h hw.shape h.length p hp (by omega)
  exact ⟨r, by rw [ToJSON_eq h p hw, hr]; rfl, hr, renderFuel_good h hw.shape _ _ _ hr⟩

theorem ToJSON_render (h : Heap) (p : Nat) (r : Result) (h' : Heap) (hw : WFHeap h)
    (hj : ToJSON h p = some (r, h')) : h' = h ∧ renderFuel h.length h p = some r := by
  rw [ToJSON_eq h p hw] at hj
  cases hr : renderFuel h.length h p with
  | none => simp [hr] at hj
  | some r1 =>
    simp only [hr, Option.map_some', Option.some.injEq, Prod.mk.injEq] at hj
    exact ⟨hj.2.symm, by rw [hj.1]⟩

theorem mapGet_fullDataOf (render : Nat → Option Result) (n : JSONElement)
    (hd : (mapKeys n.data).Nodup) (hc : (mapKeys n.children).Nodup) (k : String) :
    mapGet (fullDataOf render n) k =
      match mapGet n.children k with
      | some c => some (childDataOf render c)
      | none => mapGet n.data k := by
  unfold fullDataOf
  rw [mapGet_copyData _ _ _ (by rw [mapKeys_mapValues]; exact hc), mapGet_mapValues]
  cases mapGet n.children k with
  | some c => rfl
  | none =>
    simp only [Option.map_none']
    rw [mapGet_copyData _ _ _ hd]
    cases mapGet n.data k with
    | some v => rfl
    | none => rfl

theorem renderFuel_ok_unfold (h : Heap) (hw : wfShape h) (fuel p : Nat) (n : JSONElement)
    (bytes : Bytes) (hn : h[p]? = some n)
    (hr : renderFuel (fuel + 1) h p = some (some bytes, none)) :
    (∀ kc ∈ n.children, childOk (renderFuel fuel h) kc.2) ∧
      validValue (.map (fullDataOf (renderFuel fuel h) n)) = true ∧
      MarshalIndent (.map (fullDataOf (renderFuel fuel h) n)) [] [' ', ' '] = (some bytes, none) := by
  rw [renderFuel_succ, hn] at hr
  simp only at hr
  cases hm : mergeSpec (renderFuel fuel h) n.children (copyData n.data []) with
  | none => simp [hm] at hr
  | some lr =>
    rw [hm] at hr
    cases lr with
    | returned r1 =>
      obtain ⟨_, _, _, _, e, _, _, h3, _⟩ := mergeSpec_returned _ _ _ _ hm
      simp only [Option.some.injEq] at hr
      rw [h3] at hr
      simp at hr
    | done fd =>
      simp only [Option.some.injEq] at hr
      obtain ⟨hfd, hok⟩ := mergeSpec_done _ _ _ _ hm
      subst hfd
      exact ⟨hok, fullData_valid _ _ _ n (hw p n hn)
        (fun kc _ r hr => renderFuel_good h hw fuel kc.2 r hr) hok, hr⟩

theorem ToJSON_object (h : Heap) (n : Nat) (node : JSONElement) (bytes : Bytes) (h' : Heap)
    (hw : WFHeap h) (hn : h[n]? = some node)
    (hj : ToJSON h n = some ((some bytes, none), h')) :
    h' = h ∧ ∃ d, Unmarshal bytes = (.map d, none) ∧
      (∀ k c, mapGet node.children k = some c →
        ∃ cb cd, ToJSON h c = some ((some cb, none), h) ∧ Unmarshal cb = (.map cd, none) ∧
          mapGet d k = some (.map cd)) ∧
      (∀ k, mapGet node.children k = none → mapGet d k = (mapGet node.data k).map decoded) := by
  obtain ⟨hh, hr⟩ := ToJSON_render h n _ h' hw hj
  refine ⟨hh, ?_⟩
  have hlt := lt_of_get h n node hn
  obtain ⟨f, hf⟩ : ∃ f, h.length = f + 1 := ⟨h.length - 1, by omega⟩
  rw [hf] at hr
  have hs := hw.shape
  have hnf := hs n node hn
  obtain ⟨hok, hvalid, hmar⟩ := renderFuel_ok_unfold h hs f n node bytes hn hr
  have hun := Unmarshal_MarshalIndent _ bytes hvalid hmar
  rw [decoded_map] at hun
  have hnd : (mapKeys (fullDataOf (renderFuel f h) node)).Nodup := by
    simp only [validValue, Bool.and_eq_true, decide_eq_true_eq] at hvalid
    exact hvalid.1
  refine ⟨_, hun, ?_, ?_⟩
  · intro k c hc
    have hmem := mem_of_mapGet _ _ _ hc
    obtain ⟨fdc, b, hrc, hvc, hmc, hcd⟩ := childData_of_good (renderFuel f h) c
      (fun r hr => renderFuel_good h hs f c r hr) (hok (k, c) hmem)
    have hrc' : renderFuel h.length h c = some (some b, none) :=
      renderFuel_mono h f h.length c _ (by omega) hrc
    refine ⟨b, mapValues decoded (sortEntries fdc), ?_, ?_, ?_⟩
    · rw [ToJSON_eq h c hw, hrc']; rfl
    · rw [Unmarshal_MarshalIndent fdc b hvc hmc, decoded_map]
    · rw [mapGet_decoded _ hnd, mapGet_fullDataOf _ _ hnf.dataKeys hnf.childKeys, hc]
      simp only [Option.map_some', hcd, decoded_decoded]
      rw [decoded_map]
  · intro k hc
    rw [mapGet_decoded _ hnd, mapGet_fullDataOf _ _ hnf.dataKeys hnf.childKeys, hc]

theorem sameTree_length {h h' : Heap} (hs : sameTree h h') : h.length = h'.length :=
  List.Forall₂.length_eq hs

theorem sameTree_get {h h' : Heap} (hs : sameTree h h') (p : Nat) (n : JSONElement)
    (hn : h[p]? = some n) : ∃ n', h'[p]? = some n' ∧ sameElement n n' := by
  induction hs generalizing p with
  | nil => simp at hn
  | cons hab _ ih =>
    cases p with
    | zero =>
      simp only [List.getElem?_cons_zero, Option.some.injEq] at hn
      subst hn
      exact ⟨_, by simp, hab⟩
    | succ q =>
      simp only [List.getElem?_cons_succ] at hn ⊢
      exact ih q hn

theorem sameTree_mem {h h' : Heap} (hs : sameTree h h') (n' : JSONElement) (hn : n' ∈ h') :
    ∃ n ∈ h, sameElement n n' := by
  induction hs with
  | nil => simp at hn
  | cons hab _ ih =>
    rcases List.mem_cons.mp hn with h1 | h1
    · subst h1
      exact ⟨_, List.mem_cons_self _ _, hab⟩
    · obtain ⟨n, hm, hse⟩ := ih h1
      exact ⟨n, List.mem_cons_of_mem _ hm, hse⟩

theorem sameTree_get' {h h' : Heap} (hs : sameTree h h') (p : Nat) (n' : JSONElement)
    (hn : h'[p]? = some n') : ∃ n, h[p]? = some n ∧ sameElement n n' := by
  have hlt := lt_of_get h' p n' hn
  rw [← sameTree_length hs] at hlt
  obtain ⟨n2, h2, hse⟩ := sameTree_get hs p h[p] (List.getElem?_eq_getElem hlt)
  rw [hn] at h2
  simp only [Option.some.injEq] at h2
  subst h2
  exact ⟨_, List.getElem?_eq_getElem hlt, hse⟩

theorem NodeFacts_same (len p : Nat) (n n' : JSONElement) (hs : sameElement n n')
    (hn : NodeFacts len p n) : NodeFacts len p n' :=
  ⟨(List.Perm.nodup_iff (mapKeys_perm hs.2.1)).mp hn.dataKeys,
    (List.Perm.nodup_iff (mapKeys_perm hs.2.2)).mp hn.childKeys,
    fun kc hkc => hn.childPtr kc ((List.Perm.mem_iff hs.2.2).mpr hkc),
    fun kv hkv => hn.values kv ((List.Perm.mem_iff hs.2.1).mpr hkv)⟩

theorem WFHeap_same {h h' : Heap} (hw : WFHeap h) (hs : sameTree h h') : WFHeap h' := by
  rw [WFHeap_iff] at hw ⊢
  refine ⟨?_, ?_⟩
  · intro p n' hn'
    obtain ⟨n, hn, hse⟩ := sameTree_get' hs p n' hn'
    rw [← sameTree_length hs]
    exact NodeFacts_same _ _ n n' hse (hw.1 p n hn)
  · intro n' hn'
    obtain ⟨n, hn, hse⟩ := sameTree_mem hs n' hn'
    rw [← hse.1]
    exact hw.2 n hn

theorem sameTree_refl (h : Heap) : sameTree h h := by
  induction h with
  | nil => exact List.Forall₂.nil
  | cons n rest ih => exact List.Forall₂.cons ⟨rfl, List.Perm.refl _, List.Perm.refl _⟩ ih

theorem bytesLE_antisymm (a b : List Char) (h1 : bytesLE a b = true) (h2 : bytesLE b a = true) :
    a = b := by
  induction a generalizing b with
  | nil =>
    cases b with
    | nil => rfl
    | cons y ys => simp [bytesLE] at h2
  | cons x xs ih =>
    cases b with
    | nil => simp [bytesLE] at h1
    | cons y ys =>
      simp only [bytesLE] at h1 h2
      by_cases hxy : x.toNat < y.toNat
      · have : ¬ y.toNat < x.toNat := by omega
        simp [hxy, this] at h2
      · by_cases hyx : y.toNat < x.toNat
        · simp [hxy, hyx] at h1
        · simp only [hxy, hyx, if_false] at h1 h2
          have hc : x = y := by
            have e : x.toNat = y.toNat := by omega
            rw [← Char.ofNat_toNat x, ← Char.ofNat_toNat y, e]
          rw [hc, ih ys h1 h2]

theorem keyLE_antisymm (a b : String) (h1 : keyLE a b = true) (h2 : keyLE b a = true) : a = b := by
  have := bytesLE_antisymm a.data b.data h1 h2
  cases a
  cases b
  simp only at this
  rw [this]

theorem perm_of_mapGet_eq {α : Type} (l1 l2 : GoMap α) (h1 : (mapKeys l1).Nodup)
    (h2 : (mapKeys l2).Nodup) (h : ∀ k, mapGet l1 k = mapGet l2 k) : List.Perm l1 l2 := by
  rw [List.perm_ext_iff_of_nodup (List.Nodup.of_map _ h1) (List.Nodup.of_map _ h2)]
  intro kv
  constructor
  · intro hm
    have := mapGet_of_mem l1 kv.1 kv.2 h1 hm
    rw [h] at this
    exact mem_of_mapGet l2 kv.1 kv.2 this
  · intro hm
    have := mapGet_of_mem l2 kv.1 kv.2 h2 hm
    rw [← h] at this
    exact mem_of_mapGet l1 kv.1 kv.2 this

theorem sortEntries_eq_of_perm {α : Type} (l1 l2 : GoMap α) (hp : List.Perm l1 l2)
    (hn : (mapKeys l1).Nodup) : sortEntries l1 = sortEntries l2 := by
  have hn2 : (mapKeys l2).Nodup := (List.Perm.nodup_iff (mapKeys_perm hp)).mp hn
  have hperm : List.Perm (sortEntries l1) (sortEntries l2) :=
    ((sortEntries_perm l1).trans hp).trans (sortEntries_perm l2).symm
  have strict : ∀ l : GoMap α, (mapKeys l).Nodup → List.Pairwise keyLT (sortEntries l) := by
    intro l hl
    have hs := keysSorted_sortEntries l
    have hd : List.Pairwise (fun a b : String × α => a.1 ≠ b.1) (sortEntries l) := by
      have := nodup_sortEntries l hl
      unfold mapKeys at this
      exact (List.pairwise_map.mp this)
    exact List.Pairwise.and hs hd
  haveI : IsAntisymm (String × α) keyLT :=
    ⟨fun a b hab hba => absurd (keyLE_antisymm a.1 b.1 hab.1 hba.1) hab.2⟩
  exact List.eq_of_perm_of_sorted hperm (strict l1 hn) (strict l2 hn2)

theorem MarshalIndent_perm (m m' : List (String × GoValue)) (hp : List.Perm m m')
    (hn : (mapKeys m).Nodup) :
    MarshalIndent (.map m) [] [' ', ' '] = MarshalIndent (.map m') [] [' ', ' '] := by
  unfold MarshalIndent
  rw [encodeValue_map, encodeValue_map, sortEntries_eq_of_perm m m' hp hn]

theorem copyData_perm (l l' fd fd' : GoMap GoValue) (hl : List.Perm l l') (hf : List.Perm fd fd')
    (hln : (mapKeys l).Nodup) (hfn : (mapKeys fd).Nodup) :
    List.Perm (copyData l fd) (copyData l' fd') := by
  have hln' : (mapKeys l').Nodup := (List.Perm.nodup_iff (mapKeys_perm hl)).mp hln
  have hfn' : (mapKeys fd').Nodup := (List.Perm.nodup_iff (mapKeys_perm hf)).mp hfn
  apply perm_of_mapGet_eq _ _ (nodup_copyData _ _ hfn) (nodup_copyData _ _ hfn')
  intro k
  rw [mapGet_copyData _ _ _ hln, mapGet_copyData _ _ _ hln', mapGet_perm hl hln k,
    mapGet_perm hf hfn k]

theorem childOk_same (R R' : Nat → Option Result) (c : Nat) (r r' : Result)
    (h1 : R c = some r) (h2 : R' c = some r') (ha : sameOutcome r r') (hok : childOk R c) :
    childOk R' c ∧ childDataOf R' c = childDataOf R c := by
  obtain ⟨cj, hr, hu⟩ := hok
  rw [h1] at hr
  simp only [Option.some.injEq] at hr
  subst hr
  have := ha (Or.inl rfl)
  subst this
  exact ⟨⟨cj, h2, hu⟩, by simp [childDataOf, h1, h2]⟩

theorem sameOutcome_symm {r r' : Result} (h : sameOutcome r r') : sameOutcome r' r :=
  fun hc => (h hc.symm).symm

theorem mergeSpec_perm (R R' : Nat → Option Result) (ch ch' : GoMap Nat)
    (fd fd' : GoMap GoValue) (hp : List.Perm ch ch') (hf : List.Perm fd fd')
    (hcn : (mapKeys ch).Nodup) (hfn : (mapKeys fd).Nodup)
    (hrel : ∀ kc ∈ ch, ∃ r r', R kc.2 = some r ∧ R' kc.2 = some r' ∧ sameOutcome r r') :
    (∃ m m', mergeSpec R ch fd = some (.done m) ∧ mergeSpec R' ch' fd' = some (.done m') ∧
        List.Perm m m' ∧ (mapKeys m).Nodup) ∨
      (∃ e e', mergeSpec R ch fd = some (.returned (none, some e)) ∧
        mergeSpec R' ch' fd' = some (.returned (none, some e'))) := by
  have hrel' : ∀ kc ∈ ch', ∃ r r', R kc.2 = some r ∧ R' kc.2 = some r' ∧ sameOutcome r r' :=
    fun kc hkc => hrel kc ((List.Perm.mem_iff hp).mpr hkc)
  by_cases hall : ∀ kc ∈ ch, childOk R kc.2
  · left
    have hall' : ∀ kc ∈ ch', childOk R' kc.2 := by
      intro kc hkc
      obtain ⟨r, r', h1, h2, ha⟩ := hrel' kc hkc
      exact (childOk_same R R' kc.2 r r' h1 h2 ha (hall kc ((List.Perm.mem_iff hp).mpr hkc))).1
    refine ⟨_, _, mergeSpec_of_ok R ch fd hall, mergeSpec_of_ok R' ch' fd' hall', ?_, ?_⟩
    · have e : mapValues (childDataOf R') ch' = mapValues (childDataOf R) ch' := by
        apply mapValues_congr
        intro kc hkc
        obtain ⟨r, r', h1, h2, ha⟩ := hrel' kc hkc
        exact (childOk_same R R' kc.2 r r' h1 h2 ha
          (hall kc ((List.Perm.mem_iff hp).mpr hkc))).2
      rw [e]
      apply copyData_perm _ _ _ _ (List.Perm.map _ hp) hf _ hfn
      show (mapKeys (mapValues (childDataOf R) ch)).Nodup
      rw [mapKeys_mapValues]
      exact hcn
    · exact nodup_copyData _ _ hfn
  · right
    have hnall' : ¬ ∀ kc ∈ ch', childOk R' kc.2 := by
      intro hc
      apply hall
      intro kc hkc
      obtain ⟨r, r', h1, h2, ha⟩ := hrel kc hkc
      exact (childOk_same R' R kc.2 r' r h2 h1 (sameOutcome_symm ha)
        (hc kc ((List.Perm.mem_iff hp).mp hkc))).1
    obtain ⟨lr, hlr⟩ := mergeSpec_total R ch fd (fun kc hkc => by
      obtain ⟨r, _, h1, _, _⟩ := hrel kc hkc
      exact ⟨r, h1⟩)
    obtain ⟨lr', hlr'⟩ := mergeSpec_total R' ch' fd' (fun kc hkc => by
      obtain ⟨_, r', _, h2, _⟩ := hrel' kc hkc
      exact ⟨r', h2⟩)
    cases lr with
    | done m => exact absurd (mergeSpec_done _ _ _ _ hlr).2 hall
    | returned r =>
      cases lr' with
      | done m' => exact absurd (mergeSpec_done _ _ _ _ hlr').2 hnall'
      | returned r' =>
        obtain ⟨_, _, _, _, e, _, _, he, _⟩ := mergeSpec_returned _ _ _ _ hlr
        obtain ⟨_, _, _, _, e', _, _, he', _⟩ := mergeSpec_returned _ _ _ _ hlr'
        subst he he'
        exact ⟨e, e', hlr, hlr'⟩

theorem renderFuel_perm (h h' : Heap) (hw : wfShape h) (hs : sameTree h h') :
    ∀ (fuel p : Nat), p < h.length → h.length - p ≤ fuel →
      ∃ r r', renderFuel fuel h p = some r ∧ renderFuel fuel h' p = some r' ∧ sameOutcome r r' := by
  intro fuel
  induction fuel with
  | zero => intro p hp hf; omega
  | succ fuel ih =>
    intro p hp hf
    have hget : h[p]? = some h[p] := List.getElem?_eq_getElem hp
    obtain ⟨n', hn', hse⟩ := sameTree_get hs p _ hget
    have hnf := hw p _ hget
    rw [renderFuel_succ, renderFuel_succ, hget, hn']
    simp only
    have hfd : List.Perm (copyData h[p].data []) (copyData n'.data []) :=
      copyData_perm _ _ _ _ hse.2.1 (List.Perm.refl _) hnf.dataKeys (by simp [mapKeys])
    rcases mergeSpec_perm (renderFuel fuel h) (renderFuel fuel h') h[p].children n'.children
      _ _ hse.2.2 hfd hnf.childKeys (nodup_copyData _ _ (by simp [mapKeys]))
      (fun kc hkc => by
        have hptr := hnf.childPtr kc hkc
        exact ih kc.2 hptr.2 (by omega)) with ⟨m, m', h1, h2, hperm, hnd⟩ | ⟨e, e', h1, h2⟩
    · rw [h1, h2]
      refine ⟨_, _, rfl, rfl, ?_⟩
      rw [MarshalIndent_perm m m' hperm hnd]
      exact fun _ => rfl
    · rw [h1, h2]
      refine ⟨_, _, rfl, rfl, ?_⟩
      intro hc
      rcases hc with hc | hc <;> simp at hc

theorem ToJSON_perm (h h' : Heap) (n : Nat) (hw : WFHeap h) (hs : sameTree h h')
    (hn : n < h.length) :
    ∃ r r', ToJSON h n = some (r, h) ∧ ToJSON h' n = some (r', h') ∧ sameOutcome r r' ∧
      goodResult r ∧ goodResult r' := by
  have hw' := WFHeap_same hw hs
  obtain ⟨r, r', h1, h2, ha⟩ := renderFuel_perm h h' hw.shape hs h.length n hn (by omega)
  refine ⟨r, r', ?_, ?_, ha, renderFuel_good h hw.shape _ _ _ h1, ?_⟩
  · rw [ToJSON_eq h n hw, h1]; rfl
  · rw [ToJSON_eq h' n hw', ← sameTree_length hs, h2]; rfl
  · exact renderFuel_good h' hw'.shape _ _ _ h2

theorem ToJSON_lt (h : Heap) (n : Nat) (r : Result) (g : Heap) (hw : WFHeap h)
    (hj : ToJSON h n = some (r, g)) : n < h.length := by
  have hr := (ToJSON_render h n r g hw hj).2
  by_contra hn
  have hnone : h[n]? = none := List.getElem?_eq_none (by omega)
  cases hl : h.length with
  | zero => rw [hl] at hr; simp [renderFuel] at hr
  | succ f => rw [hl, renderFuel_succ, hnone] at hr; simp at hr

theorem ToJSON_any_order (h h' : Heap) (n : Nat) (bytes : Bytes) (g : Heap) (hw : WFHeap h)
    (hs : sameTree h h') (hj : ToJSON h n = some ((some bytes, none), g)) :
    ToJSON h' n = some ((some bytes, none), h') := by
  obtain ⟨r, r', h1, h2, ha, _, _⟩ := ToJSON_perm h h' n hw hs (ToJSON_lt h n _ g hw hj)
  rw [hj] at h1
  simp only [Option.some.injEq, Prod.mk.injEq] at h1
  rw [← h1.1] at ha
  rw [h2, ← ha (Or.inl rfl)]

/-! ## Reachability and the forest of the new elements -/

theorem mem_mapSet_ne {α : Type} (m : GoMap α) (k : String) (v : α) (e : String × α)
    (hn : (mapKeys m).Nodup) (h : e ∈ mapSet m k v) : e = (k, v) ∨ (e ∈ m ∧ e.1 ≠ k) := by
  induction m with
  | nil => simp [mapSet] at h; exact Or.inl h
  | cons x rest ih =>
    obtain ⟨a, b⟩ := x
    simp only [mapKeys, List.map_cons, List.nodup_cons] at hn
    by_cases h1 : a = k
    · simp only [mapSet, h1, if_true, List.mem_cons] at h
      rcases h with h | h
      · exact Or.inl h
      · refine Or.inr ⟨List.mem_cons_of_mem _ h, ?_⟩
        intro he
        apply hn.1
        rw [h1, ← he]
        exact List.mem_map_of_mem _ h
    · simp only [mapSet, h1, if_false, List.mem_cons] at h
      rcases h with h | h
      · refine Or.inr ⟨h ▸ List.mem_cons_self _ _, ?_⟩
        rw [h]
        exact h1
      · rcases ih hn.2 h with h2 | h2
        · exact Or.inl h2
        · exact Or.inr ⟨List.mem_cons_of_mem _ h2.1, h2.2⟩

theorem edges_addChild (h h1 : Heap) (je c : Nat) (key : String) (hw : WFHeap h)
    (hs : AddChild h je key = some (h1, c)) (p : Nat) (node1 : JSONElement) (kc : String × Nat)
    (hp : h1[p]? = some node1) (hkc : kc ∈ node1.children) :
    (p = je ∧ kc = (key, h.length)) ∨
      (∃ node, h[p]? = some node ∧ kc ∈ node.children ∧ (p = je → kc.1 ≠ key)) := by
  obtain ⟨_, _, n, hn, e⟩ := WFHeap_addChild h h1 je c key hw hs
  have hlt := lt_of_get h je n hn
  by_cases hpj : p = je
  · subst hpj
    rw [e, List.getElem?_set_self (by simp; omega)] at hp
    simp only [Option.some.injEq] at hp
    subst hp
    rcases mem_mapSet_ne n.children key h.length kc (hw.shape p n hn).childKeys hkc with h2 | h2
    · exact Or.inl ⟨rfl, h2⟩
    · exact Or.inr ⟨n, hn, h2.1, fun _ => h2.2⟩
  · rw [e, List.getElem?_set] at hp
    simp only [Ne.symm hpj, if_false] at hp
    have hpl : p < (h ++ [freshElement]).length := lt_of_get _ p node1 hp
    simp only [List.length_append, List.length_singleton] at hpl
    by_cases hpe : p = h.length
    · rw [hpe, List.getElem?_concat_length] at hp
      simp only [Option.some.injEq] at hp
      subst hp
      simp [freshElement] at hkc
    · rw [List.getElem?_append_left (by omega)] at hp
      exact Or.inr ⟨node1, hp, hkc, fun hc => absurd hc hpj⟩

theorem edges_setValue (h h1 : Heap) (je : Nat) (key : String) (value : GoValue) (hw : WFHeap h)
    (hv : validValue value = true) (hs : SetValue h je key value = some h1) (p : Nat)
    (node1 : JSONElement) (kc : String × Nat) (hp : h1[p]? = some node1)
    (hkc : kc ∈ node1.children) : ∃ node, h[p]? = some node ∧ kc ∈ node.children := by
  obtain ⟨_, n, hn, e⟩ := WFHeap_setValue h h1 je key value hw hv hs
  have hlt := lt_of_get h je n hn
  by_cases hpj : p = je
  · subst hpj
    rw [e, List.getElem?_set_self hlt] at hp
    simp only [Option.some.injEq] at hp
    subst hp
    exact ⟨n, hn, hkc⟩
  · rw [e, List.getElem?_set] at hp
    simp only [Ne.symm hpj, if_false] at hp
    exact ⟨node1, hp, hkc⟩

theorem edges_new (h : Heap) (p : Nat) (node1 : JSONElement) (kc : String × Nat)
    (hp : (NewJSONElement h).1[p]? = some node1) (hkc : kc ∈ node1.children) :
    ∃ node, h[p]? = some node ∧ kc ∈ node.children := by
  simp only [NewJSONElement] at hp
  have hpl := lt_of_get _ p node1 hp
  simp only [List.length_append, List.length_singleton] at hpl
  by_cases hpe : p = h.length
  · rw [hpe, List.getElem?_concat_length] at hp
    simp only [Option.some.injEq] at hp
    subst hp
    simp at hkc
  · rw [List.getElem?_append_left (by omega)] at hp
    exact ⟨node1, hp, hkc⟩

theorem forestAbove_edges (lo : Nat) (h h1 : Heap) (je : Nat) (key : String) (hs : wfShape h)
    (hE : ∀ p node1 kc, h1[p]? = some node1 → kc ∈ node1.children →
      (p = je ∧ kc = (key, h.length)) ∨ ∃ node, h[p]? = some node ∧ kc ∈ node.children)
    (hf : forestAbove lo h) : forestAbove lo h1 := by
  intro p p' node node' kc kc' hp hp' hkc hkc' heq hlo
  rcases hE p node kc hp hkc with ⟨e1, e2⟩ | ⟨n0, hn0, hm0⟩
  · rcases hE p' node' kc' hp' hkc' with ⟨e1', e2'⟩ | ⟨n0', hn0', hm0'⟩
    · exact ⟨by rw [e1, e1'], by rw [e2, e2']⟩
    · have := ((hs p' n0' hn0').childPtr kc' hm0').2
      rw [← heq, e2] at this
      simp at this
  · rcases hE p' node' kc' hp' hkc' with ⟨e1', e2'⟩ | ⟨n0', hn0', hm0'⟩
    · have := ((hs p n0 hn0).childPtr kc hm0).2
      rw [heq, e2'] at this
      simp at this
    · exact hf p p' n0 n0' kc kc' hn0 hn0' hm0 hm0' heq hlo

theorem noParent_edges (x : Nat) (h h1 : Heap) (je : Nat) (key : String)
    (hE : ∀ p node1 kc, h1[p]? = some node1 → kc ∈ node1.children →
      (p = je ∧ kc = (key, h.length)) ∨ ∃ node, h[p]? = some node ∧ kc ∈ node.children)
    (hx : x < h.length) (hnp : noParent x h) : noParent x h1 := by
  intro p node kc hp hkc
  rcases hE p node kc hp hkc with ⟨_, e2⟩ | ⟨n0, hn0, hm0⟩
  · rw [e2]
    simp only
    omega
  · exact hnp p n0 kc hn0 hm0

theorem runCalls_forest (calls : List Call) (lo : Nat) :
    ∀ (h h' : Heap), WFHeap h → validCalls calls = true → runCalls calls h = some h' →
      forestAbove lo h →
      forestAbove lo h' ∧ ∀ x, x < h.length → noParent x h → noParent x h' := by
  induction calls with
  | nil =>
    intro h h' _ _ hr hf
    simp only [runCalls, Option.some.injEq] at hr
    subst hr
    exact ⟨hf, fun _ _ hx => hx⟩
  | cons c rest ih =>
    intro h h' hw hv hr hf
    cases c with
    | newElement =>
      simp only [runCalls] at hr
      simp only [validCalls] at hv
      have hE : ∀ p node1 kc, (NewJSONElement h).1[p]? = some node1 → kc ∈ node1.children →
          (p = 0 ∧ kc = ("", h.length)) ∨ ∃ node, h[p]? = some node ∧ kc ∈ node.children :=
        fun p node1 kc hp hkc => Or.inr (edges_new h p node1 kc hp hkc)
      obtain ⟨h2, h3⟩ := ih _ h' (WFHeap_new h hw) hv hr
        (forestAbove_edges lo h _ 0 "" hw.shape hE hf)
      refine ⟨h2, fun x hx hnp => h3 x ?_ (noParent_edges x h _ 0 "" hE hx hnp)⟩
      simp only [NewJSONElement, List.length_append, List.length_singleton]
      omega
    | setValue je key value =>
      simp only [validCalls, Bool.and_eq_true] at hv
      simp only [runCalls] at hr
      cases hs : SetValue h je key value with
      | none => simp [hs] at hr
      | some h1 =>
        rw [hs] at hr
        obtain ⟨hw1, n, hn, e⟩ := WFHeap_setValue h h1 je key value hw hv.1 hs
        have hE : ∀ p node1 kc, h1[p]? = some node1 → kc ∈ node1.children →
            (p = 0 ∧ kc = ("", h.length)) ∨ ∃ node, h[p]? = some node ∧ kc ∈ node.children :=
          fun p node1 kc hp hkc => Or.inr (edges_setValue h h1 je key value hw hv.1 hs p node1 kc
            hp hkc)
        obtain ⟨h2, h3⟩ := ih h1 h' hw1 hv.2 hr (forestAbove_edges lo h h1 0 "" hw.shape hE hf)
        have hl1 : h1.length = h.length := by rw [e]; simp
        exact ⟨h2, fun x hx hnp => h3 x (by omega) (noParent_edges x h h1 0 "" hE hx hnp)⟩
    | addChild je key =>
      simp only [validCalls] at hv
      simp only [runCalls] at hr
      cases hs : AddChild h je key with
      | none => simp [hs] at hr
      | some r =>
        obtain ⟨h1, c⟩ := r
        rw [hs] at hr
        obtain ⟨hw1, _, n, hn, e⟩ := WFHeap_addChild h h1 je c key hw hs
        have hE : ∀ p node1 kc, h1[p]? = some node1 → kc ∈ node1.children →
            (p = je ∧ kc = (key, h.length)) ∨ ∃ node, h[p]? = some node ∧ kc ∈ node.children := by
          intro p node1 kc hp hkc
          rcases edges_addChild h h1 je c key hw hs p node1 kc hp hkc with h5 | ⟨nd, h5, h6, _⟩
          · exact Or.inl h5
          · exact Or.inr ⟨nd, h5, h6⟩
        obtain ⟨h2, h3⟩ := ih h1 h' hw1 hv hr (forestAbove_edges lo h h1 je key hw.shape hE hf)
        have hl1 : h1.length = h.length + 1 := by rw [e]; simp
        exact ⟨h2, fun x hx hnp => h3 x (by omega) (noParent_edges x h h1 je key hE hx hnp)⟩

theorem forestAbove_length (h : Heap) (hs : wfShape h) : forestAbove h.length h := by
  intro p p' node node' kc kc' hp _ hkc _ _ hlo
  have := ((hs p node hp).childPtr kc hkc).2
  omega

theorem Reach_le (h : Heap) (hs : wfShape h) (p q : Nat) (hr : Reach h p q) : p ≤ q := by
  induction hr with
  | refl p => exact le_refl _
  | step p node kc q hp hkc _ ih =>
    have := ((hs p node hp).childPtr kc hkc).1
    omega

theorem Reach_snoc (h : Heap) (a p : Nat) (node : JSONElement) (kc : String × Nat)
    (hr : Reach h a p) (hp : h[p]? = some node) (hkc : kc ∈ node.children) : Reach h a kc.2 := by
  induction hr with
  | refl p => exact Reach.step p node kc kc.2 hp hkc (Reach.refl _)
  | step p0 node0 kc0 q hp0 hkc0 _ ih => exact Reach.step p0 node0 kc0 kc.2 hp0 hkc0 (ih hp)

theorem Reach_last (h : Heap) (a q : Nat) (hr : Reach h a q) :
    a = q ∨ ∃ p node kc, Reach h a p ∧ h[p]? = some node ∧ kc ∈ node.children ∧ kc.2 = q := by
  induction hr with
  | refl p => exact Or.inl rfl
  | step p0 node0 kc0 q hp0 hkc0 _ ih =>
    right
    rcases ih with h1 | ⟨p, node, kc, h1, h2, h3, h4⟩
    · exact ⟨p0, node0, kc0, Reach.refl _, hp0, hkc0, h1⟩
    · exact ⟨p, node, kc, Reach.step p0 node0 kc0 p hp0 hkc0 h1, h2, h3, h4⟩

theorem Reach_disjoint (h : Heap) (hs : wfShape h) (lo a c : Nat) (hf : forestAbove lo h)
    (hnp : noParent c h) (hac : a < c) (hlo : lo ≤ c) :
    ∀ q, Reach h c q → ¬ Reach h a q := by
  intro q
  induction q using Nat.strong_induction_on with
  | _ q ih =>
    intro hc ha
    rcases Reach_last h c q hc with h1 | ⟨p2, node2, kc2, hr2, hp2, hkc2, he2⟩
    · subst h1
      rcases Reach_last h a c ha with h1 | ⟨p1, node1, kc1, _, hp1, hkc1, he1⟩
      · omega
      · exact hnp p1 node1 kc1 hp1 hkc1 he1
    · have hcp := Reach_le h hs c p2 hr2
      have hpq := ((hs p2 node2 hp2).childPtr kc2 hkc2).1
      rcases Reach_last h a q ha with h1 | ⟨p1, node1, kc1, hr1, hp1, hkc1, he1⟩
      · omega
      · have := (hf p1 p2 node1 node2 kc1 kc2 hp1 hp2 hkc1 hkc2 (by rw [he1, he2])
          (by omega)).1
        subst this
        exact ih p1 (by omega) hr2 hr1

theorem renderFuel_reach (h g : Heap) (n : Nat)
    (hag : ∀ q, Reach h n q → g[q]? = h[q]?) (fuel : Nat) :
    renderFuel fuel g n = renderFuel fuel h n := by
  symm
  apply renderFuel_congr (fun q => Reach h n q) h g
  · intro q node hq hn kc hkc
    exact Reach_snoc h n q node kc hq hn hkc
  · intro q hq
    rw [hag q hq]
  · exact Reach.refl n

/-! ## Errors of the encoder -/

theorem encodeValue_error :
    ∀ (v : GoValue) (depth : Nat) (e : JSONError), encodeValue [] [' ', ' '] depth v = .error e →
      ∃ typ, e = .unsupportedType typ := by
  intro v
  induction v using GoValue.induct with
  | hnil => intro d e h; simp [encodeValue] at h
  | hbool b => intro d e h; cases b <;> simp [encodeValue] at h
  | hint i => intro d e h; simp [encodeValue] at h
  | hfloat f => intro d e h; simp [encodeValue] at h
  | hstring s => intro d e h; simp [encodeValue] at h
  | hunsupported t =>
    intro d e h
    simp only [encodeValue, Except.error.injEq] at h
    exact ⟨t, h.symm⟩
  | hmap m ih =>
    intro d e h
    rw [encodeValue_map] at h
    cases hc : collectEntries (mapValues (encodeValue [] [' ', ' '] (d + 1)) (sortEntries m)) with
    | ok ts => simp [hc] at h
    | error e1 =>
      simp only [hc, Except.error.injEq] at h
      subst h
      obtain ⟨kv, hkv, he⟩ := collectEntries_error _ _ _ hc
      exact ih kv ((List.Perm.mem_iff (sortEntries_perm m)).mp hkv) (d + 1) e1 he

theorem MarshalIndent_error (v : GoValue) (x : Option Bytes) (e : JSONError)
    (h : MarshalIndent v [] [' ', ' '] = (x, some e)) : ∃ typ, e = .unsupportedType typ := by
  unfold MarshalIndent at h
  cases he : encodeValue [] [' ', ' '] 0 v with
  | ok b => simp [he] at h
  | error e1 =>
    simp only [he, Prod.mk.injEq, Option.some.injEq] at h
    rw [← h.2]
    exact encodeValue_error v 0 e1 he

theorem renderFuel_error (h : Heap) (hw : wfShape h) :
    ∀ (fuel p : Nat) (x : Option Bytes) (e : JSONError),
      renderFuel fuel h p = some (x, some e) → ∃ typ, e = .unsupportedType typ := by
  intro fuel
  induction fuel with
  | zero => intro p x e hr; simp [renderFuel] at hr
  | succ fuel ih =>
    intro p x e hr
    rw [renderFuel_succ] at hr
    cases hp : h[p]? with
    | none => simp [hp] at hr
    | some n =>
      simp only [hp] at hr
      cases hm : mergeSpec (renderFuel fuel h) n.children (copyData n.data []) with
      | none => simp [hm] at hr
      | some lr =>
        rw [hm] at hr
        cases lr with
        | done fd =>
          simp only [Option.some.injEq] at hr
          exact MarshalIndent_error _ x e hr
        | returned r1 =>
          simp only [Option.some.injEq] at hr
          obtain ⟨pre, k, c, post, e1, _, _, hr1, hcase⟩ := mergeSpec_returned _ _ _ _ hm
          rw [hr1, Prod.mk.injEq, Option.some.injEq] at hr
          obtain ⟨_, he⟩ := hr
          subst he
          rcases hcase with ⟨cj, h1⟩ | ⟨cj, h1, h2⟩
          · exact ih c cj e1 h1
          · exfalso
            rcases renderFuel_good h hw fuel c _ h1 with ⟨e2, he2⟩ | ⟨fd, b, he, hv, hmar⟩
            · simp at he2
            · simp only [Prod.mk.injEq, and_true] at he
              subst he
              simp [Unmarshal_MarshalIndent fd b hv hmar] at h2

/-! ## Decoding a value that is read back as it is -/

theorem indentation_spaces (k : Nat) : indentation [' ', ' '] k = spaces (2 * k) := by
  induction k with
  | zero => rfl
  | succ k ih =>
    simp only [indentation, ih, spaces]
    have : 2 * (k + 1) = 2 * k + 1 + 1 := by ring
    rw [this, List.replicate_succ, List.replicate_succ]
    rfl

theorem newline_spaces (k : Nat) : newline [] [' ', ' '] k = '\n' :: spaces (2 * k) := by
  simp only [newline, List.nil_append, indentation_spaces]

theorem members_layout (depth : Nat) (e : String × Bytes) (rest : GoMap Bytes) :
    newline [] [' ', ' '] (depth + 1) ++ members [] [' ', ' '] depth (e :: rest) =
      layoutMembers (depth + 1) (e :: rest) ++ '\n' :: (spaces (2 * depth) ++ ['}']) := by
  induction rest generalizing e with
  | nil =>
    obtain ⟨k, t⟩ := e
    simp only [members, layoutMembers, newline_spaces, List.cons_append, List.append_assoc]
  | cons e2 more ih =>
    obtain ⟨k, t⟩ := e
    simp only [members, layoutMembers, List.cons_append, List.append_assoc]
    rw [ih e2]
    simp only [newline_spaces, List.cons_append, List.append_assoc]

theorem encodeObject_layout (depth : Nat) (ts : GoMap Bytes) :
    encodeObject [] [' ', ' '] depth ts = layoutObject (depth + 1) ts := by
  cases ts with
  | nil => rfl
  | cons e rest =>
    simp only [encodeObject, layoutObject, List.cons_append]
    rw [members_layout]
    simp only [Nat.add_sub_cancel]

theorem layoutEntries_eq (d : Nat) (m : List (String × GoValue)) :
    layout.layoutEntries d m = mapValues (layout (d + 1)) m := by
  induction m with
  | nil => rfl
  | cons e rest ih =>
    obtain ⟨k, v⟩ := e
    simp only [layout.layoutEntries, ih, mapValues, List.map_cons]

theorem layout_map (d : Nat) (m : List (String × GoValue)) :
    layout d (.map m) =
      match collectEntries (mapValues (layout (d + 1)) (sortEntries m)) with
      | .error e => .error e
      | .ok ts => .ok (layoutObject d ts) := by
  rw [← sortEntries_mapValues, ← layoutEntries_eq]
  rfl

theorem encodeValue_layout :
    ∀ (v : GoValue) (depth : Nat), encodeValue [] [' ', ' '] depth v = layout (depth + 1) v := by
  intro v
  induction v using GoValue.induct with
  | hnil => intro d; rfl
  | hbool b => intro d; cases b <;> rfl
  | hint i => intro d; rfl
  | hfloat f => intro d; rfl
  | hstring s => intro d; rfl
  | hunsupported t => intro d; rfl
  | hmap m ih =>
    intro d
    rw [encodeValue_map, layout_map]
    rw [mapValues_congr (encodeValue [] [' ', ' '] (d + 1)) (layout (d + 1 + 1)) (sortEntries m)
      (fun kv hkv => ih kv ((List.Perm.mem_iff (sortEntries_perm m)).mp hkv) (d + 1))]
    cases collectEntries (mapValues (layout (d + 1 + 1)) (sortEntries m)) with
    | error e => rfl
    | ok ts => simp only [encodeObject_layout]

theorem MarshalIndent_layout (v : GoValue) (b : Bytes)
    (h : MarshalIndent v [] [' ', ' '] = (some b, none)) : layout 1 v = .ok b := by
  unfold MarshalIndent at h
  rw [encodeValue_layout] at h
  cases hl : layout (0 + 1) v with
  | error e => simp [hl] at h
  | ok b2 =>
    simp only [hl, Prod.mk.injEq, Option.some.injEq, and_true] at h
    rw [h]

theorem mergeChildren_reindented (f : Bytes → Bytes) (hf : ∀ b, Unmarshal (f b) = Unmarshal b)
    (toJSON : Heap → Nat → Option (Result × Heap)) :
    ∀ (ch : GoMap Nat) (g : Heap) (fd : GoMap GoValue),
      mergeChildren (reindented f toJSON) ch g fd = mergeChildren toJSON ch g fd := by
  intro ch
  induction ch with
  | nil => intro g fd; rfl
  | cons e rest ih =>
    intro g fd
    obtain ⟨k, c⟩ := e
    simp only [mergeChildren, reindented]
    cases toJSON g c with
    | none => rfl
    | some rg =>
      obtain ⟨⟨cj, err⟩, g1⟩ := rg
      cases err with
      | some e1 => rfl
      | none =>
        simp only [Option.map_some']
        have hu : Unmarshal ((cj.map f).getD []) = Unmarshal (cj.getD []) := by
          cases cj with
          | none => rfl
          | some b => exact hf b
        rw [hu]
        cases Unmarshal (cj.getD []) with
        | mk cd uerr =>
          cases uerr with
          | some e2 => rfl
          | none => exact ih g1 _

/-! ## The lock operations of `ToJSON` -/

theorem mergeChildrenLog_erase
    (toJSONLog : Heap → Nat → Option ((Result × Heap) × List LockEvent))
    (toJSON : Heap → Nat → Option (Result × Heap))
    (hb : ∀ g c, (toJSONLog g c).map Prod.fst = toJSON g c) :
    ∀ (children : GoMap Nat) (h : Heap) (fd : GoMap GoValue),
      (mergeChildrenLog toJSONLog children h fd).map Prod.fst = mergeChildren toJSON children h fd := by
  intro children
  induction children with
  | nil => intro h fd; rfl
  | cons e rest ih =>
    intro h fd
    obtain ⟨k, c⟩ := e
    simp only [mergeChildrenLog, mergeChildren, ← hb h c]
    cases toJSONLog h c with
    | none => rfl
    | some x =>
      obtain ⟨⟨⟨cj, err⟩, h1⟩, ev⟩ := x
      cases err with
      | some e1 => rfl
      | none =>
        simp only [Option.map_some']
        cases Unmarshal (cj.getD []) with
        | mk cd uerr =>
          cases uerr with
          | some e2 => rfl
          | none =>
            simp only
            rw [← ih h1 (mapSet fd k cd)]
            cases mergeChildrenLog toJSONLog rest h1 (mapSet fd k cd) with
            | none => rfl
            | some y => rfl

theorem ToJSONLog_erase (fuel : Nat) :
    ∀ (h : Heap) (p : Nat), (ToJSONLog fuel h p).map Prod.fst = ToJSONFuel fuel h p := by
  induction fuel with
  | zero => intro h p; rfl
  | succ fuel ih =>
    intro h p
    unfold ToJSONLog ToJSONFuel
    cases RLock h p with
    | none => rfl
    | some h1 =>
      simp only
      cases h1[p]? with
      | none => rfl
      | some n =>
        simp only
        rw [← mergeChildrenLog_erase (ToJSONLog fuel) (ToJSONFuel fuel) ih n.children h1
          (copyData n.data [])]
        cases mergeChildrenLog (ToJSONLog fuel) n.children h1 (copyData n.data []) with
        | none => rfl
        | some x =>
          obtain ⟨⟨lr, h2⟩, ev⟩ := x
          cases lr with
          | returned r =>
            simp only [Option.map_some']
            cases RUnlock h2 p with
            | none => rfl
            | some h3 => rfl
          | done fd =>
            simp only [Option.map_some']
            cases RUnlock h2 p with
            | none => rfl
            | some h3 => rfl

theorem mergeChildrenLog_bridge
    (toJSONLog : Heap → Nat → Option ((Result × Heap) × List LockEvent))
    (render : Nat → Option Result) (trace : Nat → List LockEvent) (h1 : Heap)
    (hb : ∀ c, toJSONLog h1 c = (render c).map (fun r => ((r, h1), trace c))) :
    ∀ (children : GoMap Nat) (fd : GoMap GoValue),
      mergeChildrenLog toJSONLog children h1 fd =
        (mergeSpec render children fd).map
          (fun lr => ((lr, h1), traceChildren render trace children)) := by
  intro children
  induction children with
  | nil => intro fd; rfl
  | cons e rest ih =>
    intro fd
    obtain ⟨k, c⟩ := e
    simp only [mergeChildrenLog, mergeSpec, traceChildren, hb c]
    cases render c with
    | none => rfl
    | some r =>
      obtain ⟨cj, err⟩ := r
      cases err with
      | some e => rfl
      | none =>
        simp only [Option.map_some']
        cases hu : Unmarshal (cj.getD []) with
        | mk cd uerr =>
          cases uerr with
          | some e => rfl
          | none =>
            simp only
            rw [ih (mapSet fd k cd)]
            cases mergeSpec render rest (mapSet fd k cd) with
            | none => rfl
            | some lr => rfl

theorem traceFuel_content (h h' : Heap) (hc : h.map contentOf = h'.map contentOf) :
    ∀ (fuel p : Nat), traceFuel fuel h p = traceFuel fuel h' p := by
  intro fuel
  induction fuel with
  | zero => intro p; rfl
  | succ fuel ih =>
    intro p
    have hq : (h[p]?).map contentOf = (h'[p]?).map contentOf := by
      have := congrArg (fun l => l[p]?) hc
      simpa [List.getElem?_map] using this
    have hr : renderFuel fuel h = renderFuel fuel h' := by
      funext c
      exact renderFuel_content h h' hc fuel c
    have ht : traceFuel fuel h = traceFuel fuel h' := by
      funext c
      exact ih c
    simp only [traceFuel]
    cases h1 : h[p]? with
    | none =>
      rw [h1] at hq
      cases h2 : h'[p]? with
      | none => rfl
      | some n' => rw [h2] at hq; simp at hq
    | some n =>
      rw [h1] at hq
      cases h2 : h'[p]? with
      | none => rw [h2] at hq; simp at hq
      | some n' =>
        rw [h2] at hq
        simp only [Option.map_some', Option.some.injEq, contentOf, Prod.mk.injEq] at hq
        simp only [hr, ht, hq.2]

theorem ToJSONLog_eq (fuel : Nat) :
    ∀ (h : Heap) (p : Nat), noWriter h →
      ToJSONLog fuel h p = (renderFuel fuel h p).map (fun r => ((r, h), traceFuel fuel h p)) := by
  induction fuel with
  | zero => intro h p _; rfl
  | succ fuel ih =>
    intro h p hnw
    rw [renderFuel_succ]
    unfold ToJSONLog
    cases hp : h[p]? with
    | none => simp [RLock, hp]
    | some n =>
      have hlt := lt_of_get h p n hp
      have hw : n.mu.writer = false := hnw n (List.mem_iff_getElem?.mpr ⟨p, hp⟩)
      have hrl : RLock h p = some (h.set p { n with mu := { n.mu with readers := n.mu.readers + 1 } }) := by
        simp [RLock, hp, hw]
      simp only [hrl, List.getElem?_set_self hlt]
      have hnw1 : noWriter (h.set p { n with mu := { n.mu with readers := n.mu.readers + 1 } }) :=
        noWriter_set h p _ hnw hw
      rw [mergeChildrenLog_bridge (ToJSONLog fuel) (renderFuel fuel
        (h.set p { n with mu := { n.mu with readers := n.mu.readers + 1 } })) (traceFuel fuel
        (h.set p { n with mu := { n.mu with readers := n.mu.readers + 1 } })) _
        (fun c => ih _ c hnw1)]
      have hcontent : (h.set p { n with mu := { n.mu with readers := n.mu.readers + 1 } }).map contentOf
          = h.map contentOf := by
        rw [List.map_set]
        apply set_of_get
        rw [List.getElem?_map, hp]
        rfl
      have hfun : renderFuel fuel (h.set p { n with mu := { n.mu with readers := n.mu.readers + 1 } })
          = renderFuel fuel h := by
        funext c
        exact renderFuel_content _ _ hcontent fuel c
      have htr : traceFuel fuel (h.set p { n with mu := { n.mu with readers := n.mu.readers + 1 } })
          = traceFuel fuel h := by
        funext c
        exact traceFuel_content _ _ hcontent fuel c
      rw [hfun, htr]
      have hru : RUnlock (h.set p { n with mu := { n.mu with readers := n.mu.readers + 1 } }) p
          = some h := by
        simp only [RUnlock, List.getElem?_set_self hlt]
        simp only [Nat.add_one_ne_zero, if_false, Nat.add_sub_cancel, List.set_set]
        congr 1
        exact set_of_get h p n hp
      simp only [traceFuel, hp]
      cases mergeSpec (renderFuel fuel h) n.children (copyData n.data []) with
      | none => rfl
      | some lr =>
        cases lr with
        | returned r => simp only [Option.map_some', hru]
        | done fd => simp only [Option.map_some', hru]

theorem traceChildren_mem (render : Nat → Option Result) (trace : Nat → List LockEvent)
    (ch : GoMap Nat) (ev : LockEvent) (h : ev ∈ traceChildren render trace ch) :
    ∃ kc ∈ ch, ev ∈ trace kc.2 := by
  induction ch with
  | nil => simp [traceChildren] at h
  | cons e rest ih =>
    obtain ⟨k, c⟩ := e
    simp only [traceChildren] at h
    have hcases : ev ∈ trace c ∨ ev ∈ traceChildren render trace rest := by
      split at h
      · split at h
        · exact List.mem_append.mp h
        · exact Or.inl h
      · exact Or.inl h
    rcases hcases with h1 | h1
    · exact ⟨(k, c), List.mem_cons_self _ _, h1⟩
    · obtain ⟨kc, hkc, hev⟩ := ih h1
      exact ⟨kc, List.mem_cons_of_mem _ hkc, hev⟩

theorem traceFuel_ge (h : Heap) (hw : wfShape h) :
    ∀ (fuel p : Nat) (ev : LockEvent), ev ∈ traceFuel fuel h p → p ≤ elementOf ev := by
  intro fuel
  induction fuel with
  | zero => intro p ev hev; simp [traceFuel] at hev
  | succ fuel ih =>
    intro p ev hev
    simp only [traceFuel] at hev
    cases hp : h[p]? with
    | none => simp [hp] at hev
    | some n =>
      simp only [hp, List.mem_cons, List.mem_append, List.mem_singleton] at hev
      rcases hev with (h1 | h1) | h1 | h1
      · rw [h1]; exact le_refl _
      · obtain ⟨kc, hkc, hin⟩ := traceChildren_mem _ _ _ _ h1
        have := ih kc.2 ev hin
        have := ((hw p n hp).childPtr kc hkc).1
        omega
      · rw [h1]; exact le_refl _
      · simp at h1

theorem traceChildren_head (render : Nat → Option Result) (trace : Nat → List LockEvent)
    (k : String) (c : Nat) (rest : GoMap Nat) :
    ∃ tail, traceChildren render trace ((k, c) :: rest) = trace c ++ tail := by
  simp only [traceChildren]
  split
  · split
    · exact ⟨_, rfl⟩
    · exact ⟨[], by simp⟩
  · exact ⟨[], by simp⟩

/-! ## Interleavings of `SetValue` -/

theorem SetValue_as_steps (h : Heap) (n : Nat) (k : String) (v : GoValue) :
    SetValue h n k v = (runSchedule n [(k, v)] [0, 0, 0] h [0]).map Prod.fst := by
  simp only [SetValue, runSchedule, List.getElem?_cons_zero, stepCall]
  cases Lock h n with
  | none => rfl
  | some h1 =>
    simp only [Option.map_some', List.set_cons_zero, List.getElem?_cons_zero, stepCall]
    cases h1[n]? with
    | none => rfl
    | some node =>
      simp only [List.set_cons_zero, List.getElem?_cons_zero, stepCall]
      cases Unlock (h1.set n { node with data := mapSet node.data k v }) n with
      | none => rfl
      | some h3 => rfl

theorem keys_index (calls : List (String × GoValue)) (hk : (calls.map Prod.fst).Nodup) :
    ∀ (i j : Nat) (a b : String × GoValue), calls[i]? = some a → calls[j]? = some b →
      a.1 = b.1 → i = j := by
  induction calls with
  | nil => intro i j a b h; simp at h
  | cons e rest ih =>
    intro i j a b hi hj hab
    simp only [List.map_cons, List.nodup_cons] at hk
    cases i with
    | zero =>
      cases j with
      | zero => rfl
      | succ j =>
        exfalso
        simp only [List.getElem?_cons_zero, Option.some.injEq] at hi
        simp only [List.getElem?_cons_succ] at hj
        apply hk.1
        rw [hi, hab]
        exact List.mem_map_of_mem _ (List.mem_iff_getElem?.mpr ⟨j, hj⟩)
    | succ i =>
      cases j with
      | zero =>
        exfalso
        simp only [List.getElem?_cons_zero, Option.some.injEq] at hj
        simp only [List.getElem?_cons_succ] at hi
        apply hk.1
        rw [hj, ← hab]
        exact List.mem_map_of_mem _ (List.mem_iff_getElem?.mpr ⟨i, hi⟩)
      | succ j =>
        simp only [List.getElem?_cons_succ] at hi hj
        rw [ih hk.2 i j a b hi hj hab]

theorem getElem?_set_cases {α : Type} (l : List α) (i j : Nat) (a b : α)
    (h : (l.set i a)[j]? = some b) : (i = j ∧ b = a) ∨ (i ≠ j ∧ l[j]? = some b) := by
  rw [List.getElem?_set] at h
  by_cases hij : i = j
  · left
    simp only [hij, if_true] at h
    split at h
    · exact ⟨hij, (Option.some.inj h).symm⟩
    · simp at h
  · right
    simp only [hij, if_false] at h
    exact ⟨hij, h⟩

theorem SchedInv_step (h : Heap) (n : Nat) (node : JSONElement)
    (calls : List (String × GoValue)) (hlt : n < h.length)
    (hk : (calls.map Prod.fst).Nodup) (hv : ∀ kv ∈ calls, validValue kv.2 = true)
    (g g1 : Heap) (pcs : List Nat) (i pc pc1 : Nat) (kv : String × GoValue)
    (hinv : SchedInv h n node calls g pcs) (hpc : pcs[i]? = some pc)
    (hkv : calls[i]? = some kv) (hstep : stepCall g n kv.1 kv.2 pc = some (g1, pc1)) :
    SchedInv h n node calls g1 (pcs.set i pc1) := by
  obtain ⟨D, holder, hlen, hhold, hg, hcrit, hdata, hother, hnd, hval⟩ := hinv
  have hilt := lt_of_get pcs i pc hpc
  have hgn : g[n]? = some
      { mu := { readers := 0, writer := holder.isSome }, data := D, children := node.children } := by
    rw [hg]
    exact List.getElem?_set_self hlt
  have hkeys := keys_index calls hk
  match pc, hpc, hstep with
  | 0, hpc, hstep =>
    cases holder with
    | some j => simp [stepCall, Lock, hgn] at hstep
    | none =>
      simp only [stepCall, Lock, hgn, Option.isSome_none, Bool.false_eq_true, ne_eq,
        not_true_eq_false, or_self, if_false, Option.map_some', Option.some.injEq,
        Prod.mk.injEq] at hstep
      obtain ⟨e1, e2⟩ := hstep
      subst e1 e2
      refine ⟨D, some i, by rw [List.length_set]; exact hlen, ?_, ?_, ?_, ?_, ?_, hnd, hval⟩
      · intro j hj
        simp only [Option.some.injEq] at hj
        rw [List.length_set, ← hj]
        exact hilt
      · rw [hg, List.set_set]
        rfl
      · intro j pc' hj
        rcases getElem?_set_cases pcs i j 1 pc' hj with ⟨e, e'⟩ | ⟨e, hold⟩
        · subst e e'
          simp
        · have := (hcrit j pc' hold).mp
          constructor
          · intro hc
            simp at this
            rcases hc with hc | hc
            · exact absurd hc this.1
            · exact absurd hc this.2
          · intro hc
            simp only [Option.some.injEq] at hc
            exact absurd hc e
      · intro j pc' kv' hj hc h2
        rcases getElem?_set_cases pcs i j 1 pc' hj with ⟨_, e'⟩ | ⟨_, hold⟩
        · omega
        · exact hdata j pc' kv' hold hc h2
      · intro k hall
        apply hother k
        intro j pc' kv' hj hc h2
        by_cases hij : i = j
        · subst hij
          rw [hpc] at hj
          simp only [Option.some.injEq] at hj
          omega
        · apply hall j pc' kv' _ hc h2
          rw [List.getElem?_set]
          simp only [hij, if_false]
          exact hj
  | 1, hpc, hstep =>
    have hh : holder = some i := (hcrit i 1 hpc).mp (Or.inl rfl)
    subst hh
    simp only [stepCall, hgn, Option.some.injEq, Prod.mk.injEq] at hstep
    obtain ⟨e1, e2⟩ := hstep
    subst e1 e2
    refine ⟨mapSet D kv.1 kv.2, some i, by rw [List.length_set]; exact hlen, ?_, ?_, ?_, ?_, ?_,
      nodup_mapSet _ _ _ hnd, ?_⟩
    · intro j hj
      simp only [Option.some.injEq] at hj
      rw [List.length_set, ← hj]
      exact hilt
    · rw [hg, List.set_set]
    · intro j pc' hj
      rcases getElem?_set_cases pcs i j 2 pc' hj with ⟨e, e'⟩ | ⟨e, hold⟩
      · subst e e'
        simp
      · exact hcrit j pc' hold
    · intro j pc' kv' hj hc h2
      rcases getElem?_set_cases pcs i j 2 pc' hj with ⟨e, e'⟩ | ⟨e, hold⟩
      · subst e
        rw [hkv] at hc
        simp only [Option.some.injEq] at hc
        subst hc
        rw [mapGet_mapSet, if_pos rfl]
      · have hne : kv.1 ≠ kv'.1 := fun hc2 => e (hkeys i j kv kv' hkv hc hc2)
        rw [mapGet_mapSet, if_neg hne]
        exact hdata j pc' kv' hold hc h2
    · intro k hall
      have hne : kv.1 ≠ k := hall i 2 kv (by
        rw [List.getElem?_set]
        simp only [if_true]
        rw [if_pos (lt_of_get pcs i 1 hpc)]) hkv (le_refl _)
      rw [mapGet_mapSet, if_neg hne]
      apply hother k
      intro j pc' kv' hj hc h2
      by_cases hij : i = j
      · subst hij
        rw [hpc] at hj
        simp only [Option.some.injEq] at hj
        omega
      · apply hall j pc' kv' _ hc h2
        rw [List.getElem?_set]
        simp only [hij, if_false]
        exact hj
    · intro e he
      rcases mem_mapSet D kv.1 kv.2 e he with h1 | h1
      · rw [h1]
        exact hv kv (List.mem_iff_getElem?.mpr ⟨i, hkv⟩)
      · exact hval e h1
  | 2, hpc, hstep =>
    have hh : holder = some i := (hcrit i 2 hpc).mp (Or.inr rfl)
    subst hh
    simp only [stepCall, Unlock, hgn, Option.isSome_some, if_true, Option.map_some',
      Option.some.injEq, Prod.mk.injEq] at hstep
    obtain ⟨e1, e2⟩ := hstep
    subst e1 e2
    refine ⟨D, none, by rw [List.length_set]; exact hlen, ?_, ?_, ?_, ?_, ?_, hnd, hval⟩
    · intro j hj
      simp at hj
    · rw [hg, List.set_set]
      rfl
    · intro j pc' hj
      rcases getElem?_set_cases pcs i j 3 pc' hj with ⟨e, e'⟩ | ⟨e, hold⟩
      · subst e e'
        simp
      · have := hcrit j pc' hold
        constructor
        · intro hc
          have := this.mp hc
          simp only [Option.some.injEq] at this
          exact absurd this e
        · intro hc
          simp at hc
    · intro j pc' kv' hj hc h2
      rcases getElem?_set_cases pcs i j 3 pc' hj with ⟨e, e'⟩ | ⟨e, hold⟩
      · subst e
        exact hdata i 2 kv' hpc hc (le_refl _)
      · exact hdata j pc' kv' hold hc h2
    · intro k hall
      apply hother k
      intro j pc' kv' hj hc h2
      by_cases hij : i = j
      · subst hij
        apply hall i 3 kv' _ hc (by omega)
        rw [List.getElem?_set]
        simp only [if_true]
        rw [if_pos (lt_of_get pcs i 2 hpc)]
      · apply hall j pc' kv' _ hc h2
        rw [List.getElem?_set]
        simp only [hij, if_false]
        exact hj
  | pc + 3, hpc, hstep => simp [stepCall] at hstep

theorem runSchedule_inv (h : Heap) (n : Nat) (node : JSONElement)
    (calls : List (String × GoValue)) (hlt : n < h.length)
    (hk : (calls.map Prod.fst).Nodup) (hv : ∀ kv ∈ calls, validValue kv.2 = true) :
    ∀ (sched : List Nat) (g : Heap) (pcs : List Nat) (g' : Heap) (pcs' : List Nat),
      SchedInv h n node calls g pcs → runSchedule n calls sched g pcs = some (g', pcs') →
      SchedInv h n node calls g' pcs' := by
  intro sched
  induction sched with
  | nil =>
    intro g pcs g' pcs' hinv hr
    simp only [runSchedule, Option.some.injEq, Prod.mk.injEq] at hr
    rw [← hr.1, ← hr.2]
    exact hinv
  | cons i rest ih =>
    intro g pcs g' pcs' hinv hr
    simp only [runSchedule] at hr
    cases hc : calls[i]? with
    | none => simp [hc] at hr
    | some kv =>
      cases hp : pcs[i]? with
      | none => simp [hc, hp] at hr
      | some pc =>
        simp only [hc, hp] at hr
        cases hs : stepCall g n kv.1 kv.2 pc with
        | none => simp [hs] at hr
        | some x =>
          obtain ⟨g1, pc1⟩ := x
          simp only [hs] at hr
          exact ih g1 (pcs.set i pc1) g' pcs'
            (SchedInv_step h n node calls hlt hk hv g g1 pcs i pc pc1 kv hinv hp hc hs) hr

theorem SchedInv_start (h : Heap) (n : Nat) (node : JSONElement)
    (calls : List (String × GoValue)) (hw : WFHeap h) (hn : h[n]? = some node) :
    SchedInv h n node calls h (List.replicate calls.length 0) := by
  have hi : node.mu = { readers := 0, writer := false } :=
    ((WFHeap_iff h).mp hw).2 node (List.mem_iff_getElem?.mpr ⟨n, hn⟩)
  have hnf := hw.shape n node hn
  have hzero : ∀ (i pc : Nat), (List.replicate calls.length 0)[i]? = some pc → pc = 0 := by
    intro i pc hpc
    have := List.mem_iff_getElem?.mpr ⟨i, hpc⟩
    exact (List.mem_replicate.mp this).2
  refine ⟨node.data, none, by simp, by simp, ?_, ?_, ?_, ?_, hnf.dataKeys, hnf.values⟩
  · obtain ⟨mu, data, children⟩ := node
    simp only at hi
    subst hi
    exact (set_of_get h n _ hn).symm
  · intro i pc hpc
    have := hzero i pc hpc
    subst this
    simp
  · intro i pc kv hpc _ h2
    have := hzero i pc hpc
    omega
  · intro k _
    rfl

/-! ## Evaluations on concrete heaps -/

theorem WFHeap_editHeap : WFHeap editHeap := by decide

theorem WFHeap_bigIntHeap : WFHeap bigIntHeap := by decide

theorem WFHeap_bigIntTree : WFHeap bigIntTree := by decide

theorem WFHeap_twoErrorsHeap : WFHeap twoErrorsHeap := by decide

set_option maxRecDepth 100000 in
theorem editBuild_eq : editBuild = some (editHeap, 0, 1, 2) := by rfl

set_option maxRecDepth 100000 in
theorem ToJSON_editHeap_root : ToJSON editHeap 0 = some ((some editBytes, none), editHeap) := by
  rfl

set_option maxRecDepth 100000 in
theorem ToJSON_editHeap_person :
    ToJSON editHeap 1 = some ((some personBytes, none), editHeap) := by rfl

set_option maxRecDepth 100000 in
theorem Unmarshal_editBytes : Unmarshal editBytes = (.map editObject, none) := by rfl

set_option maxRecDepth 100000 in
theorem Unmarshal_personBytes : Unmarshal personBytes = (.map personObject, none) := by rfl

theorem sameTree_twoErrors : sameTree twoErrorsHeap twoErrorsReordered :=
  List.Forall₂.cons ⟨rfl, List.Perm.refl _, List.Perm.swap _ _ _⟩
    (sameTree_refl [element [("x", .unsupported "chan int")] [],
      element [("y", .unsupported "func()")] []])

theorem SetValue_busy (h : Heap) (je : Nat) (key : String) (value : GoValue) (n : JSONElement)
    (hn : h[je]? = some n) (hb : n.mu ≠ { readers := 0, writer := false }) :
    SetValue h je key value = none := by
  obtain ⟨⟨readers, writer⟩, data, children⟩ := n
  have : writer = true ∨ readers ≠ 0 := by
    by_contra hc
    simp only [not_or, Bool.not_eq_true, ne_eq, not_not] at hc
    apply hb
    simp [hc.1, hc.2]
  simp only [SetValue, Lock, hn]
  simp [this]

theorem SetValue_twice (h : Heap) (n : Nat) (k : String) (v1 v2 : GoValue) :
    (SetValue h n k v1).bind (fun h1 => SetValue h1 n k v2) = SetValue h n k v2 := by
  cases hn : h[n]? with
  | none => simp [SetValue_none h n k _ hn]
  | some node =>
    by_cases hi : node.mu = { readers := 0, writer := false }
    · have hlt := lt_of_get h n node hn
      rw [SetValue_idle h n k v1 node hn hi, SetValue_idle h n k v2 node hn hi]
      simp only [Option.some_bind]
      rw [SetValue_idle _ n k v2 { node with data := mapSet node.data k v1 }
        (List.getElem?_set_self hlt) hi]
      simp only [List.set_set, mapSet_mapSet]
    · simp [SetValue_busy h n k _ node hn hi]

/-- C6: `NewJSONElement` returns the address of an element with empty `data`
and empty `children`, and `ToJSON` on that element returns the bytes of the
empty object, an opening and a closing brace, with a nil error. -/
theorem NewJSONElement_ToJSON (h : Heap) :
    (NewJSONElement h).1[(NewJSONElement h).2]? = some (element [] []) ∧
      ToJSON (NewJSONElement h).1 (NewJSONElement h).2 =
        some ((some ['{', '}'], none), (NewJSONElement h).1) := by
  have hget : (h ++ [element [] []])[h.length]? = some (element [] []) :=
    List.getElem?_concat_length h _
  have hlt : h.length < (h ++ [element [] []]).length := by simp
  refine ⟨hget, ?_⟩
  show ToJSONFuel ((h ++ [element [] []]).length) (h ++ [element [] []]) h.length = _
  have hl : (h ++ [element [] []]).length = h.length + 1 := by simp
  rw [hl]
  have hfinal : ((h ++ [element [] []]).set h.length (element [] [])) = h ++ [element [] []] :=
    set_of_get _ _ _ hget
  have hrl : RLock (h ++ [element [] []]) h.length = some ((h ++ [element [] []]).set h.length
      { mu := { readers := 1, writer := false }, data := [], children := [] }) := by
    simp only [RLock, hget]
    rfl
  have hru : RUnlock ((h ++ [element [] []]).set h.length
      { mu := { readers := 1, writer := false }, data := [], children := [] }) h.length =
      some (h ++ [element [] []]) := by
    simp only [RUnlock, List.getElem?_set_self hlt, List.set_set]
    simp only [Nat.add_one_ne_zero, one_ne_zero, if_false, Nat.sub_self]
    exact congrArg some hfinal
  simp only [ToJSONFuel, hrl, List.getElem?_set_self hlt, mergeChildren, copyData, hru]
  rfl

/-! ## C9: `ToJSON` leaves the tree as it was -/

/-- C10: the demonstration builds its tree without blocking, `ToJSON` on the
root returns bytes and a nil error, and the bytes decode to an object with
exactly the keys `person`, `projectName`, `version`, where `person` is an
object with exactly `address`, `age`, `name` and `address` an object with
exactly `city`, `country`, `street`, each key with the literal value given
(`age` as the number 30); `ToJSON` on the root returns these bytes in whatever
orders its loops visit the maps of the tree. -/
theorem edit_demo :
    editBuild = some (editHeap, 0, 1, 2) ∧ edit = some (some editBytes, none) ∧
      (∀ h', sameTree editHeap h' → ToJSON h' 0 = some ((some editBytes, none), h')) ∧
      Unmarshal editBytes =
        (.map [("person", .map [("address", .map [("city", .string "Anytown"),
              ("country", .string "USA"), ("street", .string "123 Main St")]),
            ("age", .float64 30), ("name", .string "John Doe")]),
          ("projectName", .string "Dynamic JSON Builder"), ("version", .string "1.0.0")],
          none) := by
  refine ⟨editBuild_eq, ?_, fun h' hs => ToJSON_any_order editHeap h' 0 editBytes editHeap
    WFHeap_editHeap hs ToJSON_editHeap_root, Unmarshal_editBytes⟩
  unfold edit
  rw [editBuild_eq]
  simp only [Option.some_bind, ToJSON_editHeap_root, Option.map_some']

/-! ## C7: propagation of errors -/

theorem getElem?_set_other {α : Type} (h : List α) (p q : Nat) (x : α) (hne : q ≠ p) :
    (h.set p x)[q]? = h[q]? := by
  rw [List.getElem?_set]
  simp [Ne.symm hne]

theorem runCalls_frame (calls : List Call) (lo : Nat) (skip : Option Nat) :
    ∀ (h h' : Heap), WFHeap h → validCalls calls = true → callsWithin lo skip calls = true →
      runCalls calls h = some h' →
      WFHeap h' ∧ h.length ≤ h'.length ∧
        ∀ q, (q < lo ∨ some q = skip) → q < h.length → h'[q]? = h[q]? := by
  induction calls with
  | nil =>
    intro h h' hw _ _ hr
    simp only [runCalls, Option.some.injEq] at hr
    subst hr
    exact ⟨hw, le_refl _, fun _ _ _ => rfl⟩
  | cons c rest ih =>
    intro h h' hw hv ht hr
    cases c with
    | newElement => simp [callsWithin] at ht
    | setValue je key value =>
      simp only [validCalls, Bool.and_eq_true] at hv
      simp only [callsWithin, Bool.and_eq_true, decide_eq_true_eq] at ht
      simp only [runCalls] at hr
      cases hs : SetValue h je key value with
      | none => simp [hs] at hr
      | some h1 =>
        rw [hs] at hr
        obtain ⟨hw1, n, hn, e⟩ := WFHeap_setValue h h1 je key value hw hv.1 hs
        obtain ⟨hw', hlen, hfr⟩ := ih h1 h' hw1 hv.2 ht.2 hr
        have hl1 : h1.length = h.length := by rw [e]; simp
        refine ⟨hw', by omega, ?_⟩
        intro q hq hql
        rw [hfr q hq (by omega), e]
        apply getElem?_set_other
        rcases hq with hq | hq
        · omega
        · intro heq
          subst heq
          exact ht.1.2 hq
    | addChild je key =>
      simp only [callsWithin, Bool.and_eq_true, decide_eq_true_eq] at ht
      simp only [runCalls] at hr
      cases hs : AddChild h je key with
      | none => simp [hs] at hr
      | some r =>
        obtain ⟨h1, c⟩ := r
        rw [hs] at hr
        obtain ⟨hw1, _, n, hn, e⟩ := WFHeap_addChild h h1 je c key hw hs
        obtain ⟨hw', hlen, hfr⟩ := ih h1 h' hw1 hv ht.2 hr
        have hl1 : h1.length = h.length + 1 := by rw [e]; simp
        refine ⟨hw', by omega, ?_⟩
        intro q hq hql
        rw [hfr q hq (by omega), e]
        rw [getElem?_set_other, List.getElem?_append_left hql]
        rcases hq with hq | hq
        · omega
        · intro heq
          subst heq
          exact ht.1.2 hq

theorem renderFuel_empty (h : Heap) (p fuel : Nat) (node : JSONElement) (hn : h[p]? = some node)
    (hd : node.data = []) (hc : node.children = []) :
    renderFuel (fuel + 1) h p = some (some ['{', '}'], none) := by
  rw [renderFuel_succ, hn]
  simp only [hd, hc, mergeSpec, copyData]
  rfl

theorem mergeSpec_mapSet_congr (r1 r2 : Nat → Option Result) (k : String) (c1 c2 : Nat) :
    ∀ (ch : GoMap Nat) (fd : GoMap GoValue), (∀ kc ∈ ch, r1 kc.2 = r2 kc.2) → r1 c1 = r2 c2 →
      mergeSpec r1 (mapSet ch k c1) fd = mergeSpec r2 (mapSet ch k c2) fd := by
  intro ch
  induction ch with
  | nil =>
    intro fd _ hc
    simp only [mapSet, mergeSpec, hc]
  | cons e rest ih =>
    intro fd hall hc
    obtain ⟨a, x⟩ := e
    by_cases hk : a = k
    · simp only [mapSet, hk, if_true, mergeSpec, hc]
      cases r2 c2 with
      | none => rfl
      | some r =>
        obtain ⟨cj, err⟩ := r
        cases err with
        | some e => rfl
        | none =>
          simp only
          split
          · rfl
          · exact mergeSpec_congr r1 r2 rest _ (fun kc hkc => hall kc (List.mem_cons_of_mem _ hkc))
    · have hx := hall (a, x) (List.mem_cons_self _ _)
      simp only at hx
      simp only [mapSet, hk, if_false, mergeSpec, hx]
      cases r2 x with
      | none => rfl
      | some r =>
        obtain ⟨cj, err⟩ := r
        cases err with
        | some e => rfl
        | none =>
          simp only
          split
          · rfl
          · exact ih _ (fun kc hkc => hall kc (List.mem_cons_of_mem _ hkc)) hc

theorem renderFuel_old_child (h g : Heap) (n : Nat) (hw : wfShape h)
    (hag : ∀ q, n < q → q < h.length → g[q]? = h[q]?) (f1 f2 c : Nat) (hc1 : n < c)
    (hc2 : c < h.length) (hf1 : h.length ≤ f1) (hf2 : h.length ≤ f2) :
    renderFuel f1 g c = renderFuel f2 h c := by
  have h1 : renderFuel f1 h c = renderFuel f1 g c := by
    apply renderFuel_congr (fun q => n < q ∧ q < h.length) h g
    · intro q node hq hn kc hkc
      have := (hw q node hn).childPtr kc hkc
      exact ⟨by omega, this.2⟩
    · intro q hq
      rw [hag q hq.1 hq.2]
    · exact ⟨hc1, hc2⟩
  rw [← h1]
  exact renderFuel_fuel_indep h hw f1 f2 c hc2 (by omega) (by omega)

theorem orphaned_untouched (h : Heap) (n : Nat) (k : String) (ops1 ops2 : List Call)
    (h1 h2 h3 h4 : Heap) (c1 c2 : Nat) (hw : WFHeap h)
    (ha1 : AddChild h n k = some (h1, c1))
    (hv1 : validCalls ops1 = true) (ht1 : callsWithin c1 none ops1 = true)
    (hr1 : runCalls ops1 h1 = some h2)
    (ha2 : AddChild h2 n k = some (h3, c2))
    (hv2 : validCalls ops2 = true) (ht2 : callsWithin c1 (some c2) ops2 = true)
    (hr2 : runCalls ops2 h3 = some h4) :
    ∃ r, ToJSON h4 n = some (r, h4) ∧ ToJSON h1 n = some (r, h1) ∧
      ∀ bytes, r = (some bytes, none) →
        ∃ d, Unmarshal bytes = (.map d, none) ∧ mapGet d k = some (.map []) := by
  obtain ⟨hw1, hc1, node, hn, e1⟩ := WFHeap_addChild h h1 n c1 k hw ha1
  subst hc1
  have hlt := lt_of_get h n node hn
  have hl1 : h1.length = h.length + 1 := by rw [e1]; simp
  obtain ⟨hw2, hlen2, hfr2⟩ := runCalls_frame ops1 h.length none h1 h2 hw1 hv1 ht1 hr1
  obtain ⟨hw3, hc2, node2, hn2, e3⟩ := WFHeap_addChild h2 h3 n c2 k hw2 ha2
  subst hc2
  have hl3 : h3.length = h2.length + 1 := by rw [e3]; simp
  obtain ⟨hw4, hlen4, hfr4⟩ := runCalls_frame ops2 h.length (some h2.length) h3 h4 hw3 hv2 ht2 hr2
  have hn1 : h1[n]? = some { node with children := mapSet node.children k h.length } := by
    rw [e1]; exact List.getElem?_set_self (by simp; omega)
  have hnode2 : node2 = { node with children := mapSet node.children k h.length } := by
    rw [hfr2 n (Or.inl hlt) (by omega), hn1] at hn2
    exact (Option.some.inj hn2).symm
  have hn3 : h3[n]? = some { node with children := mapSet node.children k h2.length } := by
    rw [e3, List.getElem?_set_self (by simp; omega), hnode2]
    simp only [mapSet_mapSet]
  have hn4 : h4[n]? = some { node with children := mapSet node.children k h2.length } := by
    rw [hfr4 n (Or.inl hlt) (by omega), hn3]
  have hc1f : h1[h.length]? = some freshElement := by
    rw [e1, getElem?_set_other _ _ _ _ (by omega)]
    exact List.getElem?_concat_length h _
  have hc2f : h4[h2.length]? = some freshElement := by
    rw [hfr4 h2.length (Or.inr rfl) (by omega), e3, getElem?_set_other _ _ _ _ (by omega)]
    exact List.getElem?_concat_length h2 _
  have hold1 : ∀ q, n < q → q < h.length → h1[q]? = h[q]? := by
    intro q hq1 hq2
    rw [e1, getElem?_set_other _ _ _ _ (by omega), List.getElem?_append_left hq2]
  have hold4 : ∀ q, n < q → q < h.length → h4[q]? = h[q]? := by
    intro q hq1 hq2
    rw [hfr4 q (Or.inl hq2) (by omega), e3, getElem?_set_other _ _ _ _ (by omega),
      List.getElem?_append_left (by omega), hfr2 q (Or.inl hq2) (by omega)]
    exact hold1 q hq1 hq2
  have hs := hw.shape
  have hnf := hs n node hn
  obtain ⟨f4, hf4⟩ : ∃ f, h4.length = f + 1 := ⟨h4.length - 1, by omega⟩
  have key : renderFuel h4.length h4 n = renderFuel h1.length h1 n := by
    rw [hf4, hl1, renderFuel_succ, renderFuel_succ, hn4, hn1]
    simp only
    rw [mergeSpec_mapSet_congr (renderFuel f4 h4) (renderFuel h.length h1) k h2.length h.length
      node.children _ ?_ ?_]
    · intro kc hkc
      have hp := hnf.childPtr kc hkc
      rw [renderFuel_old_child h h4 n hs hold4 f4 h.length kc.2 hp.1 hp.2 (by omega) (le_refl _),
        renderFuel_old_child h h1 n hs hold1 h.length h.length kc.2 hp.1 hp.2 (le_refl _)
          (le_refl _)]
    · obtain ⟨f, hf⟩ : ∃ f, f4 = f + 1 := ⟨f4 - 1, by omega⟩
      obtain ⟨g, hg⟩ : ∃ g, h.length = g + 1 := ⟨h.length - 1, by omega⟩
      rw [hf, renderFuel_empty h4 h2.length f freshElement hc2f rfl rfl]
      rw [hg] at hc1f ⊢
      rw [← hg] at hc1f
      have := renderFuel_empty h1 h.length g freshElement hc1f rfl rfl
      rw [hg] at this
      rw [this]
  obtain ⟨r, hr4, hrr4, _⟩ := ToJSON_total h4 n hw4 (by omega)
  have hr1' : ToJSON h1 n = some (r, h1) := by
    rw [ToJSON_eq h1 n hw1, ← key, hrr4]
    rfl
  refine ⟨r, hr4, hr1', ?_⟩
  intro bytes hb
  subst hb
  obtain ⟨_, d, hu, hch, _⟩ := ToJSON_object h1 n _ bytes h1 hw1 hn1 hr1'
  obtain ⟨cb, cd, hj, hucb, hd⟩ := hch k h.length (by simp [mapGet_mapSet])
  refine ⟨d, hu, ?_⟩
  rw [hd]
  have hcj : ToJSON h1 h.length = some ((some ['{', '}'], none), h1) := by
    rw [ToJSON_eq h1 _ hw1, hl1, renderFuel_empty h1 h.length h.length freshElement hc1f rfl rfl]
    rfl
  rw [hcj] at hj
  simp only [Option.some.injEq, Prod.mk.injEq, and_true] at hj
  subst hj
  have hue : Unmarshal ['{', '}'] = (.map [], none) := by rfl
  rw [hue] at hucb
  simp only [Prod.mk.injEq, GoValue.map.injEq, and_true] at hucb
  rw [← hucb]

/-- C4: after `c1 = n.AddChild(k)`, any calls of `SetValue` and `AddChild` on
`c1` and its descendants, `c2 = n.AddChild(k)`, and then any calls on `c1`,
`c2` and their descendants, the first child is discarded: neither `c1` nor a
descendant of `c1` is reachable from `n`; `ToJSON(n)` returns the same result
whatever `c1` and its descendants hold; when it succeeds, the decoded object
holds at `k` the object decoded from `ToJSON(c2)`; and when `c2` was left
untouched, `ToJSON(n)` returns what it returns right after a single
`n.AddChild(k)`, the decoded object holding the empty object at `k`. -/
theorem orphaned_child (h : Heap) (n : Nat) (k : String) (ops1 ops2 : List Call)
    (h1 h2 h3 h4 : Heap) (c1 c2 : Nat) (hw : WFHeap h)
    (ha1 : AddChild h n k = some (h1, c1))
    (hv1 : validCalls ops1 = true) (ht1 : callsWithin c1 none ops1 = true)
    (hr1 : runCalls ops1 h1 = some h2)
    (ha2 : AddChild h2 n k = some (h3, c2))
    (hv2 : validCalls ops2 = true) (ht2 : callsWithin c1 none ops2 = true)
    (hr2 : runCalls ops2 h3 = some h4) :
    (∀ q, Reach h4 c1 q → ¬ Reach h4 n q) ∧
    ∃ r, ToJSON h4 n = some (r, h4) ∧
      (∀ g : Heap, g.length = h4.length → noWriter g →
        (∀ q, ¬ Reach h4 c1 q → g[q]? = h4[q]?) → ToJSON g n = some (r, g)) ∧
      (∀ bytes, r = (some bytes, none) →
        ∃ d cb cd, Unmarshal bytes = (.map d, none) ∧
          ToJSON h4 c2 = some ((some cb, none), h4) ∧ Unmarshal cb = (.map cd, none) ∧
          mapGet d k = some (.map cd)) ∧
      (callsWithin c1 (some c2) ops2 = true →
        ToJSON h1 n = some (r, h1) ∧
        ∀ bytes, r = (some bytes, none) →
          ∃ d, Unmarshal bytes = (.map d, none) ∧ mapGet d k = some (.map [])) := by
  obtain ⟨hw1, hc1, node, hn, e1⟩ := WFHeap_addChild h h1 n c1 k hw ha1
  subst hc1
  have hlt := lt_of_get h n node hn
  have hl1 : h1.length = h.length + 1 := by rw [e1]; simp
  obtain ⟨hw2, hlen2, hfr2⟩ := runCalls_frame ops1 h.length none h1 h2 hw1 hv1 ht1 hr1
  obtain ⟨hw3, hc2, node2, hn2, e3⟩ := WFHeap_addChild h2 h3 n c2 k hw2 ha2
  subst hc2
  have hl3 : h3.length = h2.length + 1 := by rw [e3]; simp
  obtain ⟨hw4, hlen4, hfr4⟩ := runCalls_frame ops2 h.length none h3 h4 hw3 hv2 ht2 hr2
  have hn1 : h1[n]? = some { node with children := mapSet node.children k h.length } := by
    rw [e1]; exact List.getElem?_set_self (by simp; omega)
  have hnode2 : node2 = { node with children := mapSet node.children k h.length } := by
    rw [hfr2 n (Or.inl hlt) (by omega), hn1] at hn2
    exact (Option.some.inj hn2).symm
  have hn3 : h3[n]? = some { node with children := mapSet node.children k h2.length } := by
    rw [e3, List.getElem?_set_self (by simp; omega), hnode2]
    simp only [mapSet_mapSet]
  have hn4 : h4[n]? = some { node with children := mapSet node.children k h2.length } := by
    rw [hfr4 n (Or.inl hlt) (by omega), hn3]
  have hE1 : ∀ p node1 kc, h1[p]? = some node1 → kc ∈ node1.children →
      (p = n ∧ kc = (k, h.length)) ∨ ∃ nd, h[p]? = some nd ∧ kc ∈ nd.children := by
    intro p node1 kc hp hkc
    rcases edges_addChild h h1 n h.length k hw ha1 p node1 kc hp hkc with h5 | ⟨nd, h5, h6, _⟩
    · exact Or.inl h5
    · exact Or.inr ⟨nd, h5, h6⟩
  have hf1 : forestAbove h.length h1 :=
    forestAbove_edges h.length h h1 n k hw.shape hE1 (forestAbove_length h hw.shape)
  have hf2 := (runCalls_forest ops1 h.length h1 h2 hw1 hv1 hr1 hf1).1
  have hE3 : ∀ p node1 kc, h3[p]? = some node1 → kc ∈ node1.children →
      (p = n ∧ kc = (k, h2.length)) ∨ ∃ nd, h2[p]? = some nd ∧ kc ∈ nd.children := by
    intro p node1 kc hp hkc
    rcases edges_addChild h2 h3 n h2.length k hw2 ha2 p node1 kc hp hkc with h5 | ⟨nd, h5, h6, _⟩
    · exact Or.inl h5
    · exact Or.inr ⟨nd, h5, h6⟩
  have hf3 : forestAbove h.length h3 := forestAbove_edges h.length h2 h3 n k hw2.shape hE3 hf2
  have hnp3 : noParent h.length h3 := by
    intro p nd kc hp hkc heq
    rcases edges_addChild h2 h3 n h2.length k hw2 ha2 p nd kc hp hkc with
      ⟨_, e2⟩ | ⟨nd0, hp0, hkc0, hne⟩
    · rw [e2] at heq
      simp only at heq
      omega
    · have hmem : (k, h.length) ∈ node2.children := by
        rw [hnode2]
        exact mem_of_mapGet _ k h.length (by simp [mapGet_mapSet])
      obtain ⟨e5, e6⟩ := hf2 p n nd0 node2 kc (k, h.length) hp0 hn2 hkc0 hmem heq (by omega)
      apply hne e5
      rw [e6]
  obtain ⟨hf4, hnp4⟩ := runCalls_forest ops2 h.length h3 h4 hw3 hv2 hr2 hf3
  have hdis := Reach_disjoint h4 hw4.shape h.length n h.length hf4
    (hnp4 h.length (by omega) hnp3) hlt (le_refl _)
  refine ⟨hdis, ?_⟩
  obtain ⟨r, hr4, hrr4, _⟩ := ToJSON_total h4 n hw4 (by omega)
  refine ⟨r, hr4, ?_, ?_, ?_⟩
  · intro g hlen hnw hag
    show ToJSONFuel g.length g n = _
    rw [ToJSONFuel_eq g.length g n hnw, hlen,
      renderFuel_reach h4 g n (fun q hq => hag q (fun hc => hdis q hc hq)) h4.length, hrr4]
    rfl
  · intro bytes hb
    subst hb
    obtain ⟨_, d, hu, hch, _⟩ := ToJSON_object h4 n _ bytes h4 hw4 hn4 hr4
    obtain ⟨cb, cd, hj, hucb, hd⟩ := hch k h2.length (by simp [mapGet_mapSet])
    exact ⟨d, cb, cd, hu, hj, hucb, hd⟩
  · intro ht2'
    obtain ⟨r', h5, h6, h7⟩ := orphaned_untouched h n k ops1 ops2 h1 h2 h3 h4 h.length h2.length
      hw ha1 hv1 ht1 hr1 ha2 hv2 ht2' hr2
    rw [hr4] at h5
    simp only [Option.some.injEq, Prod.mk.injEq, and_true] at h5
    subst h5
    exact ⟨h6, h7⟩

set_option maxRecDepth 100000 in
/-- C4 on a fresh root: the first child at `k` gets a value and a child of its
own and is overwritten by a second `AddChild("k")`; then the first child and
the second child get one more value each. -/
theorem orphaned_child_witness :
    (∀ q, Reach orphanHeap 1 q → ¬ Reach orphanHeap 0 q) ∧
    ∃ r, ToJSON orphanHeap 0 = some (r, orphanHeap) ∧
      (∀ g : Heap, g.length = orphanHeap.length → noWriter g →
        (∀ q, ¬ Reach orphanHeap 1 q → g[q]? = orphanHeap[q]?) → ToJSON g 0 = some (r, g)) ∧
      (∀ bytes, r = (some bytes, none) →
        ∃ d cb cd, Unmarshal bytes = (.map d, none) ∧
          ToJSON orphanHeap 3 = some ((some cb, none), orphanHeap) ∧
          Unmarshal cb = (.map cd, none) ∧ mapGet d "k" = some (.map cd)) ∧
      (callsWithin 1 (some 3)
          [.setValue 1 "z" (.string "late"), .setValue 3 "w" (.bool true)] = true →
        ToJSON [element [] [("k", 1)], element [] []] 0 =
          some (r, [element [] [("k", 1)], element [] []]) ∧
        ∀ bytes, r = (some bytes, none) →
          ∃ d, Unmarshal bytes = (.map d, none) ∧ mapGet d "k" = some (.map [])) :=
  orphaned_child [element [] []] 0 "k"
    [.setValue 1 "x" (.int 5), .addChild 1 "y"]
    [.setValue 1 "z" (.string "late"), .setValue 3 "w" (.bool true)]
    [element [] [("k", 1)], element [] []]
    [element [] [("k", 1)], element [("x", .int 5)] [("y", 2)], element [] []]
    [element [] [("k", 3)], element [("x", .int 5)] [("y", 2)], element [] [], element [] []]
    orphanHeap
    1 3 (by decide) (by rfl) (by decide) (by decide) (by rfl) (by rfl) (by decide) (by decide)
    (by rfl)

/-! ## C11: the output is an object -/

theorem getLast?_append_of {α : Type} (l1 l2 : List α) (x : α) (h : l2.getLast? = some x) :
    (l1 ++ l2).getLast? = some x := by
  rw [List.getLast?_append, h]
  rfl

theorem members_getLast (depth : Nat) :
    ∀ ts : GoMap Bytes, (members [] [' ', ' '] depth ts).getLast? = some '}' := by
  intro ts
  induction ts with
  | nil =>
    simp only [members]
    exact getLast?_append_of _ _ _ rfl
  | cons e rest ih =>
    obtain ⟨k, t⟩ := e
    cases rest with
    | nil =>
      simp only [members]
      exact getLast?_append_of _ _ _ (getLast?_append_of _ _ _ rfl)
    | cons e2 more =>
      simp only [members]
      exact getLast?_append_of _ _ _ ih

theorem encodeObject_shape (depth : Nat) (ts : GoMap Bytes) :
    ∃ tl, encodeObject [] [' ', ' '] depth ts = '{' :: tl ∧
      (encodeObject [] [' ', ' '] depth ts).getLast? = some '}' := by
  cases ts with
  | nil => exact ⟨_, rfl, rfl⟩
  | cons e rest =>
    refine ⟨_, rfl, ?_⟩
    simp only [encodeObject]
    exact getLast?_append_of _ _ _ (members_getLast depth (e :: rest))

theorem MarshalIndent_map_shape (m : List (String × GoValue)) (b : Bytes)
    (h : MarshalIndent (.map m) [] [' ', ' '] = (some b, none)) :
    ∃ tl, b = '{' :: tl ∧ b.getLast? = some '}' := by
  unfold MarshalIndent at h
  rw [encodeValue_map] at h
  cases hc : collectEntries (mapValues (encodeValue [] [' ', ' '] (0 + 1)) (sortEntries m)) with
  | error e => simp [hc] at h
  | ok ts =>
    simp only [hc, Prod.mk.injEq, Option.some.injEq, and_true] at h
    obtain ⟨tl, h1, h2⟩ := encodeObject_shape 0 ts
    rw [h] at h1 h2
    exact ⟨tl, h1, h2⟩

/-- C11: when `ToJSON(n)` succeeds on a well-formed heap, the bytes are the
encoding of a map, the merged map `fd`: they start with an opening brace, end
with a closing brace and decode to an object; and the value stored under
every child key, in the merged map and in the decoded object, is an object as
well, never a scalar, an array or null. -/
theorem ToJSON_is_object (h : Heap) (n : Nat) (node : JSONElement) (bytes : Bytes) (h' : Heap)
    (hw : WFHeap h) (hn : h[n]? = some node)
    (hj : ToJSON h n = some ((some bytes, none), h')) :
    ∃ fd d tl, MarshalIndent (.map fd) [] [' ', ' '] = (some bytes, none) ∧
      bytes = '{' :: tl ∧ bytes.getLast? = some '}' ∧ Unmarshal bytes = (.map d, none) ∧
      ∀ k c, mapGet node.children k = some c →
        (∃ cfd, mapGet fd k = some (.map cfd)) ∧ ∃ cd, mapGet d k = some (.map cd) := by
  obtain ⟨hh, hr⟩ := ToJSON_render h n _ h' hw hj
  have hlt := lt_of_get h n node hn
  obtain ⟨f, hf⟩ : ∃ f, h.length = f + 1 := ⟨h.length - 1, by omega⟩
  rw [hf] at hr
  have hs := hw.shape
  have hnf := hs n node hn
  obtain ⟨hok, hvalid, hmar⟩ := renderFuel_ok_unfold h hs f n node bytes hn hr
  obtain ⟨tl, h1, h2⟩ := MarshalIndent_map_shape _ bytes hmar
  obtain ⟨_, d, hu, hch, _⟩ := ToJSON_object h n node bytes h' hw hn hj
  refine ⟨_, d, tl, hmar, h1, h2, hu, ?_⟩
  intro k c hc
  constructor
  · have hmem := mem_of_mapGet _ _ _ hc
    obtain ⟨fdc, b, _, _, _, hcd⟩ := childData_of_good (renderFuel f h) c
      (fun r hr => renderFuel_good h hs f c r hr) (hok (k, c) hmem)
    refine ⟨mapValues decoded (sortEntries fdc), ?_⟩
    rw [mapGet_fullDataOf _ _ hnf.dataKeys hnf.childKeys, hc]
    simp only [hcd, decoded_map]
  · obtain ⟨_, cd, _, _, h3⟩ := hch k c hc
    exact ⟨cd, h3⟩

/-- C11 on the demonstration heap, at the element `person`: its bytes start
with an opening brace and the value under the child key `address` is an
object. -/
theorem ToJSON_is_object_witness :
    ∃ fd d tl, MarshalIndent (.map fd) [] [' ', ' '] = (some personBytes, none) ∧
      personBytes = '{' :: tl ∧ personBytes.getLast? = some '}' ∧
      Unmarshal personBytes = (.map d, none) ∧
      (∃ cfd, mapGet fd "address" = some (.map cfd)) ∧
      ∃ cd, mapGet d "address" = some (.map cd) := by
  obtain ⟨fd, d, tl, h1, h2, h3, h4, h5⟩ := ToJSON_is_object editHeap 1
    (element [("name", .string "John Doe"), ("age", .int 30)] [("address", 2)]) personBytes
    editHeap WFHeap_editHeap rfl ToJSON_editHeap_person
  exact ⟨fd, d, tl, h1, h2, h3, h4, h5 "address" 2 rfl⟩

/-! ## C13: `SetValue` is idempotent -/

/-- C13: a second `SetValue(k, v)` on the same element changes nothing: the
two calls in a row leave the heap that one call leaves, a repeated call on
that heap returns it unchanged, and the call returns whenever no lock of the
element is held. -/
theorem SetValue_idempotent (h : Heap) (n : Nat) (k : String) (v : GoValue) :
    (SetValue h n k v).bind (fun h1 => SetValue h1 n k v) = SetValue h n k v ∧
      (∀ h1, SetValue h n k v = some h1 → SetValue h1 n k v = some h1) ∧
      (∀ node, h[n]? = some node → node.mu = { readers := 0, writer := false } →
        ∃ h1, SetValue h n k v = some h1) := by
  have key := SetValue_twice h n k v v
  refine ⟨key, ?_, ?_⟩
  · intro h1 hs
    rw [hs] at key
    exact key
  · intro node hn hi
    exact ⟨_, SetValue_idle h n k v node hn hi⟩

/-! ## C17: the order of iteration -/

/-- C17: for every well-formed tree and every two orders `h`, `h'` in which
the loops visit the `data` map and the `children` map of each element,
`ToJSON(n)` returns in both, succeeds in one exactly when it succeeds in the
other, and returns the same bytes (nil in both when it fails). -/
theorem ToJSON_order_independent (h h' : Heap) (n : Nat) (hw : WFHeap h) (hn : n < h.length)
    (ho : sameTree h h') :
    ∃ r r', ToJSON h n = some (r, h) ∧ ToJSON h' n = some (r', h') ∧
      (r.2 = none ↔ r'.2 = none) ∧ r'.1 = r.1 := by
  obtain ⟨r, r', h1, h2, ha, hg, hg'⟩ := ToJSON_perm h h' n hw ho hn
  refine ⟨r, r', h1, h2, ⟨fun hr => ?_, fun hr => ?_⟩, ?_⟩
  · rw [← ha (Or.inl hr)]
    exact hr
  · rw [ha (Or.inr hr)]
    exact hr
  · rcases hg with ⟨e, he⟩ | ⟨fd, b, he, _, _⟩
    · rcases hg' with ⟨e', he'⟩ | ⟨fd', b', he', _, _⟩
      · rw [he, he']
      · have := ha (Or.inr (by rw [he']))
        rw [this]
    · have := ha (Or.inl (by rw [he]))
      rw [this]

/-- C17 on a tree with two failing children and the two orders of its loop
over them: `ToJSON` fails in both orders. -/
theorem ToJSON_order_independent_witness :
    ∃ r r', ToJSON twoErrorsHeap 0 = some (r, twoErrorsHeap) ∧
      ToJSON twoErrorsReordered 0 = some (r', twoErrorsReordered) ∧
      (r.2 = none ↔ r'.2 = none) ∧ r'.1 = r.1 :=
  ToJSON_order_independent twoErrorsHeap twoErrorsReordered 0 WFHeap_twoErrorsHeap (by decide)
    sameTree_twoErrors

/-! ## C19 and C20: what `AddChild` and `SetValue` leave unchanged -/

theorem Reach_lt (h : Heap) (hs : wfShape h) (p q : Nat) (hp : p < h.length)
    (hr : Reach h p q) : q < h.length := by
  induction hr with
  | refl p => exact hp
  | step p node kc q hget hkc _ ih => exact ih ((hs p node hget).childPtr kc hkc).2

theorem Reach_frame (h g : Heap) (a q : Nat) (hr : Reach h a q)
    (hag : ∀ x, Reach h a x → g[x]? = h[x]?) : Reach g a q := by
  induction hr with
  | refl p => exact Reach.refl p
  | step p node kc q hget hkc hrest ih =>
    refine Reach.step p node kc q ?_ hkc (ih ?_)
    · rw [hag p (Reach.refl p)]
      exact hget
    · intro x hx
      exact hag x (Reach.step p node kc x hget hkc hx)

/-- C19: `n.AddChild(k)` on a well-formed heap returns the address `c` of a
new element with empty `data` and empty `children`, now stored at
`n.children[k]`; the lock and the `data` of `n` are unchanged (also a value at
`k`), every other key of `n.children` holds what it held, every other element
of the heap is unchanged, and so every child of `n` at another key keeps its
whole subtree. -/
theorem AddChild_frame (h h' : Heap) (n c : Nat) (k : String) (hw : WFHeap h)
    (ha : AddChild h n k = some (h', c)) :
    ∃ node node', h[n]? = some node ∧ h'[n]? = some node' ∧
      node'.data = node.data ∧ node'.mu = node.mu ∧
      c = h.length ∧ h'.length = h.length + 1 ∧
      mapGet node'.children k = some c ∧ h'[c]? = some (element [] []) ∧
      (∀ k', k' ≠ k → mapGet node'.children k' = mapGet node.children k') ∧
      (∀ q, q ≠ n → q < h.length → h'[q]? = h[q]?) ∧
      (∀ k' c' q, k' ≠ k → mapGet node.children k' = some c' → Reach h c' q →
        h'[q]? = h[q]? ∧ Reach h' c' q) := by
  obtain ⟨_, hc, node, hn, e⟩ := WFHeap_addChild h h' n c k hw ha
  have hlt := lt_of_get h n node hn
  have hother : ∀ q, q ≠ n → q < h.length → h'[q]? = h[q]? := by
    intro q hq hql
    rw [e, List.getElem?_set]
    simp only [Ne.symm hq, if_false]
    exact List.getElem?_append_left hql
  have hlen : (h ++ [freshElement]).length = h.length + 1 := by simp
  have hn' : h'[n]? = some { node with children := mapSet node.children k h.length } := by
    rw [e]
    exact List.getElem?_set_self (by omega)
  have hk : mapGet (mapSet node.children k h.length) k = some c := by
    rw [mapGet_mapSet, if_pos rfl, hc]
  refine ⟨node, _, hn, hn', rfl, rfl, hc, by rw [e, List.length_set, hlen], hk, ?_, ?_,
    hother, ?_⟩
  · rw [hc, e, List.getElem?_set]
    have : ¬ n = h.length := by omega
    simp only [this, if_false]
    exact List.getElem?_concat_length h _
  · intro k' hk'
    show mapGet (mapSet node.children k h.length) k' = _
    rw [mapGet_mapSet, if_neg (Ne.symm hk')]
  · intro k' c' q hk hc' hr
    have hptr := (hw.shape n node hn).childPtr (k', c') (mem_of_mapGet _ _ _ hc')
    have hsub : ∀ x, Reach h c' x → h'[x]? = h[x]? := by
      intro x hx
      have h1 := Reach_le h hw.shape c' x hx
      have h2 := Reach_lt h hw.shape c' x hptr.2 hx
      exact hother x (by omega) h2
    exact ⟨hsub q hr, Reach_frame h h' c' q hr hsub⟩

/-- C19 on the demonstration heap: `AddChild("phone")` on `person` keeps the
values of `person`, the child `address` and its element, and returns the new
empty element at address 3. -/
theorem AddChild_frame_witness :
    ∃ node node', editHeap[1]? = some node ∧
      ((editHeap ++ [element [] []]).set 1
        (element [("name", .string "John Doe"), ("age", .int 30)]
          [("address", 2), ("phone", 3)]))[1]? = some node' ∧
      node'.data = node.data ∧ mapGet node'.children "phone" = some 3 ∧
      mapGet node'.children "address" = mapGet node.children "address" ∧
      ((editHeap ++ [element [] []]).set 1
        (element [("name", .string "John Doe"), ("age", .int 30)]
          [("address", 2), ("phone", 3)]))[2]? = editHeap[2]? := by
  obtain ⟨node, node', h1, h2, h3, _, _, _, h4, _, h5, h6, _⟩ := AddChild_frame editHeap
    ((editHeap ++ [element [] []]).set 1
      (element [("name", .string "John Doe"), ("age", .int 30)]
        [("address", 2), ("phone", 3)])) 1 3 "phone" WFHeap_editHeap (by rfl)
  exact ⟨node, node', h1, h2, h3, h4, h5 "address" (by decide), h6 2 (by decide) (by decide)⟩

/-- C20: when `n.SetValue(k, v)` returns, the element `n` holds `v` at
`data[k]` and what it held at every other key of `data`; its `children` (also
a child at the key `k`) and its lock are what they were, and every other
element of the heap, whether ancestor, sibling or descendant, is unchanged. -/
theorem SetValue_frame (h h' : Heap) (n : Nat) (k : String) (v : GoValue)
    (hs : SetValue h n k v = some h') :
    ∃ node node', h[n]? = some node ∧ h'[n]? = some node' ∧
      mapGet node'.data k = some v ∧
      (∀ k', k' ≠ k → mapGet node'.data k' = mapGet node.data k') ∧
      node'.children = node.children ∧ node'.mu = node.mu ∧
      h'.length = h.length ∧ ∀ q, q ≠ n → h'[q]? = h[q]? := by
  cases hn : h[n]? with
  | none => rw [SetValue_none h n k v hn] at hs; simp at hs
  | some node =>
    by_cases hi : node.mu = { readers := 0, writer := false }
    · have hlt := lt_of_get h n node hn
      rw [SetValue_idle h n k v node hn hi] at hs
      simp only [Option.some.injEq] at hs
      subst hs
      refine ⟨node, _, rfl, List.getElem?_set_self hlt, by simp [mapGet_mapSet], ?_, rfl, rfl,
        by simp, ?_⟩
      · intro k' hk
        simp [mapGet_mapSet, Ne.symm hk]
      · intro q hq
        rw [List.getElem?_set]
        simp [Ne.symm hq]
    · rw [SetValue_busy h n k v node hn hi] at hs
      simp at hs

/-- C20 on the demonstration heap: `SetValue("age", 31)` on `person` changes
the value at `age` only. -/
theorem SetValue_frame_witness :
    ∃ node node', editHeap[1]? = some node ∧
      (editHeap.set 1 (element [("name", .string "John Doe"), ("age", .int 31)]
        [("address", 2)]))[1]? = some node' ∧
      mapGet node'.data "age" = some (.int 31) ∧
      mapGet node'.data "name" = mapGet node.data "name" ∧
      node'.children = node.children ∧
      (editHeap.set 1 (element [("name", .string "John Doe"), ("age", .int 31)]
        [("address", 2)]))[2]? = editHeap[2]? := by
  obtain ⟨node, node', h1, h2, h3, h4, h5, _, _, h6⟩ := SetValue_frame editHeap
    (editHeap.set 1 (element [("name", .string "John Doe"), ("age", .int 31)] [("address", 2)]))
    1 "age" (.int 31) (by rfl)
  exact ⟨node, node', h1, h2, h3, h4 "name" (by decide), h5, h6 2 (by decide)⟩

/-! ## C18: the re-parse step -/

set_option maxRecDepth 1000000 in
set_option exponentiation.threshold 1100 in
theorem ToJSON_bigNumber_child :
    (ToJSON bigNumberHeap 1).map (fun r => (r.1.2, (Unmarshal (r.1.1.getD [])).2)) =
      some (none, some (.unmarshalType "number")) := by
  rfl

set_option maxRecDepth 1000000 in
set_option exponentiation.threshold 1100 in
theorem ToJSON_bigNumber_root :
    ToJSON bigNumberHeap 0 = some ((none, some (.unmarshalType "number")), bigNumberHeap) := by
  rfl

/-- C18, as stated, fails: the child of `bigNumberHeap` holds the integer
`2 ^ 1024`; its `ToJSON` returns bytes without error, decoding these bytes
fails because the number does not fit a float64, and `ToJSON` of the root
returns that decoding error, which no encode step produced. -/
theorem C18_counterexample :
    ¬ reparseClaim bigNumberHeap 1 ∧
      ToJSON bigNumberHeap 0 =
        some ((none, some (.unmarshalType "number")), bigNumberHeap) := by
  refine ⟨?_, ToJSON_bigNumber_root⟩
  intro hc
  have hev := ToJSON_bigNumber_child
  cases hj : ToJSON bigNumberHeap 1 with
  | none => simp [hj] at hev
  | some rg =>
    obtain ⟨⟨bytes, err⟩, g⟩ := rg
    simp only [hj, Option.map_some', Option.some.injEq, Prod.mk.injEq] at hev
    obtain ⟨h1, h2⟩ := hev
    subst h1
    cases bytes with
    | none =>
      have hunm : (Unmarshal []).2 = some .syntaxError := by rfl
      simp only [Option.getD_none] at h2
      rw [hunm] at h2
      simp at h2
    | some b =>
      obtain ⟨d, hd⟩ := hc b g hj
      simp only [Option.getD_some] at h2
      rw [hd] at h2
      simp at h2

/-- C18, amended: on a well-formed heap, whose values are strings, booleans,
null, integers of the built-in types and what the decoder makes of these,
`ToJSON(c)` returns for every element `c`; when it returns bytes without
error, decoding them into a string-keyed map succeeds, so the decoding branch
of the parent's `ToJSON` is not taken; and when it returns an error, the error
is that of an encode step, an unsupported type. -/
theorem ToJSON_reparse (h : Heap) (c : Nat) (hw : WFHeap h) (hc : c < h.length) :
    ∃ r, ToJSON h c = some (r, h) ∧
      (∀ bytes, r = (some bytes, none) → ∃ d, Unmarshal bytes = (.map d, none)) ∧
      (∀ e, r.2 = some e → ∃ typ, e = .unsupportedType typ) := by
  obtain ⟨r, hr, hrr, hg⟩ := ToJSON_total h c hw hc
  refine ⟨r, hr, ?_, ?_⟩
  · intro bytes hb
    subst hb
    obtain ⟨_, d, hu, _⟩ := ToJSON_object h c h[c] bytes h hw (List.getElem?_eq_getElem hc) hr
    exact ⟨d, hu⟩
  · intro e he
    obtain ⟨x, err⟩ := r
    simp only at he
    subst he
    exact renderFuel_error h hw.shape h.length c x e hrr

/-- C18, amended, on the root of `twoErrorsHeap`, whose `ToJSON` fails: the
error is that of an encode step. -/
theorem ToJSON_reparse_witness :
    ∃ r, ToJSON twoErrorsHeap 0 = some (r, twoErrorsHeap) ∧
      (∀ bytes, r = (some bytes, none) → ∃ d, Unmarshal bytes = (.map d, none)) ∧
      (∀ e, r.2 = some e → ∃ typ, e = .unsupportedType typ) :=
  ToJSON_reparse twoErrorsHeap 0 WFHeap_twoErrorsHeap (by decide)

/-! ## C16: serialize-then-reparse and the direct merge -/

/-- C12: when `ToJSON(n)` succeeds on a well-formed heap, the bytes are
`json.MarshalIndent(fd, "", "  ")` of the merged map `fd` (at a child key the
object decoded from the child's `ToJSON`, at any other key the value of
`data`), and they are the layout of `fd` with the keys of the root at depth 1:
every member of a non-empty object at depth `d` starts a line of its own with
exactly `2 * d` spaces and the closing brace stands on a line of its own with
`2 * (d - 1)` spaces. The loop over the children uses a child's bytes only
through their decoding, so another indentation `f` of the children's bytes
leaves its result unchanged. -/
theorem ToJSON_indentation (h : Heap) (n : Nat) (node : JSONElement) (bytes : Bytes) (h' : Heap)
    (hw : WFHeap h) (hn : h[n]? = some node)
    (hj : ToJSON h n = some ((some bytes, none), h')) :
    ∃ fd, MarshalIndent (.map fd) [] [' ', ' '] = (some bytes, none) ∧
      layout 1 (.map fd) = .ok bytes ∧
      (∀ k c, mapGet node.children k = some c →
        ∃ cb cd, ToJSON h c = some ((some cb, none), h) ∧ Unmarshal cb = (.map cd, none) ∧
          mapGet fd k = some (.map cd)) ∧
      (∀ k, mapGet node.children k = none → mapGet fd k = mapGet node.data k) ∧
      (∀ (f : Bytes → Bytes), (∀ b, Unmarshal (f b) = Unmarshal b) →
        ∀ toJSON g fd0, mergeChildren (reindented f toJSON) node.children g fd0 =
          mergeChildren toJSON node.children g fd0) := by
  obtain ⟨hh, hr⟩ := ToJSON_render h n _ h' hw hj
  have hlt := lt_of_get h n node hn
  obtain ⟨f, hf⟩ : ∃ f, h.length = f + 1 := ⟨h.length - 1, by omega⟩
  rw [hf] at hr
  have hs := hw.shape
  have hnf := hs n node hn
  obtain ⟨hok, hvalid, hmar⟩ := renderFuel_ok_unfold h hs f n node bytes hn hr
  refine ⟨_, hmar, MarshalIndent_layout _ bytes hmar, ?_, ?_, ?_⟩
  · intro k c hc
    have hmem := mem_of_mapGet _ _ _ hc
    obtain ⟨fdc, b, hrc, hvc, hmc, hcd⟩ := childData_of_good (renderFuel f h) c
      (fun r hr => renderFuel_good h hs f c r hr) (hok (k, c) hmem)
    have hrc' : renderFuel h.length h c = some (some b, none) :=
      renderFuel_mono h f h.length c _ (by omega) hrc
    refine ⟨b, mapValues decoded (sortEntries fdc), ?_, ?_, ?_⟩
    · rw [ToJSON_eq h c hw, hrc']
      rfl
    · rw [Unmarshal_MarshalIndent fdc b hvc hmc, decoded_map]
    · rw [mapGet_fullDataOf _ _ hnf.dataKeys hnf.childKeys, hc]
      simp only [hcd, decoded_map]
  · intro k hc
    rw [mapGet_fullDataOf _ _ hnf.dataKeys hnf.childKeys, hc]
  · intro f hf toJSON g fd0
    exact mergeChildren_reindented f hf toJSON node.children g fd0

/-- C12 on the tree of the demonstration, at its root: the bytes are the
layout of a map that holds at `person` the object decoded from the bytes of
`person`, whose own rendering has its keys at depth 1. -/
theorem ToJSON_indentation_witness :
    ∃ fd, MarshalIndent (.map fd) [] [' ', ' '] = (some editBytes, none) ∧
      layout 1 (.map fd) = .ok editBytes ∧
      (∃ cb cd, ToJSON editHeap 1 = some ((some cb, none), editHeap) ∧
        Unmarshal cb = (.map cd, none) ∧ mapGet fd "person" = some (.map cd)) ∧
      mapGet fd "version" = some (.string "1.0.0") := by
  obtain ⟨fd, h1, h2, h3, h4, _⟩ := ToJSON_indentation editHeap 0
    (element [("projectName", .string "Dynamic JSON Builder"), ("version", .string "1.0.0")]
      [("person", 1)]) editBytes editHeap WFHeap_editHeap rfl ToJSON_editHeap_root
  exact ⟨fd, h1, h2, h3 "person" 1 rfl, by rw [h4 "version" rfl]; rfl⟩

/-! ## C15: the lock discipline -/

theorem SetValue_shape (h h' : Heap) (n : Nat) (k : String) (v : GoValue)
    (hs : SetValue h n k v = some h') :
    ∃ node, h[n]? = some node ∧ node.mu = { readers := 0, writer := false } ∧
      h' = h.set n { node with data := mapSet node.data k v } := by
  cases hn : h[n]? with
  | none => rw [SetValue_none h n k v hn] at hs; simp at hs
  | some node =>
    by_cases hi : node.mu = { readers := 0, writer := false }
    · rw [SetValue_idle h n k v node hn hi] at hs
      exact ⟨node, rfl, hi, (Option.some.inj hs).symm⟩
    · rw [SetValue_busy h n k v node hn hi] at hs
      simp at hs

set_option maxRecDepth 100000 in
theorem ToJSONLog_editHeap :
    ToJSONLog editHeap.length editHeap 0 =
      some (((some editBytes, none), editHeap),
        [.rlock 0, .rlock 1, .rlock 2, .runlock 2, .runlock 1, .runlock 0]) := by
  rfl

/-- C15, as stated, fails: in `ToJSON` of the root of the demonstration the
lock operations are `RLock` of the root, of `person` and of `address`, then
`RUnlock` of `address`, of `person` and of the root; the recursive call on
`person` runs between `RLock` and the deferred `RUnlock` of the root, while
the read lock of the root is held. -/
theorem C15_counterexample : ¬ lockClaim editHeap 0 := by
  intro hc
  have := hc _ _ _ ToJSONLog_editHeap
  exact absurd this (by decide)

/-- C15, amended: on a well-formed heap `ToJSON(n)` takes the read lock of
`n` first and releases it last, on return; every lock operation in between is
one of a recursive call on a descendant of `n`, so the read lock of `n` is held
while the recursive `ToJSON` of every child runs, and when `n` has a child the
operation after `RLock` of `n` is `RLock` of the first child of the loop.
`SetValue` and `AddChild`, which call no other element, return with every lock
as it was. -/
theorem ToJSON_lock_held (h : Heap) (n : Nat) (node : JSONElement) (hw : WFHeap h)
    (hn : h[n]? = some node) :
    ∃ r inner, ToJSONLog h.length h n = some ((r, h), .rlock n :: inner ++ [.runlock n]) ∧
      ToJSON h n = some (r, h) ∧
      (∀ ev ∈ inner, n < elementOf ev) ∧
      (∀ k c rest, node.children = (k, c) :: rest → ∃ tail, inner = .rlock c :: tail) ∧
      (∀ k v h1, SetValue h n k v = some h1 →
        ∀ q : Nat, (h1[q]?).map (fun e : JSONElement => e.mu) =
          (h[q]?).map (fun e : JSONElement => e.mu)) ∧
      (∀ k h1 c, AddChild h n k = some (h1, c) →
        ∀ q : Nat, q < h.length → (h1[q]?).map (fun e : JSONElement => e.mu) =
          (h[q]?).map (fun e : JSONElement => e.mu)) := by
  have hlt := lt_of_get h n node hn
  obtain ⟨r, hr, hrr, _⟩ := ToJSON_total h n hw hlt
  obtain ⟨f, hf⟩ : ∃ f, h.length = f + 1 := ⟨h.length - 1, by omega⟩
  have hs := hw.shape
  have hnf := hs n node hn
  refine ⟨r, traceChildren (renderFuel f h) (traceFuel f h) node.children, ?_, hr, ?_, ?_, ?_, ?_⟩
  · rw [ToJSONLog_eq h.length h n hw.noWriter, hrr]
    simp only [Option.map_some', hf, traceFuel, hn]
  · intro ev hev
    obtain ⟨kc, hkc, hin⟩ := traceChildren_mem _ _ _ _ hev
    have := traceFuel_ge h hs f kc.2 ev hin
    have := (hnf.childPtr kc hkc).1
    omega
  · intro k c rest hch
    have hptr := hnf.childPtr (k, c) (by rw [hch]; exact List.mem_cons_self _ _)
    simp only at hptr
    obtain ⟨tail, ht⟩ := traceChildren_head (renderFuel f h) (traceFuel f h) k c rest
    obtain ⟨f', hf'⟩ : ∃ f', f = f' + 1 := ⟨f - 1, by omega⟩
    rw [hch, ht, hf']
    have hc : h[c]? = some h[c] := List.getElem?_eq_getElem hptr.2
    simp only [traceFuel, hc, List.cons_append]
    exact ⟨_, rfl⟩
  · intro k v h1 hsv q
    obtain ⟨nd, hnd, _, e⟩ := SetValue_shape h h1 n k v hsv
    rw [e, List.getElem?_set]
    by_cases hq : n = q
    · subst hq
      simp only [if_true, hlt, hnd, Option.map_some']
    · simp only [hq, if_false]
  · intro k h1 c ha q hq
    obtain ⟨_, _, nd, hnd, e⟩ := WFHeap_addChild h h1 n c k hw ha
    rw [e, List.getElem?_set]
    by_cases hqn : n = q
    · subst hqn
      have : n < (h ++ [freshElement]).length := by simp; omega
      simp only [if_true, this, hnd, Option.map_some']
    · simp only [hqn, if_false]
      rw [List.getElem?_append_left hq]

/-- C15, amended, on the root of the demonstration. -/
theorem ToJSON_lock_held_witness :
    ∃ r inner, ToJSONLog editHeap.length editHeap 0 =
        some ((r, editHeap), .rlock 0 :: inner ++ [.runlock 0]) ∧
      ToJSON editHeap 0 = some (r, editHeap) ∧
      (∀ ev ∈ inner, 0 < elementOf ev) ∧ ∃ tail, inner = .rlock 1 :: tail := by
  obtain ⟨r, inner, h1, h2, h3, h4, _⟩ := ToJSON_lock_held editHeap 0
    (element [("projectName", .string "Dynamic JSON Builder"), ("version", .string "1.0.0")]
      [("person", 1)]) WFHeap_editHeap rfl
  exact ⟨r, inner, h1, h2, h3, h4 "person" 1 [] rfl⟩

/-! ## C14: concurrent calls of `SetValue` -/

theorem ToJSON_merged (h : Heap) (n : Nat) (node : JSONElement) (bytes : Bytes) (h' : Heap)
    (hw : WFHeap h) (hn : h[n]? = some node)
    (hj : ToJSON h n = some ((some bytes, none), h')) :
    ∃ fd, MarshalIndent (.map fd) [] [' ', ' '] = (some bytes, none) ∧
      ∀ k, mapGet node.children k = none → mapGet fd k = mapGet node.data k := by
  obtain ⟨_, hr⟩ := ToJSON_render h n _ h' hw hj
  have hlt := lt_of_get h n node hn
  obtain ⟨f, hf⟩ : ∃ f, h.length = f + 1 := ⟨h.length - 1, by omega⟩
  rw [hf] at hr
  have hnf := hw.shape n node hn
  obtain ⟨_, _, hmar⟩ := renderFuel_ok_unfold h hw.shape f n node bytes hn hr
  refine ⟨_, hmar, ?_⟩
  intro k hc
  rw [mapGet_fullDataOf _ _ hnf.dataKeys hnf.childKeys, hc]

/-- C14: take `N` concurrent calls `n.SetValue(k, v)` with pairwise distinct
keys on a well-formed heap, and any interleaving `sched` of their statements
(`Lock`, the write, `Unlock`). In every state of the interleaving at most one
call is between its `Lock` and its `Unlock`. When all calls have returned, the
heap is well formed again, `n.data` holds the value of every call at its key
and what it held at every other key, `n.children` and every other element are
unchanged, and a subsequent `ToJSON(n)` returns; when it returns bytes, they
encode a map that holds the value of every call at its key, unless a child has
that key. -/
theorem concurrent_SetValue (h : Heap) (n : Nat) (node : JSONElement)
    (calls : List (String × GoValue)) (sched : List Nat) (g : Heap) (pcs : List Nat)
    (hw : WFHeap h) (hn : h[n]? = some node) (hk : (calls.map Prod.fst).Nodup)
    (hv : ∀ kv ∈ calls, validValue kv.2 = true)
    (hrun : runSchedule n calls sched h (List.replicate calls.length 0) = some (g, pcs)) :
    (∀ (i j a b : Nat), pcs[i]? = some a → pcs[j]? = some b → (a = 1 ∨ a = 2) →
      (b = 1 ∨ b = 2) → i = j) ∧
    ((∀ pc ∈ pcs, pc = 3) →
      WFHeap g ∧ ∃ node', g[n]? = some node' ∧ node'.children = node.children ∧
        (∀ kv ∈ calls, mapGet node'.data kv.1 = some kv.2) ∧
        (∀ k, k ∉ calls.map Prod.fst → mapGet node'.data k = mapGet node.data k) ∧
        (∀ q, q ≠ n → g[q]? = h[q]?) ∧
        ∃ r, ToJSON g n = some (r, g) ∧
          ∀ bytes, r = (some bytes, none) →
            ∃ fd, MarshalIndent (.map fd) [] [' ', ' '] = (some bytes, none) ∧
              ∀ kv ∈ calls, mapGet node.children kv.1 = none →
                mapGet fd kv.1 = some kv.2) := by
  have hlt := lt_of_get h n node hn
  obtain ⟨D, holder, hlen, hhold, hg, hcrit, hdata, hother, hnd, hval⟩ :=
    runSchedule_inv h n node calls hlt hk hv sched h _ g pcs (SchedInv_start h n node calls hw hn)
      hrun
  constructor
  · intro i j a b hi hj ha hb
    have h1 := (hcrit i a hi).mp ha
    have h2 := (hcrit j b hj).mp hb
    rw [h1] at h2
    exact Option.some.inj h2
  · intro hdone
    have hnone : holder = none := by
      cases hh : holder with
      | none => rfl
      | some i =>
        exfalso
        have hi := hhold i hh
        have hpc : pcs[i]? = some pcs[i] := List.getElem?_eq_getElem hi
        have h3 := hdone pcs[i] (List.getElem_mem hi)
        have := (hcrit i pcs[i] hpc).mpr hh
        omega
    subst hnone
    have hnf := hw.shape n node hn
    have hgn : g[n]? = some
        { mu := { readers := 0, writer := false }, data := D, children := node.children } := by
      rw [hg]
      exact List.getElem?_set_self hlt
    have hwg : WFHeap g := by
      rw [hg]
      refine (WFHeap_iff _).mpr ⟨wfShape_set h n _ hw.shape
        ⟨hnd, hnf.childKeys, hnf.childPtr, hval⟩, ?_⟩
      exact idle_set h n _ ((WFHeap_iff h).mp hw).2 rfl
    have hall : ∀ kv ∈ calls, mapGet D kv.1 = some kv.2 := by
      intro kv hkv
      obtain ⟨i, hi⟩ := List.mem_iff_getElem?.mp hkv
      have hil : i < pcs.length := by
        rw [hlen]
        exact lt_of_get calls i kv hi
      have hpc : pcs[i]? = some pcs[i] := List.getElem?_eq_getElem hil
      have h3 := hdone pcs[i] (List.getElem_mem hil)
      exact hdata i pcs[i] kv hpc hi (by omega)
    refine ⟨hwg, _, hgn, rfl, hall, ?_, ?_, ?_⟩
    · intro k hk2
      apply hother k
      intro i pc kv _ hc _ he
      apply hk2
      rw [← he]
      exact List.mem_map_of_mem _ (List.mem_iff_getElem?.mpr ⟨i, hc⟩)
    · intro q hq
      rw [hg, List.getElem?_set]
      simp only [Ne.symm hq, if_false]
    · obtain ⟨r, hr, _⟩ := ToJSON_total g n hwg (lt_of_get g n _ hgn)
      refine ⟨r, hr, ?_⟩
      intro bytes hb
      subst hb
      obtain ⟨fd, hm, hfd⟩ := ToJSON_merged g n _ bytes g hwg hgn hr
      refine ⟨fd, hm, ?_⟩
      intro kv hkv hc
      rw [hfd kv.1 hc]
      exact hall kv hkv

set_option maxRecDepth 100000 in
/-- C14 on an element that holds `a`, with the two concurrent calls
`SetValue("x", 1)` and `SetValue("y", "s")` and the interleaving in which the
second call takes the lock first. -/
theorem concurrent_SetValue_witness :
    (∀ (i j a b : Nat), [3, 3][i]? = some a → [3, 3][j]? = some b → (a = 1 ∨ a = 2) →
      (b = 1 ∨ b = 2) → i = j) ∧
    ((∀ pc ∈ [3, 3], pc = 3) →
      WFHeap [element [("a", .bool true), ("y", .string "s"), ("x", .int 1)] []] ∧
      ∃ node', [element [("a", .bool true), ("y", .string "s"), ("x", .int 1)] []][0]?
          = some node' ∧
        node'.children = (element [("a", .bool true)] []).children ∧
        (∀ kv ∈ [("x", GoValue.int 1), ("y", GoValue.string "s")],
          mapGet node'.data kv.1 = some kv.2) ∧
        (∀ k, k ∉ [("x", GoValue.int 1), ("y", GoValue.string "s")].map Prod.fst →
          mapGet node'.data k = mapGet (element [("a", .bool true)] []).data k) ∧
        (∀ q, q ≠ 0 →
          [element [("a", .bool true), ("y", .string "s"), ("x", .int 1)] []][q]? =
            [element [("a", .bool true)] []][q]?) ∧
        ∃ r, ToJSON [element [("a", .bool true), ("y", .string "s"), ("x", .int 1)] []] 0 =
            some (r, [element [("a", .bool true), ("y", .string "s"), ("x", .int 1)] []]) ∧
          ∀ bytes, r = (some bytes, none) →
            ∃ fd, MarshalIndent (.map fd) [] [' ', ' '] = (some bytes, none) ∧
              ∀ kv ∈ [("x", GoValue.int 1), ("y", GoValue.string "s")],
                mapGet (element [("a", .bool true)] []).children kv.1 = none →
                  mapGet fd kv.1 = some kv.2) :=
  concurrent_SetValue [element [("a", .bool true)] []] 0 (element [("a", .bool true)] [])
    [("x", .int 1), ("y", .string "s")] [1, 1, 1, 0, 0, 0]
    [element [("a", .bool true), ("y", .string "s"), ("x", .int 1)] []] [3, 3]
    (by decide) rfl (by decide) (by decide) (by rfl)
end GoJsonGen
